import Mathlib

/-!
# A* maze search (AStar.cpp): embedding and verified properties

The search engine of `AStar.cpp` is embedded as pure functions over lists.
The frontier `potential_list` (a `std::deque<Node *>`) is a `List Node` whose
head is the front of the deque, `explored_list` (a `std::vector<Vector2 *>`)
is a `List Vector2` growing at the end, and the `while` loop of `astar` is a
fuel-indexed recursion that reports `Fault.outOfFuel` when the fuel does not
suffice.  Reads of the maze array outside its bounds, `front`/`pop_front` on an
empty deque and reads of a deque past its end are undefined in the source; the
embedding reports them as faults.
-/

namespace AStar

/-! ## Data model -/

/-- Modelled from the spec: the `Vector2` class (Vector2.hpp is not among the
sources).  A position is a pair of integers with component-wise equality and
addition. -/
structure Vector2 where
  x : Int
  y : Int
deriving DecidableEq, Repr

instance : Add Vector2 := ⟨fun a b => ⟨a.x + b.x, a.y + b.y⟩⟩

/-- Direction constant of Main.cpp: `new Vector2(-1, 0)`. -/
def LEFT : Vector2 := ⟨-1, 0⟩
/-- Direction constant of Main.cpp: `new Vector2(0, -1)`. -/
def UP : Vector2 := ⟨0, -1⟩
/-- Direction constant of Main.cpp: `new Vector2(1, 0)`. -/
def RIGHT : Vector2 := ⟨1, 0⟩
/-- Direction constant of Main.cpp: `new Vector2(0, 1)`. -/
def DOWN : Vector2 := ⟨0, 1⟩

/-- Modelled from the spec: the `Node` class (its header is not among the
sources).  A search node is a position together with a back-reference to the
node it was expanded from, or none for the root.  `root p` is `new Node()`
followed by `setPos(p)`; `child n p` is `new Node(n, p)`. -/
inductive Node where
  | root (pos : Vector2)
  | child (prev : Node) (pos : Vector2)
deriving DecidableEq, Repr

namespace Node

/-- Accessor `getPos`. -/
def getPos : Node → Vector2
  | root p => p
  | child _ p => p

/-- Accessor `getPrev`; `none` is the null pointer. -/
def getPrev : Node → Option Node
  | root _ => none
  | child n _ => some n

/-- Mutator `setPos`, as a function returning the updated node. -/
def setPos : Node → Vector2 → Node
  | root _, p => root p
  | child n _, p => child n p

/-- Modelled from the spec: `getSize`, the depth of the node, equal to the
number of moves from the start. -/
def getSize : Node → Nat
  | root _ => 0
  | child n _ => getSize n + 1

end Node

/-- The list of positions of the final path of a search. -/
abbrev Path := List Vector2

/-- The maze array together with the constants of Constants.h that `astar`
uses (`MAZE(ROWS)`, `MAZE(COLS)`, `WALL`), which are not among the sources and
are taken as parameters. -/
structure Maze where
  ROWS : Int
  COLS : Int
  WALL : Char
  cells : List Char
deriving Repr

/-- Undefined behaviour of the source, and exhaustion of the fuel of the
embedding. -/
inductive Fault where
  | outOfFuel
  | outOfRange
  | emptyDeque
deriving DecidableEq, Repr

/-- Modelled from the spec: `calculatePosIndex` (not among the sources); the
maze array is indexed by `y * cols + x`. -/
def calculatePosIndex (m : Maze) (p : Vector2) : Int :=
  p.y * m.COLS + p.x

/-- Array read `maze[i]`; outside the array the read is undefined. -/
def Maze.read (m : Maze) (i : Int) : Except Fault Char :=
  if 0 ≤ i then
    match m.cells[i.toNat]? with
    | some c => .ok c
    | none => .error .outOfRange
  else .error .outOfRange

/-! ## Helpers of AStar.cpp -/

/-- Loop of `isPosInVector` (AStar.cpp 343-351). -/
def isPosInVector (pos : Vector2) : List Vector2 → Bool
  | [] => false
  | vec :: vecs => if pos = vec then true else isPosInVector pos vecs

/-- Loop of `hasNodeExplored` (AStar.cpp 321-331): walks the parent links. -/
def hasNodeExplored : Node → Vector2 → Bool
  | .root p, pos => decide (p = pos)
  | .child prev p, pos => if p = pos then true else hasNodeExplored prev pos

/-- Loop of `haveAnyNodesExplored` (AStar.cpp 333-341). -/
def haveAnyNodesExplored : List Node → Vector2 → Bool
  | [], _ => false
  | n :: nodes, pos => if hasNodeExplored n pos then true else haveAnyNodesExplored nodes pos

/-- Width of `size_t`, the type of `list.size()`. -/
def SIZE_BITS : Nat := 64

section Generic

variable {K : Type} [LT K] [DecidableRel (fun a b : K => a < b)]

/-- The `for` loop of `insertionSortByCost` (AStar.cpp 276-290) with `n`
iterations left and loop variable `i`: `list[i]` is read, the scan continues
while the new cost is greater, the node is inserted before the first entry that
does not cost less, and it is pushed at the back when the loop runs out. -/
def insertionScan (cost : Node → Vector2 → K) (goal : Vector2) (new_node : Node)
    (list : List Node) : Nat → Nat → Except Fault (List Node)
  | 0, _ => .ok (list ++ [new_node])
  | n + 1, i =>
    match list[i]? with
    | none => .error .outOfRange
    | some e =>
      if cost e goal < cost new_node goal then
        insertionScan cost goal new_node list n (i + 1)
      else .ok (list.take i ++ new_node :: list.drop i)

/-- Function `insertionSortByCost` (AStar.cpp 269-292).  The loop bound
`list.size() - 1` is computed in `size_t`, so it wraps around when the deque
is empty after the front has been removed. -/
def insertionSortByCost (cost : Node → Vector2 → K) (list : List Node) (goal : Vector2) :
    Except Fault (List Node) :=
  match list with
  | [] => .error .emptyDeque
  | new_node :: list =>
    insertionScan cost goal new_node list ((list.length + 2 ^ SIZE_BITS - 1) % 2 ^ SIZE_BITS) 0

/-- The value `INFINITY` of a cost variable of `astar`; a cost computed by
`calculateCost` is a finite number. -/
def INFINITY : Option K := none

/-- One direction of AStar.cpp 128-143: `edge || maze[calculatePosIndex(p)] == WALL`
with the short-circuit of `||`, forcing the cost of the direction to `INFINITY`. -/
def directionCost (cost : Node → Vector2 → K) (m : Maze) (goal : Vector2) (node : Node)
    (edge : Bool) (p : Vector2) : Except Fault (Option K) :=
  if edge then .ok INFINITY
  else
    match m.read (calculatePosIndex m p) with
    | .error e => .error e
    | .ok c => if c = m.WALL then .ok INFINITY else .ok (some (cost (node.setPos p) goal))

/-- Variables of `astar` that live across iterations of its loop. -/
structure State where
  potential_list : List Node
  explored_list : List Vector2
  node : Node
  loop_count : Nat
  numNodes : Nat
deriving Repr

/-- How the loop of `astar` ended: by the `break` of the goal check or by its
condition `!potential_list.empty()`. -/
inductive Exit where
  | GOAL_FOUND
  | FRONTIER_EMPTY
deriving DecidableEq, Repr

/-- Test of AStar.cpp 155-174 for one direction. -/
def going (potential_list : List Node) (explored_list : List Vector2) (d : Option K)
    (p : Vector2) : Bool :=
  d.isSome && (!haveAnyNodesExplored potential_list p && !isPosInVector p explored_list)

/-- Push of AStar.cpp 178-216 for one direction. -/
def pushIf (b : Bool) (node : Node) (p : Vector2) (potential_list : List Node) : List Node :=
  if b then Node.child node p :: potential_list else potential_list

/-- Body of the loop of `astar` (AStar.cpp 102-236) once `loop_count` has been
incremented and `node` is the front of the frontier.  The flag of the result is
true when the body leaves the loop by `break`. -/
def iteration (cost : Node → Vector2 → K) (m : Maze) (goal : Vector2) (s : State) :
    Except Fault (State × Bool) :=
  let node := s.node
  let pos := node.getPos
  let posUp := pos + UP
  let posLeft := pos + LEFT
  let posRight := pos + RIGHT
  let posDown := pos + DOWN
  match directionCost cost m goal node (decide (pos.y ≤ 0)) posUp with
  | .error e => .error e
  | .ok distUp =>
  match directionCost cost m goal node (decide (pos.x ≤ 0)) posLeft with
  | .error e => .error e
  | .ok distLeft =>
  match directionCost cost m goal node (decide (pos.x ≥ m.COLS - 1)) posRight with
  | .error e => .error e
  | .ok distRight =>
  match directionCost cost m goal node (decide (pos.y ≥ m.ROWS - 1)) posDown with
  | .error e => .error e
  | .ok distDown =>
  let goingLeft := going s.potential_list s.explored_list distLeft posLeft
  let goingRight := going s.potential_list s.explored_list distRight posRight
  let goingUp := going s.potential_list s.explored_list distUp posUp
  let goingDown := going s.potential_list s.explored_list distDown posDown
  let sizeOfList := s.potential_list.length
  let pl := pushIf goingDown node posDown (pushIf goingRight node posRight
    (pushIf goingLeft node posLeft (pushIf goingUp node posUp s.potential_list)))
  let fullyExplored := !(goingUp || goingLeft || goingRight || goingDown)
  if pos = goal then .ok ({ s with potential_list := pl }, true)
  else
    match (if pl.length ≠ sizeOfList then insertionSortByCost cost pl goal else .ok pl) with
    | .error e => .error e
    | .ok pl =>
      if fullyExplored then
        match pl with
        | [] => .error .emptyDeque
        | _ :: rest =>
          .ok ({ s with potential_list := rest, numNodes := s.numNodes + 1,
                        explored_list := s.explored_list ++ [node.getPos] }, false)
      else .ok ({ s with potential_list := pl }, false)

/-- The `while` loop of `astar` (AStar.cpp 100-237). -/
def astarLoop (cost : Node → Vector2 → K) (m : Maze) (goal : Vector2) :
    Nat → State → Except Fault (State × Exit)
  | 0, _ => .error .outOfFuel
  | fuel + 1, s =>
    match s.potential_list with
    | [] => .ok (s, .FRONTIER_EMPTY)
    | front :: _ =>
      match iteration cost m goal { s with loop_count := s.loop_count + 1, node := front } with
      | .error e => .error e
      | .ok (s1, true) => .ok (s1, .GOAL_FOUND)
      | .ok (s1, false) => astarLoop cost m goal fuel s1

/-- State of `astar` on entry to its loop (AStar.cpp 81-98). -/
def initial (start : Vector2) : State :=
  { potential_list := [Node.root start], explored_list := [], node := Node.root start,
    loop_count := 0, numNodes := 0 }

/-- Loop of AStar.cpp 239-246: the positions of the parent chain of a node,
the node first. -/
def buildPath : Node → Path
  | .root p => [p]
  | .child prev p => p :: buildPath prev

/-- Function `astar` (AStar.cpp 79-267): the path, `loop_count` and `numNodes`. -/
def astar (cost : Node → Vector2 → K) (m : Maze) (fuel : Nat) (start goal : Vector2) :
    Except Fault (Path × Nat × Nat) :=
  match astarLoop cost m goal fuel (initial start) with
  | .error e => .error e
  | .ok (s, _) => .ok (buildPath s.node, s.loop_count, s.numNodes)

end Generic

/-! ## The cost f = g + h -/

/-- A cost `g + sqrt d2`, kept exactly: `g` is the depth and `d2` the squared
Euclidean distance to the goal.  Binary floating point is not modelled; costs
are compared as real numbers. -/
structure Cost where
  g : Nat
  d2 : Nat
deriving DecidableEq, Repr

/-- Exact test of `a.g + sqrt a.d2 < b.g + sqrt b.d2` in integer arithmetic. -/
def Cost.lt (a b : Cost) : Bool :=
  if a.g ≤ b.g then
    let d : Int := b.g - a.g
    let t : Int := (a.d2 : Int) - d * d - b.d2
    if t < 0 then true else decide (t * t < 4 * d * d * b.d2)
  else
    let e : Int := a.g - b.g
    let s : Int := (b.d2 : Int) - a.d2 - e * e
    if s ≤ 0 then false else decide (4 * e * e * a.d2 < s * s)

instance : LT Cost := ⟨fun a b => Cost.lt a b = true⟩

instance : DecidableRel (fun a b : Cost => a < b) :=
  fun a b => inferInstanceAs (Decidable (Cost.lt a b = true))

/-- Modelled from the spec: `Vector2::distTo` (not among the sources), the
Euclidean distance, kept as its square. -/
def distToSq (a b : Vector2) : Nat :=
  ((a.x - b.x) * (a.x - b.x) + (a.y - b.y) * (a.y - b.y)).toNat

/-- Function `calculateCost` (AStar.cpp 294-297): `getSize() + getPos()->distTo(*goal)`. -/
def calculateCost (node : Node) (goal : Vector2) : Cost :=
  ⟨node.getSize, distToSq node.getPos goal⟩

/-! ## Vocabulary of the properties -/

/-- Manhattan distance between two positions. -/
def manhattan (a b : Vector2) : Nat :=
  (a.x - b.x).natAbs + (a.y - b.y).natAbs

/-- The maze array has exactly `ROWS * COLS` cells. -/
def Maze.wellFormed (m : Maze) : Prop :=
  (m.cells.length : Int) = m.ROWS * m.COLS

/-- The position lies inside the grid. -/
def Maze.inBounds (m : Maze) (p : Vector2) : Prop :=
  0 ≤ p.x ∧ p.x < m.COLS ∧ 0 ≤ p.y ∧ p.y < m.ROWS

/-- The cell of the position is tagged as a wall. -/
def Maze.isWall (m : Maze) (p : Vector2) : Prop :=
  m.cells[(calculatePosIndex m p).toNat]? = some m.WALL

/-- An in-bounds cell that is not a wall. -/
def Maze.free (m : Maze) (p : Vector2) : Prop :=
  m.inBounds p ∧ ¬ m.isWall p

instance (m : Maze) (p : Vector2) : Decidable (m.inBounds p) := by
  unfold Maze.inBounds; infer_instance

instance (m : Maze) (p : Vector2) : Decidable (m.isWall p) := by
  unfold Maze.isWall; infer_instance

instance (m : Maze) (p : Vector2) : Decidable (m.free p) := by
  unfold Maze.free; infer_instance

instance (m : Maze) : Decidable m.wellFormed := by
  unfold Maze.wellFormed; infer_instance

/-- Every position of the grid, row by row. -/
def Maze.positions (m : Maze) : List Vector2 :=
  (List.range m.ROWS.toNat).flatMap fun (y : Nat) =>
    (List.range m.COLS.toNat).map fun (x : Nat) => Vector2.mk (Int.ofNat x) (Int.ofNat y)

/-- The in-bounds non-wall cells of the grid. -/
def Maze.freeCells (m : Maze) : List Vector2 :=
  m.positions.filter fun p => decide (m.free p)

/-- The grid contains no wall cell. -/
def Maze.wallFree (m : Maze) : Prop :=
  ∀ c ∈ m.cells, c ≠ m.WALL

instance (m : Maze) : Decidable m.wallFree := by
  unfold Maze.wallFree; infer_instance

/-- Every two consecutive positions of the list are at Manhattan distance 1:
they differ by one unit step in x or in y. -/
def stepwise : List Vector2 → Bool
  | a :: b :: rest => decide (manhattan a b = 1) && stepwise (b :: rest)
  | _ => true

/-- A sequence of 4-adjacent, in-bounds, non-wall cells from `start` to `goal`. -/
def isRoute (m : Maze) (start goal : Vector2) (cells : List Vector2) : Prop :=
  cells.head? = some start ∧ cells.getLast? = some goal ∧ (∀ c ∈ cells, m.free c) ∧
    stepwise cells = true

instance (m : Maze) (start goal : Vector2) (cells : List Vector2) :
    Decidable (isRoute m start goal cells) := by
  unfold isRoute; infer_instance

/-- Some sequence of 4-adjacent, in-bounds, non-wall cells leads from `start`
to `goal`. -/
def Reachable (m : Maze) (start goal : Vector2) : Prop :=
  ∃ cells, isRoute m start goal cells

/-- The parent links of a node lead to a root placed at `start`, each link
joining two positions at Manhattan distance 1. -/
def Node.Linked (start : Vector2) : Node → Prop
  | .root p => p = start
  | .child prev p => Node.Linked start prev ∧ manhattan prev.getPos p = 1

/-- The costs of the list are in non-decreasing order from front to back. -/
def SortedByCost {K : Type} [LT K] (cost : Node → Vector2 → K) (goal : Vector2)
    (l : List Node) : Prop :=
  List.Pairwise (fun a b => ¬ cost b goal < cost a goal) l

instance {K : Type} [LT K] [DecidableRel (fun a b : K => a < b)] (cost : Node → Vector2 → K)
    (goal : Vector2) (l : List Node) : Decidable (SortedByCost cost goal l) :=
  inferInstanceAs (Decidable (List.Pairwise (fun a b => ¬ cost b goal < cost a goal) l))

/-- Invariant of the frontier and the explored list of `astar`: the parent
chains of the frontier nodes are linked to `start` through free cells, every
position of such a chain is the position of a frontier node or is explored, no
position occurs twice among the frontier nodes and the explored list, and the
free neighbours of an explored position have all been generated. -/
structure Good (m : Maze) (start goal : Vector2) (pl : List Node) (el : List Vector2) :
    Prop where
  linked : ∀ n ∈ pl, n.Linked start
  free : ∀ n ∈ pl, ∀ p ∈ buildPath n, m.free p
  anc : ∀ n ∈ pl, ∀ p ∈ buildPath n, p ∈ pl.map Node.getPos ∨ p ∈ el
  nodup : (pl.map Node.getPos ++ el).Nodup
  efree : ∀ p ∈ el, m.free p
  egoal : ∀ p ∈ el, p ≠ goal
  closed : ∀ p ∈ el, ∀ q, manhattan p q = 1 → m.free q → q ∈ pl.map Node.getPos ∨ q ∈ el
  start_mem : start ∈ pl.map Node.getPos ∨ start ∈ el

/-- Invariant of the loop of `astar` at the loop head. -/
structure Inv (m : Maze) (start goal : Vector2) (s : State) : Prop where
  good : Good m start goal s.potential_list s.explored_list
  node_linked : s.node.Linked start
  node_free : ∀ p ∈ buildPath s.node, m.free p
  count : s.numNodes = s.explored_list.length
  loops : s.loop_count + 1 ≤ 2 * s.explored_list.length + s.potential_list.length

/-- What holds of the state in which the loop of `astar` ends. -/
structure Post (m : Maze) (start goal : Vector2) (s : State) (e : Exit) : Prop where
  good : Good m start goal s.potential_list s.explored_list
  node_linked : s.node.Linked start
  node_free : ∀ p ∈ buildPath s.node, m.free p
  count : s.numNodes = s.explored_list.length
  loops : s.loop_count ≤ 2 * s.explored_list.length + s.potential_list.length
  found : e = Exit.GOAL_FOUND → s.node.getPos = goal
  nonempty : e = Exit.GOAL_FOUND → s.potential_list ≠ []
  empty : e = Exit.FRONTIER_EMPTY → s.potential_list = []

/-- Number of loop iterations that can still follow a state. -/
def rank (m : Maze) (s : State) : Nat :=
  2 * m.freeCells.length - 2 * s.explored_list.length - s.potential_list.length

/-! ## The states of a run and the parent links -/

section Run

variable {K : Type} [LT K] [DecidableRel (fun a b : K => a < b)]

/-- The state at the head of the loop of `astar` after `n` iterations that did
not leave the loop, when the loop gets that far. -/
def loopHead (cost : Node → Vector2 → K) (m : Maze) (goal : Vector2) :
    Nat → State → Option State
  | 0, s => some s
  | n + 1, s =>
    match s.potential_list with
    | [] => none
    | front :: _ =>
      match iteration cost m goal { s with loop_count := s.loop_count + 1, node := front } with
      | .ok (s1, false) => loopHead cost m goal n s1
      | _ => none

end Run

/-- The node reached from a node by following its parent link `k` times. -/
def Node.follow : Nat → Node → Option Node
  | 0, n => some n
  | k + 1, n =>
    match n.getPrev with
    | none => none
    | some prev => Node.follow k prev

/-- The four guards of AStar.cpp 130-142 on a position, each with the
neighbour it protects: up, left, right, down. -/
def guards (m : Maze) (pos : Vector2) : List (Bool × Vector2) :=
  [(decide (pos.y ≤ 0), pos + UP), (decide (pos.x ≤ 0), pos + LEFT),
   (decide (pos.x ≥ m.COLS - 1), pos + RIGHT), (decide (pos.y ≥ m.ROWS - 1), pos + DOWN)]

/-! ## The search with a set of generated positions

A second version of the search, for comparison with `astar`: the walk over the
parent chains of the frontier is replaced by a plain set of the positions for
which a node has been created. -/

section Generated

variable {K : Type} [LT K] [DecidableRel (fun a b : K => a < b)]

/-- State of the second version: the state of `astar` and the set of generated
positions. -/
structure SetState where
  base : State
  generated : List Vector2

/-- Test of a direction against the set of generated positions. -/
def goingSet (generated : List Vector2) (d : Option K) (p : Vector2) : Bool :=
  d.isSome && !isPosInVector p generated

/-- Record the position of a pushed node. -/
def recordIf (b : Bool) (p : Vector2) (generated : List Vector2) : List Vector2 :=
  if b then p :: generated else generated

/-- Body of the loop in the second version: as `iteration`, with the filter on
the set of generated positions. -/
def iterationSet (cost : Node → Vector2 → K) (m : Maze) (goal : Vector2) (ss : SetState) :
    Except Fault (SetState × Bool) :=
  let s := ss.base
  let node := s.node
  let pos := node.getPos
  let posUp := pos + UP
  let posLeft := pos + LEFT
  let posRight := pos + RIGHT
  let posDown := pos + DOWN
  match directionCost cost m goal node (decide (pos.y ≤ 0)) posUp with
  | .error e => .error e
  | .ok distUp =>
  match directionCost cost m goal node (decide (pos.x ≤ 0)) posLeft with
  | .error e => .error e
  | .ok distLeft =>
  match directionCost cost m goal node (decide (pos.x ≥ m.COLS - 1)) posRight with
  | .error e => .error e
  | .ok distRight =>
  match directionCost cost m goal node (decide (pos.y ≥ m.ROWS - 1)) posDown with
  | .error e => .error e
  | .ok distDown =>
  let goingLeft := goingSet ss.generated distLeft posLeft
  let goingRight := goingSet ss.generated distRight posRight
  let goingUp := goingSet ss.generated distUp posUp
  let goingDown := goingSet ss.generated distDown posDown
  let sizeOfList := s.potential_list.length
  let pl := pushIf goingDown node posDown (pushIf goingRight node posRight
    (pushIf goingLeft node posLeft (pushIf goingUp node posUp s.potential_list)))
  let gen := recordIf goingDown posDown (recordIf goingRight posRight
    (recordIf goingLeft posLeft (recordIf goingUp posUp ss.generated)))
  let fullyExplored := !(goingUp || goingLeft || goingRight || goingDown)
  if pos = goal then .ok ({ base := { s with potential_list := pl }, generated := gen }, true)
  else
    match (if pl.length ≠ sizeOfList then insertionSortByCost cost pl goal else .ok pl) with
    | .error e => .error e
    | .ok pl =>
      if fullyExplored then
        match pl with
        | [] => .error .emptyDeque
        | _ :: rest =>
          .ok ({ base := { s with potential_list := rest, numNodes := s.numNodes + 1,
                                  explored_list := s.explored_list ++ [node.getPos] },
                 generated := gen }, false)
      else .ok ({ base := { s with potential_list := pl }, generated := gen }, false)

/-- The loop of the second version. -/
def astarLoopSet (cost : Node → Vector2 → K) (m : Maze) (goal : Vector2) :
    Nat → SetState → Except Fault (SetState × Exit)
  | 0, _ => .error .outOfFuel
  | fuel + 1, ss =>
    match ss.base.potential_list with
    | [] => .ok (ss, .FRONTIER_EMPTY)
    | front :: _ =>
      match iterationSet cost m goal
          { ss with base := { ss.base with loop_count := ss.base.loop_count + 1,
                                           node := front } } with
      | .error e => .error e
      | .ok (s1, true) => .ok (s1, .GOAL_FOUND)
      | .ok (s1, false) => astarLoopSet cost m goal fuel s1

/-- The second version of `astar`: the final frontier, the path, `loop_count`
and `numNodes`. -/
def astarSet (cost : Node → Vector2 → K) (m : Maze) (fuel : Nat) (start goal : Vector2) :
    Except Fault (List Node × Path × Nat × Nat) :=
  match astarLoopSet cost m goal fuel { base := initial start, generated := [start] } with
  | .error e => .error e
  | .ok (ss, _) =>
    .ok (ss.base.potential_list, buildPath ss.base.node, ss.base.loop_count, ss.base.numNodes)

end Generated

/-! ## Invariants that hold on every input -/

/-- Invariant of the frontier and the explored list that needs no assumption
on the maze: the parent chains of the frontier nodes lead to `start`, every
node met along the parent links of a frontier node is a frontier node or has
its position in the explored list, no position occurs twice among the frontier
nodes and the explored list, and no parent chain visits a position twice. -/
structure Tree (start : Vector2) (pl : List Node) (el : List Vector2) : Prop where
  linked : ∀ n ∈ pl, n.Linked start
  anc : ∀ n ∈ pl, ∀ k a, Node.follow k n = some a → a ∈ pl ∨ a.getPos ∈ el
  nodup : (pl.map Node.getPos ++ el).Nodup
  chain : ∀ n ∈ pl, (buildPath n).Nodup

/-- Invariant of the loop of `astar` that needs no assumption on the maze. -/
structure Walk (start : Vector2) (s : State) : Prop where
  tree : Tree start s.potential_list s.explored_list
  node_linked : s.node.Linked start
  node_chain : (buildPath s.node).Nodup
  count : s.numNodes = s.explored_list.length
  last : s.potential_list = [] → s.explored_list.getLast? = some s.node.getPos

/-! ## Example mazes -/

/-- A grid of the given size without walls; the wall tag is `#`. -/
def openMaze (rows cols : Nat) : Maze :=
  ⟨rows, cols, '#', List.replicate (rows * cols) ' '⟩

/-- The 3x3 grid with walls at (1,0) and (1,1): the goal (2,0) is reached from
(0,0) around the wall. -/
def detourMaze : Maze :=
  ⟨3, 3, '#', [' ', '#', ' ', ' ', '#', ' ', ' ', ' ', ' ']⟩

/-- The 1x3 corridor whose middle cell is a wall. -/
def blockedMaze : Maze :=
  ⟨1, 3, '#', [' ', '#', ' ']⟩

/-! ## insertionSortByCost -/

section SortPass

variable {K : Type} [LT K] [DecidableRel (fun a b : K => a < b)]

theorem insertionScan_shape (cost : Node → Vector2 → K) (goal : Vector2) (x : Node)
    (list : List Node) (n i : Nat) (r : List Node)
    (h : insertionScan cost goal x list n i = .ok r) :
    ∃ k, k ≤ list.length ∧ r = list.take k ++ x :: list.drop k := by
  induction n generalizing i with
  | zero =>
    simp only [insertionScan, Except.ok.injEq] at h
    exact ⟨list.length, le_refl _, by simp [← h]⟩
  | succ n ih =>
    simp only [insertionScan] at h
    cases hg : list[i]? with
    | none => simp [hg] at h
    | some e =>
      simp only [hg] at h
      split at h
      · exact ih _ h
      · simp only [Except.ok.injEq] at h
        have hi : i < list.length := by
          rcases List.getElem?_eq_some.1 hg with ⟨hlt, _⟩
          exact hlt
        exact ⟨i, le_of_lt hi, h.symm⟩

theorem insertionScan_total (cost : Node → Vector2 → K) (goal : Vector2) (x : Node)
    (list : List Node) (n i : Nat) (h : i + n ≤ list.length) :
    ∃ r, insertionScan cost goal x list n i = .ok r := by
  induction n generalizing i with
  | zero => exact ⟨_, rfl⟩
  | succ n ih =>
    have hi : i < list.length := by omega
    simp only [insertionScan, List.getElem?_eq_getElem hi]
    split
    · exact ih _ (by omega)
    · exact ⟨_, rfl⟩

theorem sizeBound_le (n : Nat) (h : 0 < n) :
    (n + 2 ^ SIZE_BITS - 1) % 2 ^ SIZE_BITS ≤ n - 1 := by
  have e : n + 2 ^ SIZE_BITS - 1 = (n - 1) + 2 ^ SIZE_BITS := by
    generalize 2 ^ SIZE_BITS = w
    omega
  rw [e, Nat.add_mod_right]
  exact Nat.mod_le _ _

/-- On a deque of at least two entries the function returns the tail of the
deque with the former front entry put back at some index. -/
theorem insertionSortByCost_shape (cost : Node → Vector2 → K) (goal : Vector2) (x : Node)
    (rest : List Node) (h : rest ≠ []) :
    ∃ k, k ≤ rest.length ∧
      insertionSortByCost cost (x :: rest) goal = .ok (rest.take k ++ x :: rest.drop k) := by
  have hpos : 0 < rest.length := List.length_pos.2 h
  have hb := sizeBound_le rest.length hpos
  obtain ⟨r, hr⟩ := insertionScan_total cost goal x rest
    ((rest.length + 2 ^ SIZE_BITS - 1) % 2 ^ SIZE_BITS) 0 (by omega)
  obtain ⟨k, hk, e⟩ := insertionScan_shape cost goal x rest _ _ r hr
  exact ⟨k, hk, by simp only [insertionSortByCost, hr, e]⟩

/-- Whenever the function returns, the result is a permutation of the deque. -/
theorem insertionSortByCost_perm (cost : Node → Vector2 → K) (goal : Vector2)
    (l r : List Node) (h : insertionSortByCost cost l goal = .ok r) : r.Perm l := by
  cases l with
  | nil => simp [insertionSortByCost] at h
  | cons x rest =>
    obtain ⟨k, _, e⟩ := insertionScan_shape cost goal x rest _ _ r h
    rw [e]
    exact List.perm_middle.trans (List.Perm.cons _ (by rw [List.take_append_drop]))

end SortPass

/-! ## The maze array -/

@[simp] theorem Vector2.add_x (a b : Vector2) : (a + b).x = a.x + b.x := rfl

@[simp] theorem Vector2.add_y (a b : Vector2) : (a + b).y = a.y + b.y := rfl

theorem index_lt (m : Maze) (p : Vector2) (hp : m.inBounds p) :
    0 ≤ calculatePosIndex m p ∧ calculatePosIndex m p < m.ROWS * m.COLS := by
  obtain ⟨hx0, hx1, hy0, hy1⟩ := hp
  unfold calculatePosIndex
  have h1 : 0 ≤ p.y * m.COLS := mul_nonneg hy0 (by omega)
  have h2 : p.y * m.COLS ≤ (m.ROWS - 1) * m.COLS :=
    mul_le_mul_of_nonneg_right (by omega) (by omega)
  constructor
  · omega
  · nlinarith

theorem read_inBounds (m : Maze) (hwf : m.wellFormed) (p : Vector2) (hp : m.inBounds p) :
    ∃ c, m.read (calculatePosIndex m p) = .ok c ∧ (c = m.WALL ↔ m.isWall p) := by
  obtain ⟨h0, h1⟩ := index_lt m p hp
  have hlt : (calculatePosIndex m p).toNat < m.cells.length := by
    unfold Maze.wellFormed at hwf
    omega
  refine ⟨m.cells[(calculatePosIndex m p).toNat], ?_, ?_⟩
  · simp [Maze.read, h0, List.getElem?_eq_getElem hlt]
  · simp [Maze.isWall, List.getElem?_eq_getElem hlt]

section Search

variable {K : Type}

theorem directionCost_eq (cost : Node → Vector2 → K) (m : Maze) (hwf : m.wellFormed)
    (goal : Vector2) (node : Node) (edge : Bool) (p : Vector2)
    (hedge : edge = true ↔ ¬ m.inBounds p) :
    directionCost cost m goal node edge p =
      .ok (if m.free p then some (cost (node.setPos p) goal) else INFINITY) := by
  unfold directionCost
  cases edge with
  | true =>
    have hnb : ¬ m.inBounds p := hedge.1 rfl
    simp [Maze.free, hnb]
  | false =>
    have hb : m.inBounds p := by
      by_contra hc
      exact absurd (hedge.2 hc) (by simp)
    obtain ⟨c, hc, hw⟩ := read_inBounds m hwf p hb
    simp only [Bool.false_eq_true, if_false, hc, Maze.free, hb, true_and]
    by_cases hcw : c = m.WALL
    · simp [hcw, hw.1 hcw]
    · have : ¬ m.isWall p := fun h => hcw (hw.2 h)
      simp [hcw, this]

/-! ## The duplicate filter -/

theorem getPos_mem_buildPath (n : Node) : n.getPos ∈ buildPath n := by
  cases n <;> simp [buildPath, Node.getPos]

theorem hasNodeExplored_iff (n : Node) (p : Vector2) :
    hasNodeExplored n p = true ↔ p ∈ buildPath n := by
  induction n with
  | root q => simp [hasNodeExplored, buildPath, eq_comm]
  | child prev q ih =>
    simp only [hasNodeExplored, buildPath, List.mem_cons]
    by_cases h : q = p
    · simp [h]
    · have h2 : ¬ p = q := fun e => h e.symm
      simp [h, h2, ih]

theorem haveAnyNodesExplored_iff (nodes : List Node) (p : Vector2) :
    haveAnyNodesExplored nodes p = true ↔ ∃ n ∈ nodes, p ∈ buildPath n := by
  induction nodes with
  | nil => simp [haveAnyNodesExplored]
  | cons n rest ih =>
    simp only [haveAnyNodesExplored, List.mem_cons, exists_eq_or_imp]
    by_cases h : hasNodeExplored n p = true
    · simp [h, (hasNodeExplored_iff n p).1 h]
    · have h2 : p ∉ buildPath n := fun e => h ((hasNodeExplored_iff n p).2 e)
      simp [h, h2, ih]

theorem isPosInVector_iff (p : Vector2) (vecs : List Vector2) :
    isPosInVector p vecs = true ↔ p ∈ vecs := by
  induction vecs with
  | nil => simp [isPosInVector]
  | cons v rest ih =>
    simp only [isPosInVector, List.mem_cons]
    by_cases h : p = v
    · simp [h]
    · simp [h, ih]

/-- Under the invariant the filter of AStar.cpp 155-174 rejects a position
exactly when it is the position of a frontier node or is explored. -/
theorem Good.covered_iff {m : Maze} {start goal : Vector2} {pl : List Node}
    {el : List Vector2} (g : Good m start goal pl el) (p : Vector2) :
    (haveAnyNodesExplored pl p = true ∨ isPosInVector p el = true) ↔
      (p ∈ pl.map Node.getPos ∨ p ∈ el) := by
  rw [haveAnyNodesExplored_iff, isPosInVector_iff]
  constructor
  · rintro (⟨n, hn, hp⟩ | h)
    · exact g.anc n hn p hp
    · exact Or.inr h
  · rintro (h | h)
    · obtain ⟨n, hn, e⟩ := List.mem_map.1 h
      exact Or.inl ⟨n, hn, e ▸ getPos_mem_buildPath n⟩
    · exact Or.inr h

theorem going_iff {m : Maze} {start goal : Vector2} {pl : List Node} {el : List Vector2}
    (g : Good m start goal pl el) (d : Option K) (p : Vector2) :
    going pl el d p = true ↔ d.isSome = true ∧ p ∉ pl.map Node.getPos ∧ p ∉ el := by
  have h := g.covered_iff p
  unfold going
  simp only [Bool.and_eq_true, Bool.not_eq_true_eq_eq_false, Bool.not_eq_true']
  constructor
  · rintro ⟨h1, h2, h3⟩
    refine ⟨h1, fun hc => ?_, fun hc => ?_⟩
    · rcases h.2 (Or.inl hc) with h4 | h4 <;> simp_all
    · rcases h.2 (Or.inr hc) with h4 | h4 <;> simp_all
  · rintro ⟨h1, h2, h3⟩
    refine ⟨h1, ?_, ?_⟩
    · by_contra hc
      rcases h.1 (Or.inl (by simpa using hc)) with h4 | h4
      · exact h2 h4
      · exact h3 h4
    · by_contra hc
      rcases h.1 (Or.inr (by simpa using hc)) with h4 | h4
      · exact h2 h4
      · exact h3 h4

/-! ## Preservation of the frontier invariant -/

theorem good_initial (m : Maze) (start goal : Vector2) (hs : m.free start) :
    Good m start goal [Node.root start] [] where
  linked := by simp [Node.Linked]
  free := by simpa [buildPath] using hs
  anc := by simp [buildPath, Node.getPos]
  nodup := by simp
  efree := by simp
  egoal := by simp
  closed := by simp
  start_mem := by simp [Node.getPos]

theorem Good.perm {m : Maze} {start goal : Vector2} {pl pl2 : List Node}
    {el : List Vector2} (g : Good m start goal pl el) (hp : pl2.Perm pl) :
    Good m start goal pl2 el where
  linked := fun n hn => g.linked n (hp.subset hn)
  free := fun n hn => g.free n (hp.subset hn)
  anc := fun n hn p hpn => by
    rcases g.anc n (hp.subset hn) p hpn with h | h
    · exact Or.inl ((hp.map Node.getPos).symm.subset h)
    · exact Or.inr h
  nodup := ((hp.map Node.getPos).append_right el).nodup_iff.2 g.nodup
  efree := g.efree
  egoal := g.egoal
  closed := fun p hpe q hq hf => by
    rcases g.closed p hpe q hq hf with h | h
    · exact Or.inl ((hp.map Node.getPos).symm.subset h)
    · exact Or.inr h
  start_mem := by
    rcases g.start_mem with h | h
    · exact Or.inl ((hp.map Node.getPos).symm.subset h)
    · exact Or.inr h

theorem Good.push {m : Maze} {start goal : Vector2} {pl : List Node} {el : List Vector2}
    (g : Good m start goal pl el) (node : Node) (hn : node ∈ pl) (q : Vector2)
    (hf : m.free q) (hadj : manhattan node.getPos q = 1) (h1 : q ∉ pl.map Node.getPos)
    (h2 : q ∉ el) : Good m start goal (Node.child node q :: pl) el where
  linked := by
    intro n hmem
    rcases List.mem_cons.1 hmem with e | h
    · subst e
      exact ⟨g.linked node hn, hadj⟩
    · exact g.linked n h
  free := by
    intro n hmem p hp
    rcases List.mem_cons.1 hmem with e | h
    · subst e
      rcases List.mem_cons.1 hp with e2 | h3
      · exact e2 ▸ hf
      · exact g.free node hn p h3
    · exact g.free n h p hp
  anc := by
    intro n hmem p hp
    have key : ∀ n2 ∈ pl, ∀ p2 ∈ buildPath n2,
        p2 ∈ (Node.child node q :: pl).map Node.getPos ∨ p2 ∈ el := by
      intro n2 hn2 p2 hp2
      rcases g.anc n2 hn2 p2 hp2 with h | h
      · exact Or.inl (List.mem_cons_of_mem _ h)
      · exact Or.inr h
    rcases List.mem_cons.1 hmem with e | h
    · subst e
      rcases List.mem_cons.1 hp with e2 | h3
      · exact Or.inl (by simp [e2, Node.getPos])
      · exact key node hn p h3
    · exact key n h p hp
  nodup := by
    have := g.nodup
    simp only [List.map_cons, List.cons_append, List.nodup_cons, Node.getPos]
    refine ⟨?_, this⟩
    simp only [List.mem_append, not_or]
    exact ⟨h1, h2⟩
  efree := g.efree
  egoal := g.egoal
  closed := by
    intro p hp r hr hfr
    rcases g.closed p hp r hr hfr with h | h
    · exact Or.inl (List.mem_cons_of_mem _ h)
    · exact Or.inr h
  start_mem := by
    rcases g.start_mem with h | h
    · exact Or.inl (List.mem_cons_of_mem _ h)
    · exact Or.inr h

theorem Good.pop {m : Maze} {start goal : Vector2} {node : Node} {rest : List Node}
    {el : List Vector2} (g : Good m start goal (node :: rest) el)
    (hgoal : node.getPos ≠ goal)
    (hcl : ∀ q, manhattan node.getPos q = 1 → m.free q →
      q ∈ (node :: rest).map Node.getPos ∨ q ∈ el) :
    Good m start goal rest (el ++ [node.getPos]) where
  linked := fun n hn => g.linked n (List.mem_cons_of_mem _ hn)
  free := fun n hn => g.free n (List.mem_cons_of_mem _ hn)
  anc := by
    intro n hn p hp
    rcases g.anc n (List.mem_cons_of_mem _ hn) p hp with h | h
    · rcases List.mem_cons.1 h with e | h3
      · exact Or.inr (by simp [e])
      · exact Or.inl h3
    · exact Or.inr (by simp [h])
  nodup := by
    have h := g.nodup
    have hperm : (rest.map Node.getPos ++ (el ++ [node.getPos])).Perm
        ((node :: rest).map Node.getPos ++ el) := by
      rw [← List.append_assoc]
      simpa using (List.perm_append_singleton node.getPos (rest.map Node.getPos ++ el))
    exact hperm.nodup_iff.2 h
  efree := by
    intro p hp
    rcases List.mem_append.1 hp with h | h
    · exact g.efree p h
    · rw [List.mem_singleton] at h
      exact h ▸ g.free node (List.mem_cons_self _ _) _ (getPos_mem_buildPath node)
  egoal := by
    intro p hp
    rcases List.mem_append.1 hp with h | h
    · exact g.egoal p h
    · rw [List.mem_singleton] at h
      exact h ▸ hgoal
  closed := by
    intro p hp q hq hfq
    have fix : (q ∈ (node :: rest).map Node.getPos ∨ q ∈ el) →
        (q ∈ rest.map Node.getPos ∨ q ∈ el ++ [node.getPos]) := by
      rintro (h | h)
      · rcases List.mem_cons.1 h with e | h3
        · exact Or.inr (by simp [e])
        · exact Or.inl h3
      · exact Or.inr (by simp [h])
    rcases List.mem_append.1 hp with h | h
    · exact fix (g.closed p h q hq hfq)
    · rw [List.mem_singleton] at h
      subst h
      exact fix (hcl q hq hfq)
  start_mem := by
    rcases g.start_mem with h | h
    · rcases List.mem_cons.1 h with e | h3
      · exact Or.inr (by simp [e])
      · exact Or.inl h3
    · exact Or.inr (by simp [h])

/-! ## One iteration of the loop -/

theorem manhattan_step (p : Vector2) :
    manhattan p (p + UP) = 1 ∧ manhattan p (p + LEFT) = 1 ∧
      manhattan p (p + RIGHT) = 1 ∧ manhattan p (p + DOWN) = 1 := by
  simp [manhattan, UP, LEFT, RIGHT, DOWN]

theorem manhattan_one (p q : Vector2) (h : manhattan p q = 1) :
    q = p + UP ∨ q = p + LEFT ∨ q = p + RIGHT ∨ q = p + DOWN := by
  obtain ⟨px, py⟩ := p
  obtain ⟨qx, qy⟩ := q
  simp only [manhattan] at h
  have e : ∀ a b : Vector2, a + b = ⟨a.x + b.x, a.y + b.y⟩ := fun _ _ => rfl
  simp only [e, UP, LEFT, RIGHT, DOWN, Vector2.mk.injEq]
  omega

theorem edge_iff (m : Maze) (p : Vector2) (hb : m.inBounds p) :
    (decide (p.y ≤ 0) = true ↔ ¬ m.inBounds (p + UP)) ∧
    (decide (p.x ≤ 0) = true ↔ ¬ m.inBounds (p + LEFT)) ∧
    (decide (p.x ≥ m.COLS - 1) = true ↔ ¬ m.inBounds (p + RIGHT)) ∧
    (decide (p.y ≥ m.ROWS - 1) = true ↔ ¬ m.inBounds (p + DOWN)) := by
  obtain ⟨h1, h2, h3, h4⟩ := hb
  simp only [Maze.inBounds, UP, LEFT, RIGHT, DOWN, Vector2.add_x, Vector2.add_y,
    decide_eq_true_eq]
  refine ⟨?_, ?_, ?_, ?_⟩ <;> omega

theorem going_ite_iff {m : Maze} {start goal : Vector2} {pl : List Node} {el : List Vector2}
    (g : Good m start goal pl el) (c : K) (p : Vector2) :
    going pl el (if m.free p then some c else INFINITY) p = true ↔
      m.free p ∧ p ∉ pl.map Node.getPos ∧ p ∉ el := by
  rw [going_iff g]
  by_cases h : m.free p <;> simp [h, INFINITY]

theorem mem_pushIf (b : Bool) (node : Node) (q : Vector2) (l : List Node) (n : Node)
    (h : n ∈ l) : n ∈ pushIf b node q l := by
  cases b <;> simp [pushIf, h]

theorem pos_mem_pushIf (b : Bool) (node : Node) (q : Vector2) (l : List Node) (p : Vector2)
    (h : p ∈ (pushIf b node q l).map Node.getPos) : p = q ∨ p ∈ l.map Node.getPos := by
  cases b with
  | false => exact Or.inr (by simpa [pushIf] using h)
  | true =>
    simp only [pushIf, if_true, List.map_cons, List.mem_cons, Node.getPos] at h
    exact h

theorem Good.pushIf {m : Maze} {start goal : Vector2} {pl : List Node} {el : List Vector2}
    (g : Good m start goal pl el) (node : Node) (hn : node ∈ pl) (b : Bool) (q : Vector2)
    (hb : b = true → m.free q ∧ manhattan node.getPos q = 1 ∧ q ∉ pl.map Node.getPos ∧ q ∉ el) :
    Good m start goal (AStar.pushIf b node q pl) el := by
  cases b with
  | false => simpa [AStar.pushIf] using g
  | true =>
    obtain ⟨h1, h2, h3, h4⟩ := hb rfl
    simpa [AStar.pushIf] using g.push node hn q h1 h2 h3 h4

theorem length_pushIf (b : Bool) (node : Node) (q : Vector2) (l : List Node) :
    (pushIf b node q l).length = l.length + (if b then 1 else 0) := by
  cases b <;> simp [pushIf]

theorem dir_ne (p : Vector2) :
    p + LEFT ≠ p + UP ∧ p + RIGHT ≠ p + UP ∧ p + RIGHT ≠ p + LEFT ∧
      p + DOWN ≠ p + UP ∧ p + DOWN ≠ p + LEFT ∧ p + DOWN ≠ p + RIGHT := by
  have e : ∀ a b : Vector2, a + b = ⟨a.x + b.x, a.y + b.y⟩ := fun _ _ => rfl
  simp only [e, UP, LEFT, RIGHT, DOWN, ne_eq, Vector2.mk.injEq]
  omega

/-- The three outcomes of the loop body at a state that satisfies the frontier
invariant and whose current node is the front of the frontier: the goal check
leaves the loop; or new nodes were pushed and the front was re-sorted; or
nothing was pushed and the current node moved to the explored list. -/
theorem iteration_cases [LT K] [DecidableRel (fun a b : K => a < b)]
    (cost : Node → Vector2 → K) (m : Maze) (hwf : m.wellFormed) (start goal : Vector2)
    (s : State) (tl : List Node) (hpl : s.potential_list = s.node :: tl)
    (g : Good m start goal s.potential_list s.explored_list) :
    (s.node.getPos = goal ∧ ∃ pl, Good m start goal pl s.explored_list ∧
        s.potential_list.length ≤ pl.length ∧
        iteration cost m goal s = .ok ({ s with potential_list := pl }, true)) ∨
    (s.node.getPos ≠ goal ∧ ∃ pl, Good m start goal pl s.explored_list ∧
        s.potential_list.length < pl.length ∧
        iteration cost m goal s = .ok ({ s with potential_list := pl }, false)) ∨
    (s.node.getPos ≠ goal ∧
        Good m start goal tl (s.explored_list ++ [s.node.getPos]) ∧
        iteration cost m goal s =
          .ok ({ s with potential_list := tl, numNodes := s.numNodes + 1,
                        explored_list := s.explored_list ++ [s.node.getPos] }, false)) := by
  have hn : s.node ∈ s.potential_list := by rw [hpl]; exact List.mem_cons_self _ _
  have hfree : m.free s.node.getPos := g.free _ hn _ (getPos_mem_buildPath _)
  obtain ⟨eU, eL, eR, eD⟩ := edge_iff m s.node.getPos hfree.1
  obtain ⟨aU, aL, aR, aD⟩ := manhattan_step s.node.getPos
  obtain ⟨n1, n2, n3, n4, n5, n6⟩ := dir_ne s.node.getPos
  have hU := directionCost_eq cost m hwf goal s.node _ _ eU
  have hL := directionCost_eq cost m hwf goal s.node _ _ eL
  have hR := directionCost_eq cost m hwf goal s.node _ _ eR
  have hD := directionCost_eq cost m hwf goal s.node _ _ eD
  have iU := going_ite_iff g (cost (s.node.setPos (s.node.getPos + UP)) goal) (s.node.getPos + UP)
  have iL := going_ite_iff g (cost (s.node.setPos (s.node.getPos + LEFT)) goal)
    (s.node.getPos + LEFT)
  have iR := going_ite_iff g (cost (s.node.setPos (s.node.getPos + RIGHT)) goal)
    (s.node.getPos + RIGHT)
  have iD := going_ite_iff g (cost (s.node.setPos (s.node.getPos + DOWN)) goal)
    (s.node.getPos + DOWN)
  simp only [iteration, hU, hL, hR, hD]
  generalize going s.potential_list s.explored_list
    (if m.free (s.node.getPos + UP) then some (cost (s.node.setPos (s.node.getPos + UP)) goal)
      else INFINITY) (s.node.getPos + UP) = gU at iU ⊢
  generalize going s.potential_list s.explored_list
    (if m.free (s.node.getPos + LEFT) then
      some (cost (s.node.setPos (s.node.getPos + LEFT)) goal)
      else INFINITY) (s.node.getPos + LEFT) = gL at iL ⊢
  generalize going s.potential_list s.explored_list
    (if m.free (s.node.getPos + RIGHT) then
      some (cost (s.node.setPos (s.node.getPos + RIGHT)) goal)
      else INFINITY) (s.node.getPos + RIGHT) = gR at iR ⊢
  generalize going s.potential_list s.explored_list
    (if m.free (s.node.getPos + DOWN) then
      some (cost (s.node.setPos (s.node.getPos + DOWN)) goal)
      else INFINITY) (s.node.getPos + DOWN) = gD at iD ⊢
  have g1 := g.pushIf s.node hn gU (s.node.getPos + UP)
    (fun h => ⟨(iU.1 h).1, aU, (iU.1 h).2.1, (iU.1 h).2.2⟩)
  have g2 := g1.pushIf s.node (mem_pushIf _ _ _ _ _ hn) gL (s.node.getPos + LEFT) (fun h =>
    ⟨(iL.1 h).1, aL, fun hc => (pos_mem_pushIf _ _ _ _ _ hc).elim n1 (iL.1 h).2.1, (iL.1 h).2.2⟩)
  have g3 := g2.pushIf s.node (mem_pushIf _ _ _ _ _ (mem_pushIf _ _ _ _ _ hn)) gR
    (s.node.getPos + RIGHT) (fun h =>
    ⟨(iR.1 h).1, aR, fun hc => (pos_mem_pushIf _ _ _ _ _ hc).elim n3
      (fun hc => (pos_mem_pushIf _ _ _ _ _ hc).elim n2 (iR.1 h).2.1), (iR.1 h).2.2⟩)
  have g4 := g3.pushIf s.node
    (mem_pushIf _ _ _ _ _ (mem_pushIf _ _ _ _ _ (mem_pushIf _ _ _ _ _ hn))) gD
    (s.node.getPos + DOWN) (fun h =>
    ⟨(iD.1 h).1, aD, fun hc => (pos_mem_pushIf _ _ _ _ _ hc).elim n6
      (fun hc => (pos_mem_pushIf _ _ _ _ _ hc).elim n5
        (fun hc => (pos_mem_pushIf _ _ _ _ _ hc).elim n4 (iD.1 h).2.1)), (iD.1 h).2.2⟩)
  have hlen : (pushIf gD s.node (s.node.getPos + DOWN) (pushIf gR s.node (s.node.getPos + RIGHT)
      (pushIf gL s.node (s.node.getPos + LEFT)
        (pushIf gU s.node (s.node.getPos + UP) s.potential_list)))).length =
      s.potential_list.length + ((if gD then 1 else 0) + (if gR then 1 else 0) +
        (if gL then 1 else 0) + (if gU then 1 else 0)) := by
    simp only [length_pushIf]
    omega
  have hsame : (gU || gL || gR || gD) = false →
      pushIf gD s.node (s.node.getPos + DOWN) (pushIf gR s.node (s.node.getPos + RIGHT)
      (pushIf gL s.node (s.node.getPos + LEFT)
        (pushIf gU s.node (s.node.getPos + UP) s.potential_list))) = s.potential_list := by
    intro h
    simp only [Bool.or_eq_false_iff] at h
    obtain ⟨⟨⟨h1, h2⟩, h3⟩, h4⟩ := h
    simp [h1, h2, h3, h4, pushIf]
  generalize pushIf gD s.node (s.node.getPos + DOWN) (pushIf gR s.node (s.node.getPos + RIGHT)
      (pushIf gL s.node (s.node.getPos + LEFT)
        (pushIf gU s.node (s.node.getPos + UP) s.potential_list))) = pl4 at g4 hlen hsame ⊢
  have hpos : 0 < s.potential_list.length := by rw [hpl]; simp
  by_cases hgoal : s.node.getPos = goal
  · left
    refine ⟨hgoal, pl4, g4, by omega, ?_⟩
    simp [hgoal]
  · right
    cases hfe : (gU || gL || gR || gD) with
    | true =>
      left
      refine ⟨hgoal, ?_⟩
      have hsum : 1 ≤ (if gD then 1 else 0) + (if gR then 1 else 0) +
          (if gL then 1 else 0) + (if gU then 1 else 0) := by
        clear iU iL iR iD g1 g2 g3 g4 hlen hsame
        revert hfe
        cases gU <;> cases gL <;> cases gR <;> cases gD <;> decide
      have hlt : s.potential_list.length < pl4.length := by omega
      obtain ⟨x, rest, hx, hrest⟩ : ∃ x rest, pl4 = x :: rest ∧ rest ≠ [] := by
        have h2 : 2 ≤ pl4.length := by omega
        rcases pl4 with _ | ⟨x, _ | ⟨y, r⟩⟩
        · simp at h2
        · simp at h2
        · exact ⟨x, y :: r, rfl, by simp⟩
      obtain ⟨k, hk, hs⟩ := insertionSortByCost_shape cost goal x rest hrest
      have hperm : (rest.take k ++ x :: rest.drop k).Perm pl4 := by
        rw [hx]
        exact List.perm_middle.trans (List.Perm.cons _ (by rw [List.take_append_drop]))
      refine ⟨rest.take k ++ x :: rest.drop k, g4.perm hperm, ?_, ?_⟩
      · rw [hperm.length_eq]; exact hlt
      · have hne : pl4.length ≠ s.potential_list.length := by omega
        simp only [hgoal, if_false, hne, ne_eq, not_false_eq_true, if_true, hx ▸ hs, hfe]
        simp
    | false =>
      right
      have hp4 := hsame hfe
      subst hp4
      have hcl : ∀ q, manhattan s.node.getPos q = 1 → m.free q →
          q ∈ (s.node :: tl).map Node.getPos ∨ q ∈ s.explored_list := by
        intro q hq hfq
        rw [← hpl]
        simp only [Bool.or_eq_false_iff] at hfe
        obtain ⟨⟨⟨h1, h2⟩, h3⟩, h4⟩ := hfe
        by_contra hc
        rw [not_or] at hc
        rcases manhattan_one _ _ hq with e | e | e | e
        · rw [e] at hfq hc; exact absurd (iU.2 ⟨hfq, hc.1, hc.2⟩) (by simp [h1])
        · rw [e] at hfq hc; exact absurd (iL.2 ⟨hfq, hc.1, hc.2⟩) (by simp [h2])
        · rw [e] at hfq hc; exact absurd (iR.2 ⟨hfq, hc.1, hc.2⟩) (by simp [h3])
        · rw [e] at hfq hc; exact absurd (iD.2 ⟨hfq, hc.1, hc.2⟩) (by simp [h4])
      refine ⟨hgoal, (hpl ▸ g).pop hgoal hcl, ?_⟩
      simp [hgoal, hfe, hpl]

/-! ## The loop -/

theorem mem_positions (m : Maze) (p : Vector2) (h : m.inBounds p) : p ∈ m.positions := by
  obtain ⟨h1, h2, h3, h4⟩ := h
  unfold Maze.positions
  rw [List.mem_flatMap]
  refine ⟨p.y.toNat, List.mem_range.2 (by omega : p.y.toNat < m.ROWS.toNat), ?_⟩
  rw [List.mem_map]
  refine ⟨p.x.toNat, List.mem_range.2 (by omega : p.x.toNat < m.COLS.toNat), ?_⟩
  obtain ⟨px, py⟩ := p
  simp only [Vector2.mk.injEq, Int.ofNat_eq_coe] at *
  constructor <;> omega

theorem mem_freeCells (m : Maze) (p : Vector2) (h : m.free p) : p ∈ m.freeCells := by
  unfold Maze.freeCells
  rw [List.mem_filter]
  exact ⟨mem_positions m p h.1, by simpa using h⟩

theorem Good.length_le {m : Maze} {start goal : Vector2} {pl : List Node}
    {el : List Vector2} (g : Good m start goal pl el) :
    pl.length + el.length ≤ m.freeCells.length := by
  have hsub : pl.map Node.getPos ++ el ⊆ m.freeCells := by
    intro p hp
    rcases List.mem_append.1 hp with h | h
    · obtain ⟨n, hn, e⟩ := List.mem_map.1 h
      exact mem_freeCells m p (e ▸ g.free n hn _ (getPos_mem_buildPath n))
    · exact mem_freeCells m p (g.efree p h)
  have := (List.subperm_of_subset g.nodup hsub).length_le
  simpa using this

/-- Rule for invariants of the loop: a property of the state that every
iteration preserves holds of the state in which the loop ends. -/
theorem astarLoop_induct [LT K] [DecidableRel (fun a b : K => a < b)]
    (cost : Node → Vector2 → K) (m : Maze) (goal : Vector2) (P : State → Prop)
    (hstep : ∀ s front tl s1 b, P s → s.potential_list = front :: tl →
      iteration cost m goal { s with loop_count := s.loop_count + 1, node := front } =
        .ok (s1, b) → P s1)
    (fuel : Nat) (s sf : State) (e : Exit) (h0 : P s)
    (h : astarLoop cost m goal fuel s = .ok (sf, e)) : P sf := by
  induction fuel generalizing s with
  | zero => rw [astarLoop] at h; simp at h
  | succ fuel ih =>
    rw [astarLoop] at h
    cases hpl : s.potential_list with
    | nil =>
      simp only [hpl, Except.ok.injEq, Prod.mk.injEq] at h
      exact h.1 ▸ h0
    | cons front tl =>
      simp only [hpl] at h
      cases hit : iteration cost m goal
          { s with potential_list := front :: tl, loop_count := s.loop_count + 1,
                   node := front } with
      | error err => simp [hit] at h
      | ok r =>
        obtain ⟨s1, b⟩ := r
        have hp1 := hstep s front tl s1 b h0 hpl (by rw [hpl]; exact hit)
        cases b with
        | true =>
          simp only [hit, Except.ok.injEq, Prod.mk.injEq] at h
          exact h.1 ▸ hp1
        | false =>
          simp only [hit] at h
          exact ih s1 hp1 h

theorem astarLoop_cons [LT K] [DecidableRel (fun a b : K => a < b)]
    (cost : Node → Vector2 → K) (m : Maze) (goal : Vector2) (fuel : Nat) (s : State)
    (front : Node) (tl : List Node) (h : s.potential_list = front :: tl) :
    astarLoop cost m goal (fuel + 1) s =
      match iteration cost m goal { s with loop_count := s.loop_count + 1, node := front } with
      | .error e => .error e
      | .ok (s1, true) => .ok (s1, .GOAL_FOUND)
      | .ok (s1, false) => astarLoop cost m goal fuel s1 := by
  rw [astarLoop]
  split
  · next h2 => rw [h] at h2; cases h2
  · next f t h2 =>
    rw [h] at h2
    cases h2
    rfl

/-- Total correctness of the loop: from a state that satisfies the invariant
the loop ends within `rank` further iterations, without fault, in a state
that satisfies `Post`. -/
theorem astarLoop_spec [LT K] [DecidableRel (fun a b : K => a < b)]
    (cost : Node → Vector2 → K) (m : Maze) (hwf : m.wellFormed) (start goal : Vector2)
    (fuel : Nat) (s : State) (hinv : Inv m start goal s) (hfuel : rank m s < fuel) :
    ∃ sf e, astarLoop cost m goal fuel s = .ok (sf, e) ∧ Post m start goal sf e := by
  induction fuel generalizing s with
  | zero => omega
  | succ fuel ih =>
    cases hpl : s.potential_list with
    | nil =>
      refine ⟨s, .FRONTIER_EMPTY, by rw [astarLoop]; simp [hpl], ?_⟩
      refine ⟨hinv.good, hinv.node_linked, hinv.node_free, hinv.count, ?_, by simp, by simp,
        fun _ => hpl⟩
      have := hinv.loops
      omega
    | cons front tl =>
      have hfront : front ∈ s.potential_list := by rw [hpl]; exact List.mem_cons_self _ _
      have hlk := hinv.good.linked front hfront
      have hfr := hinv.good.free front hfront
      have hlen := hinv.good.length_le
      have hloops := hinv.loops
      rw [astarLoop_cons cost m goal fuel s front tl hpl]
      have hc := iteration_cases cost m hwf start goal
        { s with loop_count := s.loop_count + 1, node := front } tl hpl hinv.good
      dsimp only at hc
      rcases hc with ⟨hg, pl, gpl, hle, hit⟩ | ⟨hg, pl, gpl, hlt, hit⟩ | ⟨hg, gtl, hit⟩
      · rw [hit]
        refine ⟨_, .GOAL_FOUND, rfl, ?_⟩
        have hpos : 0 < pl.length := by
          rw [hpl] at hle
          simp only [List.length_cons] at hle
          omega
        exact ⟨gpl, hlk, hfr, hinv.count, by simp only; omega, fun _ => hg,
          fun _ => List.length_pos.1 hpos, by simp⟩
      · rw [hit]
        have hlen2 := gpl.length_le
        apply ih
        · exact ⟨gpl, hlk, hfr, hinv.count, by simp only; omega⟩
        · simp only [rank] at hfuel ⊢
          omega
      · rw [hit]
        have hlen2 := gtl.length_le
        simp only [List.length_append, List.length_singleton] at hlen2
        apply ih
        · refine ⟨gtl, hlk, hfr, ?_, ?_⟩
          · simp only [List.length_append, List.length_singleton]
            rw [hinv.count]
          · simp only [List.length_append, List.length_singleton]
            rw [hpl] at hloops
            simp only [List.length_cons] at hloops
            omega
        · simp only [rank, List.length_append, List.length_singleton] at hfuel ⊢
          rw [hpl] at hfuel
          simp only [List.length_cons] at hfuel
          omega

theorem inv_initial (m : Maze) (start goal : Vector2) (hs : m.free start) :
    Inv m start goal (initial start) where
  good := good_initial m start goal hs
  node_linked := rfl
  node_free := by simpa [initial, buildPath] using hs
  count := rfl
  loops := by simp [initial]

theorem rank_initial (m : Maze) (start : Vector2) (hs : m.free start) (fuel : Nat)
    (hfuel : 2 * m.freeCells.length ≤ fuel) : rank m (initial start) < fuel := by
  have h := (good_initial m start start hs).length_le
  simp only [List.length_singleton, List.length_nil] at h
  simp only [rank, initial, List.length_singleton, List.length_nil]
  omega

/-- From a free start the search ends without fault, whatever the goal. -/
theorem astar_total [LT K] [DecidableRel (fun a b : K => a < b)]
    (cost : Node → Vector2 → K) (m : Maze) (hwf : m.wellFormed) (start goal : Vector2)
    (hs : m.free start) (fuel : Nat) (hfuel : 2 * m.freeCells.length ≤ fuel) :
    ∃ sf e, astarLoop cost m goal fuel (initial start) = .ok (sf, e) ∧
      astar cost m fuel start goal = .ok (buildPath sf.node, sf.loop_count, sf.numNodes) ∧
      Post m start goal sf e := by
  obtain ⟨sf, e, h, hpost⟩ := astarLoop_spec cost m hwf start goal fuel (initial start)
    (inv_initial m start goal hs) (rank_initial m start hs fuel hfuel)
  exact ⟨sf, e, h, by simp only [astar, h], hpost⟩

/-! ## The path -/

theorem manhattan_comm (a b : Vector2) : manhattan a b = manhattan b a := by
  simp only [manhattan]
  omega

theorem buildPath_head (n : Node) : (buildPath n).head? = some n.getPos := by
  cases n <;> rfl

theorem buildPath_ne_nil (n : Node) : buildPath n ≠ [] := by
  cases n <;> simp [buildPath]

theorem buildPath_length (n : Node) : (buildPath n).length = n.getSize + 1 := by
  induction n with
  | root p => rfl
  | child prev p ih => simp [buildPath, Node.getSize, ih]

theorem buildPath_getLast (start : Vector2) (n : Node) (h : n.Linked start) :
    (buildPath n).getLast? = some start := by
  induction n with
  | root p => simp [Node.Linked] at h; simp [buildPath, h]
  | child prev p ih =>
    rw [buildPath, List.getLast?_cons, ih h.1]
    rfl

theorem stepwise_cons (a : Vector2) (l : List Vector2) :
    stepwise (a :: l) = true ↔ (∀ b, l.head? = some b → manhattan a b = 1) ∧ stepwise l = true := by
  cases l with
  | nil => simp [stepwise]
  | cons b rest => simp [stepwise]

theorem buildPath_stepwise (start : Vector2) (n : Node) (h : n.Linked start) :
    stepwise (buildPath n) = true := by
  induction n with
  | root p => simp [buildPath, stepwise]
  | child prev p ih =>
    rw [buildPath, stepwise_cons]
    refine ⟨?_, ih h.1⟩
    intro y hy
    rw [buildPath_head] at hy
    simp only [Option.some.injEq] at hy
    rw [← hy, manhattan_comm]
    exact h.2

theorem manhattan_le_getSize (start : Vector2) (n : Node) (h : n.Linked start) :
    manhattan start n.getPos ≤ n.getSize ∧ (n.getSize + manhattan start n.getPos) % 2 = 0 := by
  induction n with
  | root p =>
    simp only [Node.Linked] at h
    simp [h, manhattan, Node.getPos, Node.getSize]
  | child prev p ih =>
    have h1 := ih h.1
    have h2 := h.2
    simp only [manhattan, Node.getPos, Node.getSize] at h1 h2 ⊢
    omega

/-! ## What an iteration does on any input -/

theorem mem_pushIf_cases (b : Bool) (node : Node) (q : Vector2) (l : List Node) (n : Node)
    (h : n ∈ pushIf b node q l) : n = Node.child node q ∨ n ∈ l := by
  cases b with
  | false => exact Or.inr (by simpa [pushIf] using h)
  | true => simpa [pushIf] using h

/-- Whenever the loop body returns, it keeps the current node, leaves the loop
only at the goal, and every node of the new frontier is an old one or a child
of the current node placed one step away from it. -/
theorem iteration_sound [LT K] [DecidableRel (fun a b : K => a < b)]
    (cost : Node → Vector2 → K) (m : Maze) (goal : Vector2) (s s1 : State) (b : Bool)
    (h : iteration cost m goal s = .ok (s1, b)) :
    s1.node = s.node ∧ s1.loop_count = s.loop_count ∧ (b = true → s.node.getPos = goal) ∧
      ∀ n ∈ s1.potential_list, n ∈ s.potential_list ∨
        ∃ q, manhattan s.node.getPos q = 1 ∧ n = Node.child s.node q := by
  obtain ⟨aU, aL, aR, aD⟩ := manhattan_step s.node.getPos
  simp only [iteration] at h
  split at h
  · cases h
  rename_i dU _
  split at h
  · cases h
  rename_i dL _
  split at h
  · cases h
  rename_i dR _
  split at h
  · cases h
  rename_i dD _
  generalize going s.potential_list s.explored_list dU (s.node.getPos + UP) = gU at h
  generalize going s.potential_list s.explored_list dL (s.node.getPos + LEFT) = gL at h
  generalize going s.potential_list s.explored_list dR (s.node.getPos + RIGHT) = gR at h
  generalize going s.potential_list s.explored_list dD (s.node.getPos + DOWN) = gD at h
  have hmem : ∀ n ∈ pushIf gD s.node (s.node.getPos + DOWN)
      (pushIf gR s.node (s.node.getPos + RIGHT) (pushIf gL s.node (s.node.getPos + LEFT)
        (pushIf gU s.node (s.node.getPos + UP) s.potential_list))),
      n ∈ s.potential_list ∨ ∃ q, manhattan s.node.getPos q = 1 ∧ n = Node.child s.node q := by
    intro n hn
    rcases mem_pushIf_cases _ _ _ _ _ hn with e | hn
    · exact Or.inr ⟨_, aD, e⟩
    rcases mem_pushIf_cases _ _ _ _ _ hn with e | hn
    · exact Or.inr ⟨_, aR, e⟩
    rcases mem_pushIf_cases _ _ _ _ _ hn with e | hn
    · exact Or.inr ⟨_, aL, e⟩
    rcases mem_pushIf_cases _ _ _ _ _ hn with e | hn
    · exact Or.inr ⟨_, aU, e⟩
    exact Or.inl hn
  generalize pushIf gD s.node (s.node.getPos + DOWN)
      (pushIf gR s.node (s.node.getPos + RIGHT) (pushIf gL s.node (s.node.getPos + LEFT)
        (pushIf gU s.node (s.node.getPos + UP) s.potential_list))) = pl4 at h hmem
  split at h
  · next hgoal =>
    simp only [Except.ok.injEq, Prod.mk.injEq] at h
    obtain ⟨h1, h2⟩ := h
    subst h1
    exact ⟨rfl, rfl, fun _ => hgoal, hmem⟩
  · split at h
    · cases h
    · next pl5 hsort =>
      have hsub : ∀ n ∈ pl5, n ∈ pl4 := by
        split at hsort
        · exact fun n hn => (insertionSortByCost_perm cost goal pl4 pl5 hsort).subset hn
        · simp only [Except.ok.injEq] at hsort
          exact fun n hn => hsort ▸ hn
      split at h
      · split at h
        · cases h
        · next x rest =>
          simp only [Except.ok.injEq, Prod.mk.injEq] at h
          obtain ⟨h1, h2⟩ := h
          subst h1
          exact ⟨rfl, rfl, fun hb => absurd hb (by simp [← h2]),
            fun n hn => hmem n (hsub n (List.mem_cons_of_mem _ hn))⟩
      · simp only [Except.ok.injEq, Prod.mk.injEq] at h
        obtain ⟨h1, h2⟩ := h
        subst h1
        exact ⟨rfl, rfl, fun hb => absurd hb (by simp [← h2]), fun n hn => hmem n (hsub n hn)⟩

/-- The loop leaves by the goal check only with the current node at the goal. -/
theorem astarLoop_found [LT K] [DecidableRel (fun a b : K => a < b)]
    (cost : Node → Vector2 → K) (m : Maze) (goal : Vector2) (fuel : Nat) (s sf : State)
    (h : astarLoop cost m goal fuel s = .ok (sf, .GOAL_FOUND)) : sf.node.getPos = goal := by
  induction fuel generalizing s with
  | zero => rw [astarLoop] at h; simp at h
  | succ fuel ih =>
    cases hpl : s.potential_list with
    | nil =>
      rw [astarLoop] at h
      simp [hpl] at h
    | cons front tl =>
      rw [astarLoop_cons cost m goal fuel s front tl hpl] at h
      cases hit : iteration cost m goal
          { s with loop_count := s.loop_count + 1, node := front } with
      | error err => simp [hit] at h
      | ok r =>
        obtain ⟨s1, b⟩ := r
        obtain ⟨h1, _, h3, _⟩ := iteration_sound cost m goal _ s1 b hit
        cases b with
        | true =>
          simp only [hit, Except.ok.injEq, Prod.mk.injEq, and_true] at h
          rw [← h, h1]
          exact h3 rfl
        | false =>
          simp only [hit] at h
          exact ih s1 h

/-- More fuel does not change a result of the loop. -/
theorem astarLoop_mono [LT K] [DecidableRel (fun a b : K => a < b)]
    (cost : Node → Vector2 → K) (m : Maze) (goal : Vector2) (fuel k : Nat) (s : State)
    (r : State × Exit) (h : astarLoop cost m goal fuel s = .ok r) :
    astarLoop cost m goal (fuel + k) s = .ok r := by
  induction fuel generalizing s with
  | zero => rw [astarLoop] at h; simp at h
  | succ fuel ih =>
    have e : fuel + 1 + k = (fuel + k) + 1 := by omega
    rw [e]
    cases hpl : s.potential_list with
    | nil =>
      rw [astarLoop] at h ⊢
      simp only [hpl] at h ⊢
      exact h
    | cons front tl =>
      rw [astarLoop_cons cost m goal _ s front tl hpl] at h ⊢
      cases hit : iteration cost m goal
          { s with loop_count := s.loop_count + 1, node := front } with
      | error err => simp [hit] at h
      | ok p =>
        obtain ⟨s1, b⟩ := p
        cases b with
        | true =>
          simp only [hit] at h ⊢
          exact h
        | false =>
          simp only [hit] at h ⊢
          exact ih s1 h

/-- More fuel does not change a result of `astar`. -/
theorem astar_mono [LT K] [DecidableRel (fun a b : K => a < b)]
    (cost : Node → Vector2 → K) (m : Maze) (fuel k : Nat) (start goal : Vector2)
    (r : Path × Nat × Nat) (h : astar cost m fuel start goal = .ok r) :
    astar cost m (fuel + k) start goal = .ok r := by
  simp only [astar] at h ⊢
  cases hl : astarLoop cost m goal fuel (initial start) with
  | error err => simp [hl] at h
  | ok p =>
    rw [astarLoop_mono cost m goal fuel k (initial start) p hl]
    simpa [hl] using h

/-! ## Reachability -/

theorem closed_chain (m : Maze) (S : Vector2 → Prop)
    (hcl : ∀ p q, S p → manhattan p q = 1 → m.free q → S q) (cells : List Vector2) :
    ∀ a : Vector2, S a → (∀ c ∈ cells, m.free c) →
      stepwise (a :: cells) = true → ∀ b ∈ cells, S b := by
  induction cells with
  | nil => intro a _ _ _ b hb; cases hb
  | cons c rest ih =>
    intro a ha hfree hchain b hb
    rw [stepwise_cons] at hchain
    have hc : S c := hcl a c ha (hchain.1 c rfl) (hfree c (List.mem_cons_self _ _))
    rcases List.mem_cons.1 hb with e | h
    · exact e ▸ hc
    · exact ih c hc (fun x hx => hfree x (List.mem_cons_of_mem _ hx)) hchain.2 b h

/-- A set of cells that contains `start` and every free neighbour of its
members contains every cell a route leads to. -/
theorem closed_route (m : Maze) (S : Vector2 → Prop) (start goal : Vector2) (hS : S start)
    (hcl : ∀ p q, S p → manhattan p q = 1 → m.free q → S q) (cells : List Vector2)
    (hr : isRoute m start goal cells) : S goal := by
  obtain ⟨hhead, hlast, hfree, hchain⟩ := hr
  cases cells with
  | nil => simp at hhead
  | cons a rest =>
    simp only [List.head?_cons, Option.some.injEq] at hhead
    subst hhead
    have hmem : goal ∈ a :: rest := List.mem_of_getLast?_eq_some hlast
    rcases List.mem_cons.1 hmem with e | h
    · exact e ▸ hS
    · exact closed_chain m S hcl rest a hS
        (fun x hx => hfree x (List.mem_cons_of_mem _ hx)) hchain goal h

/-- When the frontier is empty the explored list holds every cell that a
route from `start` leads to. -/
theorem Good.explored_of_route {m : Maze} {start goal : Vector2} {el : List Vector2}
    (g : Good m start goal [] el) (q : Vector2) (cells : List Vector2)
    (hr : isRoute m start q cells) : q ∈ el := by
  refine closed_route m (fun p => p ∈ el) start q ?_ ?_ cells hr
  · rcases g.start_mem with h | h
    · simp at h
    · exact h
  · intro p r hp hadj hfree
    rcases g.closed p hp r hadj hfree with h | h
    · simp at h
    · exact h

theorem stepwise_snoc (l : List Vector2) (b p : Vector2) (h : stepwise l = true)
    (hl : l.getLast? = some b) (hadj : manhattan b p = 1) : stepwise (l ++ [p]) = true := by
  induction l with
  | nil => simp at hl
  | cons a rest ih =>
    cases rest with
    | nil =>
      simp only [List.getLast?_singleton, Option.some.injEq] at hl
      simp [stepwise, hl, hadj]
    | cons c r =>
      rw [List.getLast?_cons_cons] at hl
      simp only [stepwise, Bool.and_eq_true, decide_eq_true_eq] at h
      have := ih h.2 hl
      simp only [List.cons_append, stepwise, Bool.and_eq_true, decide_eq_true_eq]
      exact ⟨h.1, by simpa using this⟩

/-- The position of a node whose parent chain runs through free cells is
reachable from `start`. -/
theorem reachable_of_node (m : Maze) (start : Vector2) (n : Node) (hl : n.Linked start)
    (hf : ∀ p ∈ buildPath n, m.free p) : Reachable m start n.getPos := by
  induction n with
  | root p =>
    simp only [Node.Linked] at hl
    subst hl
    exact ⟨[p], rfl, rfl, by simpa [buildPath] using hf, rfl⟩
  | child prev p ih =>
    obtain ⟨cells, h1, h2, h3, h4⟩ := ih hl.1 (fun q hq => hf q (List.mem_cons_of_mem _ hq))
    have hne : cells ≠ [] := by
      intro e
      simp [e] at h1
    refine ⟨cells ++ [p], ?_, ?_, ?_, ?_⟩
    · cases cells with
      | nil => exact absurd rfl hne
      | cons a r => simpa using h1
    · simp [Node.getPos]
    · intro c hc
      rcases List.mem_append.1 hc with h | h
      · exact h3 c h
      · rw [List.mem_singleton] at h
        exact h ▸ hf p (List.mem_cons_self _ _)
    · exact stepwise_snoc cells _ p h4 h2 hl.2

theorem reachable_of_mem_path (m : Maze) (start : Vector2) (n : Node) (hl : n.Linked start)
    (hf : ∀ p ∈ buildPath n, m.free p) : ∀ p ∈ buildPath n, Reachable m start p := by
  induction n with
  | root q =>
    intro p hp
    simp only [buildPath, List.mem_singleton] at hp
    subst hp
    exact reachable_of_node m start (Node.root p) hl hf
  | child prev q ih =>
    intro p hp
    rcases List.mem_cons.1 hp with e | h
    · subst e
      exact reachable_of_node m start (Node.child prev p) hl hf
    · exact ih hl.1 (fun r hr => hf r (List.mem_cons_of_mem _ hr)) p h

/-- A finite set of cells that contains `start`, not `goal`, and the free
neighbours of its members shows that `goal` is not reachable. -/
theorem not_reachable_of_closed (m : Maze) (start goal : Vector2) (S : List Vector2)
    (h1 : start ∈ S) (h2 : goal ∉ S)
    (h3 : ∀ p ∈ S, (m.free (p + UP) → p + UP ∈ S) ∧ (m.free (p + LEFT) → p + LEFT ∈ S) ∧
      (m.free (p + RIGHT) → p + RIGHT ∈ S) ∧ (m.free (p + DOWN) → p + DOWN ∈ S)) :
    ¬ Reachable m start goal := by
  rintro ⟨cells, hr⟩
  refine h2 (closed_route m (fun p => p ∈ S) start goal h1 ?_ cells hr)
  intro p q hp hadj hfree
  obtain ⟨hU, hL, hR, hD⟩ := h3 p hp
  rcases manhattan_one p q hadj with e | e | e | e
  · exact e ▸ hU (e ▸ hfree)
  · exact e ▸ hL (e ▸ hfree)
  · exact e ▸ hR (e ▸ hfree)
  · exact e ▸ hD (e ▸ hfree)

theorem free_of_wallFree (m : Maze) (hw : m.wallFree) (p : Vector2) (hp : m.inBounds p) :
    m.free p := by
  refine ⟨hp, fun hwall => ?_⟩
  obtain ⟨hlt, e⟩ := List.getElem?_eq_some.1 hwall
  exact hw _ (List.getElem_mem hlt) e

/-- In a grid without walls, a set of cells that contains `start` and every
free neighbour of its members contains every in-bounds cell. -/
theorem closed_open_grid (m : Maze) (hw : m.wallFree) (S : Vector2 → Prop) (start : Vector2)
    (hs : m.inBounds start) (hS : S start)
    (hcl : ∀ p q, S p → manhattan p q = 1 → m.free q → S q) :
    ∀ (n : Nat) (q : Vector2), manhattan start q = n → m.inBounds q → S q := by
  intro n
  induction n with
  | zero =>
    intro q hq _
    have e : q = start := by
      obtain ⟨qx, qy⟩ := q
      obtain ⟨sx, sy⟩ := start
      simp only [manhattan] at hq
      simp only [Vector2.mk.injEq]
      omega
    exact e ▸ hS
  | succ n ih =>
    intro q hq hb
    obtain ⟨qx, qy⟩ := q
    obtain ⟨sx, sy⟩ := start
    simp only [manhattan] at hq
    simp only [Maze.inBounds] at hb hs
    have step : ∀ r : Vector2, manhattan ⟨sx, sy⟩ r = n → m.inBounds r →
        manhattan r ⟨qx, qy⟩ = 1 → S ⟨qx, qy⟩ := fun r h1 h2 h3 =>
      hcl r _ (ih r h1 h2) h3 (free_of_wallFree m hw _ hb)
    by_cases c1 : sx < qx
    · refine step ⟨qx - 1, qy⟩ ?_ ?_ ?_ <;> simp only [manhattan, Maze.inBounds] <;> omega
    by_cases c2 : qx < sx
    · refine step ⟨qx + 1, qy⟩ ?_ ?_ ?_ <;> simp only [manhattan, Maze.inBounds] <;> omega
    by_cases c3 : sy < qy
    · refine step ⟨qx, qy - 1⟩ ?_ ?_ ?_ <;> simp only [manhattan, Maze.inBounds] <;> omega
    · refine step ⟨qx, qy + 1⟩ ?_ ?_ ?_ <;> simp only [manhattan, Maze.inBounds] <;> omega

/-! ## Properties of the search -/

/-- C1: on a well-formed grid with an in-bounds non-wall start, when some
sequence of 4-adjacent in-bounds non-wall cells leads from start to goal, the
loop of astar ends by the goal check with a non-empty frontier, and the
returned path is non-empty, begins with goal and ends with start. -/
theorem astar_finds_goal [LT K] [DecidableRel (fun a b : K => a < b)]
    (cost : Node → Vector2 → K) (m : Maze) (hwf : m.wellFormed) (start goal : Vector2)
    (hs : m.free start) (fuel : Nat) (hfuel : 2 * m.freeCells.length ≤ fuel)
    (hr : Reachable m start goal) :
    ∃ sf path loops count,
      astarLoop cost m goal fuel (initial start) = .ok (sf, .GOAL_FOUND) ∧
      sf.potential_list ≠ [] ∧
      astar cost m fuel start goal = .ok (path, loops, count) ∧
      path ≠ [] ∧ path.head? = some goal ∧ path.getLast? = some start := by
  obtain ⟨sf, e, hloop, hastar, hpost⟩ := astar_total cost m hwf start goal hs fuel hfuel
  cases e with
  | GOAL_FOUND =>
    refine ⟨sf, _, _, _, hloop, hpost.nonempty rfl, hastar, buildPath_ne_nil _, ?_,
      buildPath_getLast start _ hpost.node_linked⟩
    rw [buildPath_head, hpost.found rfl]
  | FRONTIER_EMPTY =>
    exfalso
    obtain ⟨cells, hcells⟩ := hr
    have g := hpost.good
    rw [hpost.empty rfl] at g
    exact g.egoal goal (g.explored_of_route goal cells hcells) rfl

/-- C2: on a well-formed grid with an in-bounds non-wall start, consecutive
positions of the path returned by astar are at Manhattan distance 1, and every
position of the path is in bounds and not a wall. -/
theorem astar_path_steps [LT K] [DecidableRel (fun a b : K => a < b)]
    (cost : Node → Vector2 → K) (m : Maze) (hwf : m.wellFormed) (start goal : Vector2)
    (hs : m.free start) (fuel : Nat) (hfuel : 2 * m.freeCells.length ≤ fuel) :
    ∃ path loops count,
      astar cost m fuel start goal = .ok (path, loops, count) ∧
      stepwise path = true ∧
      ∀ p ∈ path, m.inBounds p ∧ ¬ m.isWall p := by
  obtain ⟨sf, e, _, hastar, hpost⟩ := astar_total cost m hwf start goal hs fuel hfuel
  exact ⟨_, _, _, hastar, buildPath_stepwise start _ hpost.node_linked, hpost.node_free⟩

/-- C5: on a well-formed grid with an in-bounds non-wall start, the node
count returned by astar is the length of the explored list, no position
occurs twice in the explored list, every explored position is in bounds and
not a wall, and the count is at most the number of non-wall cells. -/
theorem astar_explored_count [LT K] [DecidableRel (fun a b : K => a < b)]
    (cost : Node → Vector2 → K) (m : Maze) (hwf : m.wellFormed) (start goal : Vector2)
    (hs : m.free start) (fuel : Nat) (hfuel : 2 * m.freeCells.length ≤ fuel) :
    ∃ sf e path loops count,
      astarLoop cost m goal fuel (initial start) = .ok (sf, e) ∧
      astar cost m fuel start goal = .ok (path, loops, count) ∧
      count = sf.explored_list.length ∧ sf.explored_list.Nodup ∧
      (∀ p ∈ sf.explored_list, m.inBounds p ∧ ¬ m.isWall p) ∧
      count ≤ m.freeCells.length := by
  obtain ⟨sf, e, hloop, hastar, hpost⟩ := astar_total cost m hwf start goal hs fuel hfuel
  have hlen := hpost.good.length_le
  refine ⟨sf, e, _, _, _, hloop, hastar, hpost.count, ?_, hpost.good.efree, ?_⟩
  · exact (List.nodup_append.1 hpost.good.nodup).2.1
  · rw [hpost.count]
    omega

/-- C3, as amended: on a well-formed grid without walls, for in-bounds start
and goal and every cost function, the loop of astar ends by the goal check and
the number of moves of the returned path is at least the Manhattan distance
between start and goal and differs from it by an even number. -/
theorem astar_open_grid_moves [LT K] [DecidableRel (fun a b : K => a < b)]
    (cost : Node → Vector2 → K) (m : Maze) (hwf : m.wellFormed) (hw : m.wallFree)
    (start goal : Vector2) (hs : m.inBounds start) (hg : m.inBounds goal) (fuel : Nat)
    (hfuel : 2 * m.freeCells.length ≤ fuel) :
    ∃ sf path loops count,
      astarLoop cost m goal fuel (initial start) = .ok (sf, .GOAL_FOUND) ∧
      astar cost m fuel start goal = .ok (path, loops, count) ∧
      manhattan start goal ≤ path.length - 1 ∧
      (path.length - 1 - manhattan start goal) % 2 = 0 := by
  obtain ⟨sf, e, hloop, hastar, hpost⟩ :=
    astar_total cost m hwf start goal (free_of_wallFree m hw start hs) fuel hfuel
  cases e with
  | GOAL_FOUND =>
    refine ⟨sf, _, _, _, hloop, hastar, ?_⟩
    have h := manhattan_le_getSize start sf.node hpost.node_linked
    rw [hpost.found rfl] at h
    rw [buildPath_length]
    constructor
    · omega
    · omega
  | FRONTIER_EMPTY =>
    exfalso
    have g := hpost.good
    rw [hpost.empty rfl] at g
    refine g.egoal goal ?_ rfl
    refine closed_open_grid m hw (fun p => p ∈ sf.explored_list) start hs ?_ ?_ _ goal rfl hg
    · rcases g.start_mem with h | h
      · simp at h
      · exact h
    · intro p r hp hadj hfree
      rcases g.closed p hp r hadj hfree with h | h
      · simp at h
      · exact h

/-- C4, as amended: on a well-formed grid with an in-bounds non-wall start and
a goal that no sequence of 4-adjacent non-wall cells leads to, the loop of
astar ends with the frontier empty, and the returned path is not empty: it is
the parent chain of the node selected last, it ends with start and does not
contain goal. -/
theorem astar_unreachable [LT K] [DecidableRel (fun a b : K => a < b)]
    (cost : Node → Vector2 → K) (m : Maze) (hwf : m.wellFormed) (start goal : Vector2)
    (hs : m.free start) (fuel : Nat) (hfuel : 2 * m.freeCells.length ≤ fuel)
    (hr : ¬ Reachable m start goal) :
    ∃ sf path loops count,
      astarLoop cost m goal fuel (initial start) = .ok (sf, .FRONTIER_EMPTY) ∧
      sf.potential_list = [] ∧
      astar cost m fuel start goal = .ok (path, loops, count) ∧
      path = buildPath sf.node ∧ path ≠ [] ∧ path.getLast? = some start ∧ goal ∉ path := by
  obtain ⟨sf, e, hloop, hastar, hpost⟩ := astar_total cost m hwf start goal hs fuel hfuel
  cases e with
  | GOAL_FOUND =>
    exfalso
    have h := reachable_of_node m start sf.node hpost.node_linked hpost.node_free
    rw [hpost.found rfl] at h
    exact hr h
  | FRONTIER_EMPTY =>
    refine ⟨sf, _, _, _, hloop, hpost.empty rfl, hastar, rfl, buildPath_ne_nil _,
      buildPath_getLast start _ hpost.node_linked, ?_⟩
    intro hmem
    exact hr (reachable_of_mem_path m start sf.node hpost.node_linked hpost.node_free goal hmem)

/-- C6: on a well-formed grid, for an in-bounds non-wall position p, astar with
start = goal = p returns the path that consists of p alone, after one loop
iteration and with a node count of 0. -/
theorem astar_start_is_goal [LT K] [DecidableRel (fun a b : K => a < b)]
    (cost : Node → Vector2 → K) (m : Maze) (hwf : m.wellFormed) (p : Vector2)
    (hp : m.free p) (fuel : Nat) (hfuel : 0 < fuel) :
    astar cost m fuel p p = .ok ([p], 1, 0) := by
  obtain ⟨f, rfl⟩ : ∃ f, fuel = f + 1 := ⟨fuel - 1, by omega⟩
  have hc := iteration_cases cost m hwf p p
    { initial p with loop_count := (initial p).loop_count + 1, node := Node.root p } [] rfl
    (good_initial m p p hp)
  dsimp only at hc
  rcases hc with ⟨_, pl, _, _, hit⟩ | ⟨hg, _⟩ | ⟨hg, _⟩
  · simp only [astar, astarLoop_cons cost m p f (initial p) (Node.root p) [] rfl, hit]
    rfl
  · exact absurd rfl hg
  · exact absurd rfl hg

/-- C7: whenever the loop of astar ends by the goal check, the number of moves
of the returned path (its number of positions minus one) is at least the
Manhattan distance between start and goal. -/
theorem astar_moves_ge_manhattan [LT K] [DecidableRel (fun a b : K => a < b)]
    (cost : Node → Vector2 → K) (m : Maze) (fuel : Nat) (start goal : Vector2) (sf : State)
    (h : astarLoop cost m goal fuel (initial start) = .ok (sf, .GOAL_FOUND)) :
    ∃ path loops count,
      astar cost m fuel start goal = .ok (path, loops, count) ∧
      manhattan start goal ≤ path.length - 1 := by
  have hinv : (∀ n ∈ sf.potential_list, n.Linked start) ∧ sf.node.Linked start := by
    refine astarLoop_induct cost m goal
      (fun s => (∀ n ∈ s.potential_list, n.Linked start) ∧ s.node.Linked start)
      ?_ fuel (initial start) sf _ ?_ h
    · intro s front tl s1 b hP hpl hit
      obtain ⟨h1, _, _, h4⟩ := iteration_sound cost m goal _ s1 b hit
      have hfront : front.Linked start := hP.1 front (by rw [hpl]; exact List.mem_cons_self _ _)
      refine ⟨fun n hn => ?_, by rw [h1]; exact hfront⟩
      rcases h4 n hn with hold | ⟨q, hq, e⟩
      · exact hP.1 n hold
      · rw [e]
        exact ⟨hfront, hq⟩
    · simp [initial, Node.Linked]
  have hgoal := astarLoop_found cost m goal fuel (initial start) sf h
  refine ⟨buildPath sf.node, sf.loop_count, sf.numNodes, by simp only [astar, h], ?_⟩
  have hm := (manhattan_le_getSize start sf.node hinv.2).1
  rw [hgoal] at hm
  rw [buildPath_length]
  omega

end Search

/-! ## The cost order -/

theorem lt_iff_mul_self_lt (u v : ℝ) (hu : 0 ≤ u) (hv : 0 ≤ v) : u < v ↔ u * u < v * v :=
  mul_self_lt_mul_self_iff hu hv

/-- The integer test `Cost.lt` decides the comparison of the two costs as real
numbers `g + sqrt d2`. -/
theorem Cost.lt_iff_real (a b : Cost) :
    Cost.lt a b = true ↔
      (a.g : ℝ) + Real.sqrt a.d2 < (b.g : ℝ) + Real.sqrt b.d2 := by
  obtain ⟨A, M⟩ := a
  obtain ⟨B, N⟩ := b
  have hM : (0 : ℝ) ≤ M := Nat.cast_nonneg M
  have hN : (0 : ℝ) ≤ N := Nat.cast_nonneg N
  have sM := Real.sqrt_nonneg (M : ℝ)
  have sN := Real.sqrt_nonneg (N : ℝ)
  have qM := Real.mul_self_sqrt hM
  have qN := Real.mul_self_sqrt hN
  simp only [Cost.lt]
  by_cases hAB : A ≤ B
  · have hD : (0 : ℝ) ≤ (B : ℝ) - A := by
      have : (A : ℝ) ≤ B := Nat.cast_le.2 hAB
      linarith
    simp only [hAB, if_true]
    have key : ((A : ℝ) + Real.sqrt M < B + Real.sqrt N) ↔
        ((M : ℝ) - (B - A) * (B - A) - N < 2 * (B - A) * Real.sqrt N) := by
      rw [show ((A : ℝ) + Real.sqrt M < B + Real.sqrt N) ↔
        (Real.sqrt M < (B - A) + Real.sqrt N) from by constructor <;> intro h <;> linarith]
      rw [lt_iff_mul_self_lt _ _ sM (by positivity)]
      constructor <;> intro h <;> nlinarith
    rw [key]
    by_cases ht : ((M : Int) - ((B : Int) - A) * ((B : Int) - A) - N) < 0
    · simp only [ht, if_true, true_iff]
      have ht2 : ((M : ℝ) - (B - A) * (B - A) - N) < 0 := by exact_mod_cast ht
      have : 0 ≤ 2 * ((B : ℝ) - A) * Real.sqrt N := by positivity
      linarith
    · simp only [ht, if_false, decide_eq_true_eq]
      have ht2 : 0 ≤ ((M : ℝ) - (B - A) * (B - A) - N) := by
        have := not_lt.1 ht
        exact_mod_cast this
      have hr : 0 ≤ 2 * ((B : ℝ) - A) * Real.sqrt N := by positivity
      rw [lt_iff_mul_self_lt _ _ ht2 hr]
      have e : 2 * ((B : ℝ) - A) * Real.sqrt N * (2 * ((B : ℝ) - A) * Real.sqrt N) =
          4 * (B - A) * (B - A) * N := by
        calc 2 * ((B : ℝ) - A) * Real.sqrt N * (2 * ((B : ℝ) - A) * Real.sqrt N)
            = 4 * (B - A) * (B - A) * (Real.sqrt N * Real.sqrt N) := by ring
          _ = 4 * (B - A) * (B - A) * N := by rw [qN]
      rw [e]
      constructor
      · intro h
        exact_mod_cast h
      · intro h
        exact_mod_cast h
  · have hBA : B < A := Nat.lt_of_not_le hAB
    have hE : (0 : ℝ) < (A : ℝ) - B := by
      have : (B : ℝ) < A := Nat.cast_lt.2 hBA
      linarith
    simp only [hAB, if_false]
    have key : ((A : ℝ) + Real.sqrt M < B + Real.sqrt N) ↔
        (2 * ((A : ℝ) - B) * Real.sqrt M < (N : ℝ) - M - (A - B) * (A - B)) := by
      rw [show ((A : ℝ) + Real.sqrt M < B + Real.sqrt N) ↔
        ((A - B) + Real.sqrt M < Real.sqrt N) from by constructor <;> intro h <;> linarith]
      rw [lt_iff_mul_self_lt _ _ (by positivity) sN]
      constructor <;> intro h <;> nlinarith
    rw [key]
    have hl : 0 ≤ 2 * ((A : ℝ) - B) * Real.sqrt M := by positivity
    by_cases hs : ((N : Int) - M - ((A : Int) - B) * ((A : Int) - B)) ≤ 0
    · simp only [hs, if_true, Bool.false_eq_true, false_iff, not_lt]
      have hs2 : ((N : ℝ) - M - (A - B) * (A - B)) ≤ 0 := by exact_mod_cast hs
      linarith
    · simp only [hs, if_false, decide_eq_true_eq]
      have hs2 : 0 ≤ ((N : ℝ) - M - (A - B) * (A - B)) := by
        have := le_of_lt (not_le.1 hs)
        exact_mod_cast this
      rw [lt_iff_mul_self_lt _ _ hl hs2]
      have e : 2 * ((A : ℝ) - B) * Real.sqrt M * (2 * ((A : ℝ) - B) * Real.sqrt M) =
          4 * (A - B) * (A - B) * M := by
        calc 2 * ((A : ℝ) - B) * Real.sqrt M * (2 * ((A : ℝ) - B) * Real.sqrt M)
            = 4 * (A - B) * (A - B) * (Real.sqrt M * Real.sqrt M) := by ring
          _ = 4 * (A - B) * (A - B) * M := by rw [qM]
      rw [e]
      constructor
      · intro h
        exact_mod_cast h
      · intro h
        exact_mod_cast h

/-! ## Instances of the properties -/

theorem astar_finds_goal_witness :
    detourMaze.wellFormed ∧ detourMaze.free ⟨0, 0⟩ ∧ Reachable detourMaze ⟨0, 0⟩ ⟨2, 0⟩ ∧
    ∃ sf path loops count,
      astarLoop calculateCost detourMaze ⟨2, 0⟩ 14 (initial ⟨0, 0⟩) = .ok (sf, .GOAL_FOUND) ∧
      sf.potential_list ≠ [] ∧
      astar calculateCost detourMaze 14 ⟨0, 0⟩ ⟨2, 0⟩ = .ok (path, loops, count) ∧
      path ≠ [] ∧ path.head? = some ⟨2, 0⟩ ∧ path.getLast? = some ⟨0, 0⟩ :=
  have hr : Reachable detourMaze ⟨0, 0⟩ ⟨2, 0⟩ :=
    ⟨[⟨0, 0⟩, ⟨0, 1⟩, ⟨0, 2⟩, ⟨1, 2⟩, ⟨2, 2⟩, ⟨2, 1⟩, ⟨2, 0⟩], by decide⟩
  ⟨by decide, by decide, hr,
    astar_finds_goal calculateCost detourMaze (by decide) ⟨0, 0⟩ ⟨2, 0⟩ (by decide) 14
      (by decide) hr⟩

theorem astar_path_steps_witness :
    detourMaze.wellFormed ∧ detourMaze.free ⟨0, 0⟩ ∧
    ∃ path loops count,
      astar calculateCost detourMaze 14 ⟨0, 0⟩ ⟨2, 0⟩ = .ok (path, loops, count) ∧
      stepwise path = true ∧
      ∀ p ∈ path, detourMaze.inBounds p ∧ ¬ detourMaze.isWall p :=
  ⟨by decide, by decide,
    astar_path_steps calculateCost detourMaze (by decide) ⟨0, 0⟩ ⟨2, 0⟩ (by decide) 14
      (by decide)⟩

theorem astar_explored_count_witness :
    detourMaze.wellFormed ∧ detourMaze.free ⟨0, 0⟩ ∧
    ∃ sf e path loops count,
      astarLoop calculateCost detourMaze ⟨2, 0⟩ 14 (initial ⟨0, 0⟩) = .ok (sf, e) ∧
      astar calculateCost detourMaze 14 ⟨0, 0⟩ ⟨2, 0⟩ = .ok (path, loops, count) ∧
      count = sf.explored_list.length ∧ sf.explored_list.Nodup ∧
      (∀ p ∈ sf.explored_list, detourMaze.inBounds p ∧ ¬ detourMaze.isWall p) ∧
      count ≤ detourMaze.freeCells.length :=
  ⟨by decide, by decide,
    astar_explored_count calculateCost detourMaze (by decide) ⟨0, 0⟩ ⟨2, 0⟩ (by decide) 14
      (by decide)⟩

/-- C3 fails as stated: on the 2x4 grid without walls, from (2,0) to (0,0),
astar returns a path of 4 moves while the Manhattan distance is 2. -/
theorem astar_open_grid_detour :
    (openMaze 2 4).wellFormed ∧ (openMaze 2 4).wallFree ∧
    (openMaze 2 4).inBounds ⟨2, 0⟩ ∧ (openMaze 2 4).inBounds ⟨0, 0⟩ ∧
    astar calculateCost (openMaze 2 4) 16 ⟨2, 0⟩ ⟨0, 0⟩ =
      .ok ([⟨0, 0⟩, ⟨0, 1⟩, ⟨1, 1⟩, ⟨2, 1⟩, ⟨2, 0⟩], 7, 2) ∧
    ([⟨0, 0⟩, ⟨0, 1⟩, ⟨1, 1⟩, ⟨2, 1⟩, ⟨2, 0⟩] : Path).length - 1 ≠
      manhattan ⟨2, 0⟩ ⟨0, 0⟩ :=
  ⟨by decide, by decide, by decide, by decide, rfl, by decide⟩

theorem astar_open_grid_moves_witness :
    (openMaze 2 4).wellFormed ∧ (openMaze 2 4).wallFree ∧
    (openMaze 2 4).inBounds ⟨2, 0⟩ ∧ (openMaze 2 4).inBounds ⟨0, 0⟩ ∧
    ∃ sf path loops count,
      astarLoop calculateCost (openMaze 2 4) ⟨0, 0⟩ 16 (initial ⟨2, 0⟩) =
        .ok (sf, .GOAL_FOUND) ∧
      astar calculateCost (openMaze 2 4) 16 ⟨2, 0⟩ ⟨0, 0⟩ = .ok (path, loops, count) ∧
      manhattan ⟨2, 0⟩ ⟨0, 0⟩ ≤ path.length - 1 ∧
      (path.length - 1 - manhattan ⟨2, 0⟩ ⟨0, 0⟩) % 2 = 0 :=
  ⟨by decide, by decide, by decide, by decide,
    astar_open_grid_moves calculateCost (openMaze 2 4) (by decide) (by decide) ⟨2, 0⟩ ⟨0, 0⟩
      (by decide) (by decide) 16 (by decide)⟩

/-- C4 fails as stated: in the corridor whose middle cell is a wall the goal
(2,0) cannot be reached from (0,0), and astar returns the one-position path of
the start node, which is not empty. -/
theorem astar_unreachable_path_nonempty :
    blockedMaze.wellFormed ∧ blockedMaze.free ⟨0, 0⟩ ∧ blockedMaze.free ⟨2, 0⟩ ∧
    ¬ Reachable blockedMaze ⟨0, 0⟩ ⟨2, 0⟩ ∧
    astar calculateCost blockedMaze 6 ⟨0, 0⟩ ⟨2, 0⟩ = .ok ([⟨0, 0⟩], 1, 1) ∧
    ([⟨0, 0⟩] : Path) ≠ [] :=
  ⟨by decide, by decide, by decide,
    not_reachable_of_closed blockedMaze ⟨0, 0⟩ ⟨2, 0⟩ [⟨0, 0⟩] (by decide) (by decide)
      (by decide),
    rfl, by decide⟩

theorem astar_unreachable_witness :
    blockedMaze.wellFormed ∧ blockedMaze.free ⟨0, 0⟩ ∧ ¬ Reachable blockedMaze ⟨0, 0⟩ ⟨2, 0⟩ ∧
    ∃ sf path loops count,
      astarLoop calculateCost blockedMaze ⟨2, 0⟩ 6 (initial ⟨0, 0⟩) =
        .ok (sf, .FRONTIER_EMPTY) ∧
      sf.potential_list = [] ∧
      astar calculateCost blockedMaze 6 ⟨0, 0⟩ ⟨2, 0⟩ = .ok (path, loops, count) ∧
      path = buildPath sf.node ∧ path ≠ [] ∧ path.getLast? = some ⟨0, 0⟩ ∧
      (⟨2, 0⟩ : Vector2) ∉ path :=
  have hr : ¬ Reachable blockedMaze ⟨0, 0⟩ ⟨2, 0⟩ :=
    not_reachable_of_closed blockedMaze ⟨0, 0⟩ ⟨2, 0⟩ [⟨0, 0⟩] (by decide) (by decide)
      (by decide)
  ⟨by decide, by decide, hr,
    astar_unreachable calculateCost blockedMaze (by decide) ⟨0, 0⟩ ⟨2, 0⟩ (by decide) 6
      (by decide) hr⟩

theorem astar_start_is_goal_witness :
    detourMaze.wellFormed ∧ detourMaze.free ⟨2, 2⟩ ∧
    astar calculateCost detourMaze 1 ⟨2, 2⟩ ⟨2, 2⟩ = .ok ([⟨2, 2⟩], 1, 0) :=
  ⟨by decide, by decide,
    astar_start_is_goal calculateCost detourMaze (by decide) ⟨2, 2⟩ (by decide) 1 (by decide)⟩

theorem astar_moves_ge_manhattan_witness :
    astarLoop calculateCost (openMaze 1 2) ⟨1, 0⟩ 3 (initial ⟨0, 0⟩) =
      .ok ({ potential_list := [Node.child (Node.root ⟨0, 0⟩) ⟨1, 0⟩],
             explored_list := [⟨0, 0⟩],
             node := Node.child (Node.root ⟨0, 0⟩) ⟨1, 0⟩,
             loop_count := 3, numNodes := 1 }, .GOAL_FOUND) ∧
    ∃ path loops count,
      astar calculateCost (openMaze 1 2) 3 ⟨0, 0⟩ ⟨1, 0⟩ = .ok (path, loops, count) ∧
      manhattan ⟨0, 0⟩ ⟨1, 0⟩ ≤ path.length - 1 :=
  ⟨rfl, astar_moves_ge_manhattan calculateCost (openMaze 1 2) 3 ⟨0, 0⟩ ⟨1, 0⟩ _ rfl⟩

/-- C8: on the 3x3 grid without walls, from (0,0) to (2,2) and with the cost
depth + Euclidean distance, astar returns a path of 5 positions that begins
with (2,2) and ends with (0,0), and a node count of at most 9. -/
theorem astar_three_by_three (fuel : Nat) (hfuel : 5 ≤ fuel) :
    ∃ path loops count,
      astar calculateCost (openMaze 3 3) fuel ⟨0, 0⟩ ⟨2, 2⟩ = .ok (path, loops, count) ∧
      path = [⟨2, 2⟩, ⟨1, 2⟩, ⟨1, 1⟩, ⟨0, 1⟩, ⟨0, 0⟩] ∧
      path.length = 5 ∧ path.head? = some ⟨2, 2⟩ ∧ path.getLast? = some ⟨0, 0⟩ ∧
      count ≤ 9 := by
  have h5 : astar calculateCost (openMaze 3 3) 5 ⟨0, 0⟩ ⟨2, 2⟩ =
      .ok ([⟨2, 2⟩, ⟨1, 2⟩, ⟨1, 1⟩, ⟨0, 1⟩, ⟨0, 0⟩], 5, 0) := rfl
  have h := astar_mono calculateCost (openMaze 3 3) 5 (fuel - 5) ⟨0, 0⟩ ⟨2, 2⟩ _ h5
  have e : 5 + (fuel - 5) = fuel := by omega
  rw [e] at h
  exact ⟨_, _, _, h, rfl, rfl, rfl, rfl, by decide⟩

theorem astar_three_by_three_witness :
    (5 ≤ 18) ∧
    ∃ path loops count,
      astar calculateCost (openMaze 3 3) 18 ⟨0, 0⟩ ⟨2, 2⟩ = .ok (path, loops, count) ∧
      path = [⟨2, 2⟩, ⟨1, 2⟩, ⟨1, 1⟩, ⟨0, 1⟩, ⟨0, 0⟩] ∧
      path.length = 5 ∧ path.head? = some ⟨2, 2⟩ ∧ path.getLast? = some ⟨0, 0⟩ ∧
      count ≤ 9 :=
  ⟨by decide, astar_three_by_three 18 (by decide)⟩

/-! ## Properties of insertionSortByCost -/

/-- C9 at a failing input: with goal (0,0) the deque holds a node of cost 3 in
front of nodes of cost 1 and 2 + sqrt 5 in sorted order; the pass never
compares the last entry and pushes the front node behind it, so the result is
not in non-decreasing order of cost. -/
theorem insertionSortByCost_skips_last :
    SortedByCost calculateCost ⟨0, 0⟩
      [Node.root ⟨1, 0⟩, Node.child (Node.child (Node.root ⟨1, 0⟩) ⟨1, 1⟩) ⟨1, 2⟩] ∧
    insertionSortByCost calculateCost
      [Node.child (Node.root ⟨1, 0⟩) ⟨2, 0⟩, Node.root ⟨1, 0⟩,
        Node.child (Node.child (Node.root ⟨1, 0⟩) ⟨1, 1⟩) ⟨1, 2⟩] ⟨0, 0⟩ =
      .ok [Node.root ⟨1, 0⟩, Node.child (Node.child (Node.root ⟨1, 0⟩) ⟨1, 1⟩) ⟨1, 2⟩,
        Node.child (Node.root ⟨1, 0⟩) ⟨2, 0⟩] ∧
    ¬ SortedByCost calculateCost ⟨0, 0⟩
      [Node.root ⟨1, 0⟩, Node.child (Node.child (Node.root ⟨1, 0⟩) ⟨1, 1⟩) ⟨1, 2⟩,
        Node.child (Node.root ⟨1, 0⟩) ⟨2, 0⟩] :=
  ⟨by decide, rfl, by decide⟩

/-- C10 fails as stated: on a deque of one entry the loop bound
`list.size() - 1` wraps around and the pass reads `list[0]` of the emptied
deque, so no permutation is returned. -/
theorem insertionSortByCost_singleton :
    insertionSortByCost calculateCost [Node.root ⟨0, 0⟩] ⟨0, 0⟩ = .error Fault.outOfRange ∧
    ¬ ∃ r, insertionSortByCost calculateCost [Node.root ⟨0, 0⟩] ⟨0, 0⟩ = .ok r ∧
      r.Perm [Node.root ⟨0, 0⟩] := by
  have h : insertionSortByCost calculateCost [Node.root ⟨0, 0⟩] ⟨0, 0⟩ =
      .error Fault.outOfRange := rfl
  refine ⟨h, ?_⟩
  rintro ⟨r, hr, _⟩
  rw [h] at hr
  cases hr

/-- C10, as amended: on a deque of at least two entries insertionSortByCost
returns a permutation of the deque of the same length in which only the
former front entry has moved: erasing it from the result at its new index
gives the tail of the input, in the same order. -/
theorem insertionSortByCost_moves_front {K : Type} [LT K]
    [DecidableRel (fun a b : K => a < b)] (cost : Node → Vector2 → K) (goal : Vector2)
    (x : Node) (rest : List Node) (h : rest ≠ []) :
    ∃ r k, insertionSortByCost cost (x :: rest) goal = .ok r ∧
      r.Perm (x :: rest) ∧ r.length = (x :: rest).length ∧
      k < r.length ∧ r[k]? = some x ∧ r.eraseIdx k = rest := by
  obtain ⟨k, hk, hs⟩ := insertionSortByCost_shape cost goal x rest h
  have hperm := insertionSortByCost_perm cost goal _ _ hs
  have hlen : (rest.take k).length = k := by simp [hk]
  refine ⟨_, k, hs, hperm, hperm.length_eq, ?_, ?_, ?_⟩
  · rw [hperm.length_eq]
    simp only [List.length_cons]
    omega
  · rw [List.getElem?_append_right (by omega), hlen]
    simp
  · rw [List.eraseIdx_append_of_length_le (by omega), hlen]
    simp

theorem insertionSortByCost_moves_front_witness :
    ([Node.root ⟨1, 0⟩, Node.child (Node.child (Node.root ⟨1, 0⟩) ⟨1, 1⟩) ⟨1, 2⟩] ≠ []) ∧
    ∃ r k, insertionSortByCost calculateCost
        (Node.child (Node.root ⟨1, 0⟩) ⟨2, 0⟩ ::
          [Node.root ⟨1, 0⟩, Node.child (Node.child (Node.root ⟨1, 0⟩) ⟨1, 1⟩) ⟨1, 2⟩])
        ⟨0, 0⟩ = .ok r ∧
      r.Perm (Node.child (Node.root ⟨1, 0⟩) ⟨2, 0⟩ ::
        [Node.root ⟨1, 0⟩, Node.child (Node.child (Node.root ⟨1, 0⟩) ⟨1, 1⟩) ⟨1, 2⟩]) ∧
      r.length = (Node.child (Node.root ⟨1, 0⟩) ⟨2, 0⟩ ::
        [Node.root ⟨1, 0⟩, Node.child (Node.child (Node.root ⟨1, 0⟩) ⟨1, 1⟩) ⟨1, 2⟩]).length ∧
      k < r.length ∧ r[k]? = some (Node.child (Node.root ⟨1, 0⟩) ⟨2, 0⟩) ∧
      r.eraseIdx k =
        [Node.root ⟨1, 0⟩, Node.child (Node.child (Node.root ⟨1, 0⟩) ⟨1, 1⟩) ⟨1, 2⟩] :=
  ⟨by decide,
    insertionSortByCost_moves_front calculateCost ⟨0, 0⟩ (Node.child (Node.root ⟨1, 0⟩) ⟨2, 0⟩)
      [Node.root ⟨1, 0⟩, Node.child (Node.child (Node.root ⟨1, 0⟩) ⟨1, 1⟩) ⟨1, 2⟩] (by decide)⟩

/-! ## The exact effect of an iteration -/

section Shape

variable {K : Type}

theorem mem_pushIf_iff (b : Bool) (node : Node) (q : Vector2) (l : List Node) (n : Node) :
    n ∈ pushIf b node q l ↔ (b = true ∧ n = Node.child node q) ∨ n ∈ l := by
  cases b <;> simp [pushIf]

theorem pushIf_append (b : Bool) (node : Node) (q : Vector2) (l1 l2 : List Node) :
    pushIf b node q (l1 ++ l2) = pushIf b node q l1 ++ l2 := by
  cases b <;> simp [pushIf]

theorem kids_nodup (gU gL gR gD : Bool) (node : Node) (p : Vector2) :
    ((pushIf gD node (p + DOWN) (pushIf gR node (p + RIGHT)
      (pushIf gL node (p + LEFT) (pushIf gU node (p + UP) [])))).map Node.getPos).Nodup := by
  obtain ⟨n1, n2, n3, n4, n5, n6⟩ := dir_ne p
  cases gU <;> cases gL <;> cases gR <;> cases gD <;>
    simp [pushIf, Node.getPos, n1, n2, n3, n4, n5, n6]

theorem kids_nil_iff (gU gL gR gD : Bool) (node : Node) (p : Vector2) :
    pushIf gD node (p + DOWN) (pushIf gR node (p + RIGHT)
      (pushIf gL node (p + LEFT) (pushIf gU node (p + UP) []))) = [] ↔
      (gU || gL || gR || gD) = false := by
  cases gU <;> cases gL <;> cases gR <;> cases gD <;> simp [pushIf]

/-- The exact effect of the loop body, on any input, at a state whose current
node is the front of the frontier: the pushed children `kids` are children of
the current node in directions whose guard and maze test passed and whose
position passed the duplicate filter; then the body leaves by the goal check,
or re-sorts the frontier that received children, or pops the current node. -/
theorem iteration_shape [LT K] [DecidableRel (fun a b : K => a < b)]
    (cost : Node → Vector2 → K) (m : Maze) (goal : Vector2) (s s1 : State) (b : Bool)
    (tl : List Node) (hpl : s.potential_list = s.node :: tl)
    (h : iteration cost m goal s = .ok (s1, b)) :
    ∃ kids : List Node,
      (∀ k ∈ kids, ∃ edge q d, (edge, q) ∈ guards m s.node.getPos ∧
        k = Node.child s.node q ∧ directionCost cost m goal s.node edge q = .ok d ∧
        going s.potential_list s.explored_list d q = true) ∧
      (kids.map Node.getPos).Nodup ∧ s1.node = s.node ∧ s1.loop_count = s.loop_count ∧
      ((b = true ∧ s.node.getPos = goal ∧ s1.potential_list = kids ++ s.potential_list ∧
          s1.explored_list = s.explored_list ∧ s1.numNodes = s.numNodes) ∨
       (b = false ∧ s.node.getPos ≠ goal ∧ kids ≠ [] ∧
          insertionSortByCost cost (kids ++ s.potential_list) goal = .ok s1.potential_list ∧
          s1.explored_list = s.explored_list ∧ s1.numNodes = s.numNodes) ∨
       (b = false ∧ s.node.getPos ≠ goal ∧ kids = [] ∧ s1.potential_list = tl ∧
          s1.explored_list = s.explored_list ++ [s.node.getPos] ∧
          s1.numNodes = s.numNodes + 1)) := by
  simp only [iteration] at h
  split at h
  · cases h
  rename_i dU hU
  split at h
  · cases h
  rename_i dL hL
  split at h
  · cases h
  rename_i dR hR
  split at h
  · cases h
  rename_i dD hD
  generalize hgU : going s.potential_list s.explored_list dU (s.node.getPos + UP) = gU at h
  generalize hgL : going s.potential_list s.explored_list dL (s.node.getPos + LEFT) = gL at h
  generalize hgR : going s.potential_list s.explored_list dR (s.node.getPos + RIGHT) = gR at h
  generalize hgD : going s.potential_list s.explored_list dD (s.node.getPos + DOWN) = gD at h
  have hkids : ∀ k ∈ pushIf gD s.node (s.node.getPos + DOWN)
      (pushIf gR s.node (s.node.getPos + RIGHT) (pushIf gL s.node (s.node.getPos + LEFT)
        (pushIf gU s.node (s.node.getPos + UP) []))),
      ∃ edge q d, (edge, q) ∈ guards m s.node.getPos ∧
        k = Node.child s.node q ∧ directionCost cost m goal s.node edge q = .ok d ∧
        going s.potential_list s.explored_list d q = true := by
    intro k hk
    rcases (mem_pushIf_iff _ _ _ _ _).1 hk with ⟨hb, e⟩ | hk
    · exact ⟨_, _, dD, by simp [guards], e, hD, by rw [hgD, hb]⟩
    rcases (mem_pushIf_iff _ _ _ _ _).1 hk with ⟨hb, e⟩ | hk
    · exact ⟨_, _, dR, by simp [guards], e, hR, by rw [hgR, hb]⟩
    rcases (mem_pushIf_iff _ _ _ _ _).1 hk with ⟨hb, e⟩ | hk
    · exact ⟨_, _, dL, by simp [guards], e, hL, by rw [hgL, hb]⟩
    rcases (mem_pushIf_iff _ _ _ _ _).1 hk with ⟨hb, e⟩ | hk
    · exact ⟨_, _, dU, by simp [guards], e, hU, by rw [hgU, hb]⟩
    · cases hk
  have hnd := kids_nodup gU gL gR gD s.node s.node.getPos
  have hnil := kids_nil_iff gU gL gR gD s.node s.node.getPos
  have happ : pushIf gD s.node (s.node.getPos + DOWN)
      (pushIf gR s.node (s.node.getPos + RIGHT) (pushIf gL s.node (s.node.getPos + LEFT)
        (pushIf gU s.node (s.node.getPos + UP) s.potential_list))) =
      pushIf gD s.node (s.node.getPos + DOWN)
      (pushIf gR s.node (s.node.getPos + RIGHT) (pushIf gL s.node (s.node.getPos + LEFT)
        (pushIf gU s.node (s.node.getPos + UP) []))) ++ s.potential_list := by
    simp only [← pushIf_append, List.nil_append]
  rw [happ] at h
  generalize pushIf gD s.node (s.node.getPos + DOWN)
      (pushIf gR s.node (s.node.getPos + RIGHT) (pushIf gL s.node (s.node.getPos + LEFT)
        (pushIf gU s.node (s.node.getPos + UP) []))) = kids at h hkids hnd hnil
  refine ⟨kids, hkids, hnd, ?_⟩
  split at h
  · next hgoal =>
    simp only [Except.ok.injEq, Prod.mk.injEq] at h
    obtain ⟨h1, h2⟩ := h
    subst h1
    exact ⟨rfl, rfl, Or.inl ⟨h2.symm, hgoal, rfl, rfl, rfl⟩⟩
  · next hgoal =>
    cases hfe : (gU || gL || gR || gD) with
    | false =>
      have hk : kids = [] := hnil.2 hfe
      subst hk
      simp only [hfe, List.nil_append, ne_eq, not_true_eq_false, if_false, Bool.not_false,
        if_true, hpl] at h
      simp only [Except.ok.injEq, Prod.mk.injEq] at h
      obtain ⟨h1, h2⟩ := h
      subst h1
      exact ⟨rfl, rfl, Or.inr (Or.inr ⟨h2.symm, hgoal, rfl, rfl, rfl, rfl⟩)⟩
    | true =>
      have hk : kids ≠ [] := fun e => by
        have := hnil.1 e
        rw [hfe] at this
        cases this
      have hlen : (kids ++ s.potential_list).length ≠ s.potential_list.length := by
        have : 0 < kids.length := List.length_pos.2 hk
        simp only [List.length_append]
        omega
      simp only [hfe, hlen, ne_eq, not_false_eq_true, if_true, Bool.not_true,
        Bool.false_eq_true, if_false] at h
      split at h
      · cases h
      · next pl5 hsort =>
        simp only [Except.ok.injEq, Prod.mk.injEq] at h
        obtain ⟨h1, h2⟩ := h
        subst h1
        exact ⟨rfl, rfl, Or.inr (Or.inl ⟨h2.symm, hgoal, hk, hsort, rfl, rfl⟩)⟩

end Shape

/-! ## Parent links -/

theorem follow_getPos_mem (n : Node) : ∀ (k : Nat) (a : Node),
    Node.follow k n = some a → a.getPos ∈ buildPath n := by
  induction n with
  | root p =>
    intro k a h
    cases k with
    | zero =>
      simp only [Node.follow, Option.some.injEq] at h
      subst h
      simp [buildPath, Node.getPos]
    | succ k => simp [Node.follow, Node.getPrev] at h
  | child prev p ih =>
    intro k a h
    cases k with
    | zero =>
      simp only [Node.follow, Option.some.injEq] at h
      subst h
      simp [buildPath, Node.getPos]
    | succ k =>
      simp only [Node.follow, Node.getPrev] at h
      exact List.mem_cons_of_mem _ (ih k a h)

theorem mem_buildPath_follow (n : Node) : ∀ p ∈ buildPath n,
    ∃ k a, Node.follow k n = some a ∧ a.getPos = p := by
  induction n with
  | root q =>
    intro p hp
    simp only [buildPath, List.mem_singleton] at hp
    exact ⟨0, Node.root q, rfl, hp.symm⟩
  | child prev q ih =>
    intro p hp
    rcases List.mem_cons.1 hp with e | h
    · exact ⟨0, Node.child prev q, rfl, e.symm⟩
    · obtain ⟨k, a, h1, h2⟩ := ih p h
      exact ⟨k + 1, a, by simpa [Node.follow, Node.getPrev] using h1, h2⟩

/-- The positions of the parent chain of a node are the positions of the
nodes reached by following its parent links zero or more times. -/
theorem mem_buildPath_iff (n : Node) (p : Vector2) :
    p ∈ buildPath n ↔ ∃ k a, Node.follow k n = some a ∧ a.getPos = p :=
  ⟨mem_buildPath_follow n p, fun ⟨k, a, h1, h2⟩ => h2 ▸ follow_getPos_mem n k a h1⟩

/-! ## Facts about a pushed child -/

section Kid

variable {K : Type}

theorem going_true {pl : List Node} {el : List Vector2} {d : Option K} {p : Vector2}
    (h : going pl el d p = true) :
    d.isSome = true ∧ haveAnyNodesExplored pl p = false ∧ isPosInVector p el = false := by
  simpa [going] using h

theorem directionCost_some (cost : Node → Vector2 → K) (m : Maze) (goal : Vector2)
    (node : Node) (edge : Bool) (p : Vector2) (d : Option K)
    (h : directionCost cost m goal node edge p = .ok d) (hd : d.isSome = true) :
    edge = false ∧ ∃ c, m.read (calculatePosIndex m p) = .ok c ∧ c ≠ m.WALL := by
  unfold directionCost at h
  cases edge with
  | true =>
    simp only [if_true, Except.ok.injEq] at h
    rw [← h] at hd
    simp [INFINITY] at hd
  | false =>
    refine ⟨rfl, ?_⟩
    simp only [Bool.false_eq_true, if_false] at h
    cases hr : m.read (calculatePosIndex m p) with
    | error e => simp [hr] at h
    | ok c =>
      refine ⟨c, rfl, ?_⟩
      simp only [hr] at h
      intro hc
      simp only [hc, if_true, Except.ok.injEq] at h
      rw [← h] at hd
      simp [INFINITY] at hd

theorem read_ok_index (m : Maze) (i : Int) (c : Char) (h : m.read i = .ok c) :
    0 ≤ i ∧ i.toNat < m.cells.length ∧ m.cells[i.toNat]? = some c := by
  unfold Maze.read at h
  split at h
  · next h0 =>
    split at h
    · next c2 hc =>
      simp only [Except.ok.injEq] at h
      subst h
      exact ⟨h0, (List.getElem?_eq_some.1 hc).1, hc⟩
    · cases h
  · cases h

theorem guards_step (m : Maze) (pos : Vector2) (edge : Bool) (q : Vector2)
    (h : (edge, q) ∈ guards m pos) : manhattan pos q = 1 := by
  obtain ⟨aU, aL, aR, aD⟩ := manhattan_step pos
  simp only [guards, List.mem_cons, Prod.mk.injEq, List.mem_singleton, List.not_mem_nil,
    or_false] at h
  rcases h with ⟨_, e⟩ | ⟨_, e⟩ | ⟨_, e⟩ | ⟨_, e⟩ <;> rw [e] <;> assumption

/-- On an in-bounds position each of the four guards is true exactly when the
neighbour it protects lies outside the grid. -/
theorem guards_iff (m : Maze) (pos : Vector2) (hb : m.inBounds pos) (edge : Bool)
    (q : Vector2) (h : (edge, q) ∈ guards m pos) : edge = true ↔ ¬ m.inBounds q := by
  obtain ⟨eU, eL, eR, eD⟩ := edge_iff m pos hb
  simp only [guards, List.mem_cons, Prod.mk.injEq, List.mem_singleton, List.not_mem_nil,
    or_false] at h
  rcases h with ⟨e1, e2⟩ | ⟨e1, e2⟩ | ⟨e1, e2⟩ | ⟨e1, e2⟩ <;> rw [e1, e2] <;> assumption

/-- A child is only pushed on an in-bounds cell that is not a wall, one step
away from an in-bounds current position. -/
theorem kid_free (cost : Node → Vector2 → K) (m : Maze) (goal : Vector2) (node : Node)
    (hb : m.inBounds node.getPos) (edge : Bool) (q : Vector2) (d : Option K)
    (hg : (edge, q) ∈ guards m node.getPos)
    (h : directionCost cost m goal node edge q = .ok d) (hd : d.isSome = true) :
    m.free q := by
  obtain ⟨he, c, hc, hw⟩ := directionCost_some cost m goal node edge q d h hd
  have hq : m.inBounds q := by
    by_contra hn
    have := (guards_iff m node.getPos hb edge q hg).2 hn
    rw [he] at this
    cases this
  refine ⟨hq, fun hwall => ?_⟩
  obtain ⟨_, _, h3⟩ := read_ok_index m _ c hc
  unfold Maze.isWall at hwall
  rw [h3] at hwall
  exact hw (Option.some.inj hwall)

end Kid

/-! ## Preservation of the invariants that hold on every input -/

theorem tree_initial (start : Vector2) : Tree start [Node.root start] [] where
  linked := by simp [Node.Linked]
  anc := by
    intro n hn k a h
    simp only [List.mem_singleton] at hn
    subst hn
    cases k with
    | zero =>
      simp only [Node.follow, Option.some.injEq] at h
      exact Or.inl (by simp [h])
    | succ k => simp [Node.follow, Node.getPrev] at h
  nodup := by simp
  chain := by simp [buildPath]

theorem Tree.reorder {start : Vector2} {pl pl2 : List Node} {el : List Vector2}
    (t : Tree start pl el) (hp : pl2.Perm pl) : Tree start pl2 el where
  linked := fun n hn => t.linked n (hp.subset hn)
  anc := fun n hn k a h => by
    rcases t.anc n (hp.subset hn) k a h with h1 | h1
    · exact Or.inl (hp.symm.subset h1)
    · exact Or.inr h1
  nodup := ((hp.map Node.getPos).append_right el).nodup_iff.2 t.nodup
  chain := fun n hn => t.chain n (hp.subset hn)

theorem not_mem_of_filter {pl : List Node} {el : List Vector2} {q : Vector2}
    (h1 : haveAnyNodesExplored pl q = false) (h2 : isPosInVector q el = false) :
    (∀ n ∈ pl, q ∉ buildPath n) ∧ q ∉ pl.map Node.getPos ∧ q ∉ el := by
  have hchain : ∀ n ∈ pl, q ∉ buildPath n := by
    intro n hn hq
    have := (haveAnyNodesExplored_iff pl q).2 ⟨n, hn, hq⟩
    rw [h1] at this
    cases this
  refine ⟨hchain, ?_, ?_⟩
  · intro hq
    obtain ⟨n, hn, e⟩ := List.mem_map.1 hq
    exact hchain n hn (e ▸ getPos_mem_buildPath n)
  · intro hq
    have := (isPosInVector_iff q el).2 hq
    rw [h2] at this
    cases this

theorem Tree.pushAll {start : Vector2} {pl : List Node} {el : List Vector2}
    (t : Tree start pl el) (node : Node) (hn : node ∈ pl) (kids : List Node)
    (hk : ∀ k ∈ kids, ∃ q, k = Node.child node q ∧ manhattan node.getPos q = 1 ∧
      haveAnyNodesExplored pl q = false ∧ isPosInVector q el = false)
    (hnd : (kids.map Node.getPos).Nodup) : Tree start (kids ++ pl) el where
  linked := by
    intro n hmem
    rcases List.mem_append.1 hmem with h | h
    · obtain ⟨q, e, hadj, _, _⟩ := hk n h
      rw [e]
      exact ⟨t.linked node hn, hadj⟩
    · exact t.linked n h
  anc := by
    intro n hmem k a h
    have old : ∀ n2 ∈ pl, ∀ k2 a2, Node.follow k2 n2 = some a2 →
        a2 ∈ kids ++ pl ∨ a2.getPos ∈ el := by
      intro n2 hn2 k2 a2 h2
      rcases t.anc n2 hn2 k2 a2 h2 with h3 | h3
      · exact Or.inl (List.mem_append_right _ h3)
      · exact Or.inr h3
    rcases List.mem_append.1 hmem with hkid | hold
    · obtain ⟨q, e, _, _, _⟩ := hk n hkid
      cases k with
      | zero =>
        simp only [Node.follow, Option.some.injEq] at h
        exact Or.inl (h ▸ hmem)
      | succ k =>
        rw [e] at h
        simp only [Node.follow, Node.getPrev] at h
        exact old node hn k a h
    · exact old n hold k a h
  nodup := by
    rw [List.map_append, List.append_assoc, List.nodup_append]
    refine ⟨hnd, t.nodup, ?_⟩
    intro p hp1 hp2
    obtain ⟨k, hkm, e⟩ := List.mem_map.1 hp1
    obtain ⟨q, e2, _, f1, f2⟩ := hk k hkm
    obtain ⟨_, g1, g2⟩ := not_mem_of_filter f1 f2
    have hpq : p = q := by rw [← e, e2]; rfl
    rw [hpq] at hp2
    rcases List.mem_append.1 hp2 with h | h
    · exact g1 h
    · exact g2 h
  chain := by
    intro n hmem
    rcases List.mem_append.1 hmem with h | h
    · obtain ⟨q, e, _, f1, f2⟩ := hk n h
      obtain ⟨g0, _, _⟩ := not_mem_of_filter f1 f2
      rw [e, buildPath, List.nodup_cons]
      exact ⟨g0 node hn, t.chain node hn⟩
    · exact t.chain n h

theorem Tree.popFront {start : Vector2} {node : Node} {rest : List Node} {el : List Vector2}
    (t : Tree start (node :: rest) el) : Tree start rest (el ++ [node.getPos]) where
  linked := fun n hn => t.linked n (List.mem_cons_of_mem _ hn)
  anc := by
    intro n hn k a h
    rcases t.anc n (List.mem_cons_of_mem _ hn) k a h with h1 | h1
    · rcases List.mem_cons.1 h1 with e | h2
      · exact Or.inr (by simp [e])
      · exact Or.inl h2
    · exact Or.inr (by simp [h1])
  nodup := by
    have hperm : (rest.map Node.getPos ++ (el ++ [node.getPos])).Perm
        ((node :: rest).map Node.getPos ++ el) := by
      rw [← List.append_assoc]
      simpa using (List.perm_append_singleton node.getPos (rest.map Node.getPos ++ el))
    exact hperm.nodup_iff.2 t.nodup
  chain := fun n hn => t.chain n (List.mem_cons_of_mem _ hn)

theorem walk_initial (start : Vector2) : Walk start (initial start) where
  tree := tree_initial start
  node_linked := rfl
  node_chain := by simp [initial, buildPath]
  count := rfl
  last := by simp [initial]

section WalkStep

variable {K : Type} [LT K] [DecidableRel (fun a b : K => a < b)]

/-- Every iteration preserves the invariant `Walk`, on any input. -/
theorem walk_step (cost : Node → Vector2 → K) (m : Maze) (goal start : Vector2)
    (s : State) (front : Node) (tl : List Node) (s1 : State) (b : Bool)
    (w : Walk start s) (hpl : s.potential_list = front :: tl)
    (hit : iteration cost m goal { s with loop_count := s.loop_count + 1, node := front } =
      .ok (s1, b)) : Walk start s1 := by
  obtain ⟨kids, hk, hnd, hnode, _, hcase⟩ := iteration_shape cost m goal
    { s with loop_count := s.loop_count + 1, node := front } s1 b tl hpl hit
  dsimp only at hk hnode hcase
  have hfront : front ∈ s.potential_list := by rw [hpl]; exact List.mem_cons_self _ _
  have hk2 : ∀ k ∈ kids, ∃ q, k = Node.child front q ∧ manhattan front.getPos q = 1 ∧
      haveAnyNodesExplored s.potential_list q = false ∧
      isPosInVector q s.explored_list = false := by
    intro k hkm
    obtain ⟨edge, q, d, hg, e, _, hgo⟩ := hk k hkm
    obtain ⟨_, f1, f2⟩ := going_true hgo
    exact ⟨q, e, guards_step m _ edge q hg, f1, f2⟩
  have tall := w.tree.pushAll front hfront kids hk2 hnd
  have hne : kids ++ s.potential_list ≠ [] := by rw [hpl]; simp
  rcases hcase with ⟨_, _, h3, h4, h5⟩ | ⟨_, _, _, h3, h4, h5⟩ | ⟨_, _, hkn, h3, h4, h5⟩
  · refine ⟨?_, ?_, ?_, ?_, ?_⟩
    · rw [h3, h4]; exact tall
    · rw [hnode]; exact w.tree.linked front hfront
    · rw [hnode]; exact w.tree.chain front hfront
    · rw [h5, h4]; exact w.count
    · intro he
      rw [h3] at he
      exact absurd he hne
  · have hperm := insertionSortByCost_perm cost goal _ _ h3
    refine ⟨?_, ?_, ?_, ?_, ?_⟩
    · rw [h4]; exact tall.reorder hperm
    · rw [hnode]; exact w.tree.linked front hfront
    · rw [hnode]; exact w.tree.chain front hfront
    · rw [h5, h4]; exact w.count
    · intro he
      rw [he] at hperm
      exact absurd (List.Perm.eq_nil hperm.symm) hne
  · refine ⟨?_, ?_, ?_, ?_, ?_⟩
    · rw [h3, h4]
      have t := w.tree
      rw [hpl] at t
      exact t.popFront
    · rw [hnode]; exact w.tree.linked front hfront
    · rw [hnode]; exact w.tree.chain front hfront
    · rw [h5, h4, w.count]; simp
    · intro _
      rw [h4, hnode]
      simp

end WalkStep

/-! ## The states at the head of the loop -/

section Heads

variable {K : Type} [LT K] [DecidableRel (fun a b : K => a < b)]

theorem loopHead_cons (cost : Node → Vector2 → K) (m : Maze) (goal : Vector2) (n : Nat)
    (s : State) (front : Node) (tl : List Node) (h : s.potential_list = front :: tl) :
    loopHead cost m goal (n + 1) s =
      match iteration cost m goal { s with loop_count := s.loop_count + 1, node := front } with
      | .ok (s1, false) => loopHead cost m goal n s1
      | _ => none := by
  rw [loopHead]
  split
  · next h2 => rw [h] at h2; cases h2
  · next f t h2 =>
    rw [h] at h2
    cases h2
    rfl

/-- Rule for invariants of the loop: a property of the state that every
iteration preserves holds at the head of every iteration. -/
theorem loopHead_induct (cost : Node → Vector2 → K) (m : Maze) (goal : Vector2)
    (P : State → Prop)
    (hstep : ∀ s front tl s1 b, P s → s.potential_list = front :: tl →
      iteration cost m goal { s with loop_count := s.loop_count + 1, node := front } =
        .ok (s1, b) → P s1)
    (n : Nat) (s0 s : State) (h0 : P s0) (h : loopHead cost m goal n s0 = some s) : P s := by
  induction n generalizing s0 with
  | zero =>
    simp only [loopHead, Option.some.injEq] at h
    exact h ▸ h0
  | succ n ih =>
    cases hpl : s0.potential_list with
    | nil =>
      rw [loopHead] at h
      simp [hpl] at h
    | cons front tl =>
      rw [loopHead_cons cost m goal n s0 front tl hpl] at h
      cases hit : iteration cost m goal
          { s0 with loop_count := s0.loop_count + 1, node := front } with
      | error err => simp [hit] at h
      | ok r =>
        obtain ⟨s1, b⟩ := r
        cases b with
        | true => simp [hit] at h
        | false =>
          simp only [hit] at h
          exact ih s1 (hstep s0 front tl s1 false h0 hpl hit) h

/-- The invariant `Walk` holds at the head of every iteration, on any input. -/
theorem loopHead_walk (cost : Node → Vector2 → K) (m : Maze) (goal start : Vector2)
    (n : Nat) (s : State) (h : loopHead cost m goal n (initial start) = some s) :
    Walk start s :=
  loopHead_induct cost m goal (Walk start)
    (fun s front tl s1 b w hpl hit => walk_step cost m goal start s front tl s1 b w hpl hit)
    n (initial start) s (walk_initial start) h

/-- The invariant `Walk` holds of the state in which the loop ends, on any
input. -/
theorem astarLoop_walk (cost : Node → Vector2 → K) (m : Maze) (goal start : Vector2)
    (fuel : Nat) (sf : State) (e : Exit)
    (h : astarLoop cost m goal fuel (initial start) = .ok (sf, e)) : Walk start sf :=
  astarLoop_induct cost m goal (Walk start)
    (fun s front tl s1 b w hpl hit => walk_step cost m goal start s front tl s1 b w hpl hit)
    fuel (initial start) sf e (walk_initial start) h

/-- The loop ends by its condition only with an empty frontier. -/
theorem astarLoop_empty (cost : Node → Vector2 → K) (m : Maze) (goal : Vector2) (fuel : Nat)
    (s sf : State) (h : astarLoop cost m goal fuel s = .ok (sf, .FRONTIER_EMPTY)) :
    sf.potential_list = [] := by
  induction fuel generalizing s with
  | zero => rw [astarLoop] at h; simp at h
  | succ fuel ih =>
    cases hpl : s.potential_list with
    | nil =>
      rw [astarLoop] at h
      simp only [hpl, Except.ok.injEq, Prod.mk.injEq, and_true] at h
      rw [← h]
      exact hpl
    | cons front tl =>
      rw [astarLoop_cons cost m goal fuel s front tl hpl] at h
      cases hit : iteration cost m goal
          { s with loop_count := s.loop_count + 1, node := front } with
      | error err => simp [hit] at h
      | ok r =>
        obtain ⟨s1, b⟩ := r
        cases b with
        | true => simp [hit] at h
        | false =>
          simp only [hit] at h
          exact ih s1 h

/-- The loop count never decreases, and it grows when the loop starts with a
non-empty frontier. -/
theorem astarLoop_loop_count (cost : Node → Vector2 → K) (m : Maze) (goal : Vector2)
    (fuel : Nat) (s sf : State) (e : Exit) (h : astarLoop cost m goal fuel s = .ok (sf, e)) :
    s.loop_count ≤ sf.loop_count ∧ (s.potential_list ≠ [] → s.loop_count + 1 ≤ sf.loop_count) := by
  induction fuel generalizing s with
  | zero => rw [astarLoop] at h; simp at h
  | succ fuel ih =>
    cases hpl : s.potential_list with
    | nil =>
      rw [astarLoop] at h
      simp only [hpl, Except.ok.injEq, Prod.mk.injEq] at h
      rw [← h.1]
      exact ⟨le_refl _, fun hne => absurd rfl hne⟩
    | cons front tl =>
      rw [astarLoop_cons cost m goal fuel s front tl hpl] at h
      cases hit : iteration cost m goal
          { s with loop_count := s.loop_count + 1, node := front } with
      | error err => simp [hit] at h
      | ok r =>
        obtain ⟨s1, b⟩ := r
        obtain ⟨_, hlc, _, _⟩ := iteration_sound cost m goal _ s1 b hit
        dsimp only at hlc
        cases b with
        | true =>
          simp only [hit, Except.ok.injEq, Prod.mk.injEq] at h
          rw [← h.1, hlc]
          exact ⟨by omega, fun _ => le_refl _⟩
        | false =>
          simp only [hit] at h
          have := (ih s1 h).1
          rw [hlc] at this
          exact ⟨by omega, fun _ => this⟩

end Heads

/-! ## Further properties of the search -/

/-- C12: haveAnyNodesExplored returns true exactly when some node of the
deque, or some node reached from it by following parent links zero or more
times, has position p; isPosInVector returns true exactly when some element of
the vector equals p in both components. Both are functions of their arguments
that return only the boolean. -/
theorem filter_spec (nodes : List Node) (vecs : List Vector2) (p : Vector2) :
    (haveAnyNodesExplored nodes p = true ↔
      ∃ n ∈ nodes, ∃ k a, Node.follow k n = some a ∧ a.getPos = p) ∧
    (isPosInVector p vecs = true ↔ ∃ v ∈ vecs, p.x = v.x ∧ p.y = v.y) := by
  constructor
  · rw [haveAnyNodesExplored_iff]
    constructor
    · rintro ⟨n, hn, hp⟩
      exact ⟨n, hn, (mem_buildPath_iff n p).1 hp⟩
    · rintro ⟨n, hn, hk⟩
      exact ⟨n, hn, (mem_buildPath_iff n p).2 hk⟩
  · rw [isPosInVector_iff]
    constructor
    · intro h
      exact ⟨p, h, rfl, rfl⟩
    · rintro ⟨v, hv, hx, hy⟩
      have e : p = v := by
        obtain ⟨px, py⟩ := p
        obtain ⟨vx, vy⟩ := v
        simp only at hx hy
        rw [hx, hy]
      exact e ▸ hv

section More

variable {K : Type} [LT K] [DecidableRel (fun a b : K => a < b)]

/-- C13: on a well-formed grid with F non-wall cells and an in-bounds non-wall
start, the loop of astar ends for every goal, and the returned loop count is at
least 1 and at most 2 * F. -/
theorem astar_loop_count_bounds (cost : Node → Vector2 → K) (m : Maze) (hwf : m.wellFormed)
    (start goal : Vector2) (hs : m.free start) (fuel : Nat)
    (hfuel : 2 * m.freeCells.length ≤ fuel) :
    ∃ sf e path loops count,
      astarLoop cost m goal fuel (initial start) = .ok (sf, e) ∧
      astar cost m fuel start goal = .ok (path, loops, count) ∧
      1 ≤ loops ∧ loops ≤ 2 * m.freeCells.length := by
  obtain ⟨sf, e, hloop, hastar, hpost⟩ := astar_total cost m hwf start goal hs fuel hfuel
  refine ⟨sf, e, _, _, _, hloop, hastar, ?_, ?_⟩
  · have h := (astarLoop_loop_count cost m goal fuel (initial start) sf e hloop).2
      (by simp [initial])
    simpa [initial] using h
  · have h1 := hpost.loops
    have h2 := hpost.good.length_le
    omega

/-- C14: whenever the loop of astar ends because the frontier became empty,
the returned path is not empty: it is the parent chain of the node that was
selected and popped last, it begins with the position of that node and ends
with start. -/
theorem astar_frontier_empty_path (cost : Node → Vector2 → K) (m : Maze) (fuel : Nat)
    (start goal : Vector2) (sf : State)
    (h : astarLoop cost m goal fuel (initial start) = .ok (sf, .FRONTIER_EMPTY)) :
    ∃ path loops count,
      astar cost m fuel start goal = .ok (path, loops, count) ∧
      sf.potential_list = [] ∧ sf.explored_list.getLast? = some sf.node.getPos ∧
      path = buildPath sf.node ∧ path ≠ [] ∧ path.head? = some sf.node.getPos ∧
      path.getLast? = some start := by
  have w := astarLoop_walk cost m goal start fuel sf _ h
  have hempty := astarLoop_empty cost m goal fuel (initial start) sf h
  exact ⟨buildPath sf.node, sf.loop_count, sf.numNodes, by simp only [astar, h], hempty,
    w.last hempty, rfl, buildPath_ne_nil _, buildPath_head _,
    buildPath_getLast start _ w.node_linked⟩

/-- C20: on any input, at the head of every iteration of the loop of astar the
positions of the frontier nodes are pairwise distinct and distinct from the
explored positions, which are pairwise distinct too; and the path returned by
astar never contains the same position twice. -/
theorem frontier_positions_distinct (cost : Node → Vector2 → K) (m : Maze)
    (start goal : Vector2) :
    (∀ n s, loopHead cost m goal n (initial start) = some s →
      (s.potential_list.map Node.getPos ++ s.explored_list).Nodup) ∧
    (∀ fuel path loops count, astar cost m fuel start goal = .ok (path, loops, count) →
      path.Nodup) := by
  constructor
  · intro n s h
    exact (loopHead_walk cost m goal start n s h).tree.nodup
  · intro fuel path loops count h
    simp only [astar] at h
    cases hl : astarLoop cost m goal fuel (initial start) with
    | error err => simp [hl] at h
    | ok r =>
      obtain ⟨sf, e⟩ := r
      simp only [hl, Except.ok.injEq, Prod.mk.injEq] at h
      rw [← h.1]
      exact (astarLoop_walk cost m goal start fuel sf e hl).node_chain

end More

theorem astar_loop_count_bounds_witness :
    detourMaze.wellFormed ∧ detourMaze.free ⟨0, 0⟩ ∧
    ∃ sf e path loops count,
      astarLoop calculateCost detourMaze ⟨2, 0⟩ 14 (initial ⟨0, 0⟩) = .ok (sf, e) ∧
      astar calculateCost detourMaze 14 ⟨0, 0⟩ ⟨2, 0⟩ = .ok (path, loops, count) ∧
      1 ≤ loops ∧ loops ≤ 2 * detourMaze.freeCells.length :=
  ⟨by decide, by decide,
    astar_loop_count_bounds calculateCost detourMaze (by decide) ⟨0, 0⟩ ⟨2, 0⟩ (by decide) 14
      (by decide)⟩

theorem astar_frontier_empty_path_witness :
    astarLoop calculateCost blockedMaze ⟨2, 0⟩ 2 (initial ⟨0, 0⟩) =
      .ok ({ potential_list := [], explored_list := [⟨0, 0⟩], node := Node.root ⟨0, 0⟩,
             loop_count := 1, numNodes := 1 }, .FRONTIER_EMPTY) ∧
    ∃ path loops count,
      astar calculateCost blockedMaze 2 ⟨0, 0⟩ ⟨2, 0⟩ = .ok (path, loops, count) ∧
      ([] : List Node) = [] ∧
      ([⟨0, 0⟩] : List Vector2).getLast? = some (Node.root ⟨0, 0⟩).getPos ∧
      path = buildPath (Node.root ⟨0, 0⟩) ∧ path ≠ [] ∧
      path.head? = some (Node.root ⟨0, 0⟩).getPos ∧ path.getLast? = some ⟨0, 0⟩ :=
  ⟨rfl, astar_frontier_empty_path calculateCost blockedMaze 2 ⟨0, 0⟩ ⟨2, 0⟩ _ rfl⟩

theorem frontier_positions_distinct_witness :
    loopHead calculateCost (openMaze 2 2) ⟨1, 1⟩ 1 (initial ⟨0, 0⟩) =
      some { potential_list := [Node.child (Node.root ⟨0, 0⟩) ⟨0, 1⟩,
               Node.child (Node.root ⟨0, 0⟩) ⟨1, 0⟩, Node.root ⟨0, 0⟩],
             explored_list := [], node := Node.root ⟨0, 0⟩, loop_count := 1, numNodes := 0 } ∧
    (([Node.child (Node.root ⟨0, 0⟩) ⟨0, 1⟩, Node.child (Node.root ⟨0, 0⟩) ⟨1, 0⟩,
        Node.root ⟨0, 0⟩].map Node.getPos ++ ([] : List Vector2)).Nodup) ∧
    astar calculateCost (openMaze 2 2) 8 ⟨0, 0⟩ ⟨1, 1⟩ =
      .ok ([⟨1, 1⟩, ⟨0, 1⟩, ⟨0, 0⟩], 3, 0) ∧
    ([⟨1, 1⟩, ⟨0, 1⟩, ⟨0, 0⟩] : Path).Nodup :=
  ⟨rfl,
    (frontier_positions_distinct calculateCost (openMaze 2 2) ⟨0, 0⟩ ⟨1, 1⟩).1 1 _ rfl,
    rfl,
    (frontier_positions_distinct calculateCost (openMaze 2 2) ⟨0, 0⟩ ⟨1, 1⟩).2 8 _ _ _ rfl⟩

/-! ## Faults of an iteration -/

section Faults

variable {K : Type}

theorem read_error (m : Maze) (i : Int) (e : Fault) (h : m.read i = .error e) :
    e = .outOfRange := by
  unfold Maze.read at h
  split at h
  · split at h
    · cases h
    · cases h; rfl
  · cases h; rfl

theorem directionCost_error (cost : Node → Vector2 → K) (m : Maze) (goal : Vector2)
    (node : Node) (edge : Bool) (p : Vector2) (e : Fault)
    (h : directionCost cost m goal node edge p = .error e) :
    e = .outOfRange ∧ edge = false ∧ m.read (calculatePosIndex m p) = .error .outOfRange := by
  unfold directionCost at h
  cases edge with
  | true => simp at h
  | false =>
    simp only [Bool.false_eq_true, if_false] at h
    cases hr : m.read (calculatePosIndex m p) with
    | error e2 =>
      have he2 := read_error m _ e2 hr
      simp only [hr, Except.error.injEq] at h
      subst h
      exact ⟨he2, rfl, he2 ▸ rfl⟩
    | ok c =>
      simp only [hr] at h
      split at h <;> cases h

/-- On any input, at a state whose current node is the front of the frontier,
the loop body can only fault in a read of the maze array: a read, for a
direction whose guard is false, that lies outside the array. -/
theorem iteration_fault [LT K] [DecidableRel (fun a b : K => a < b)]
    (cost : Node → Vector2 → K) (m : Maze) (goal : Vector2) (s : State) (tl : List Node)
    (hpl : s.potential_list = s.node :: tl) (e : Fault)
    (h : iteration cost m goal s = .error e) :
    e = .outOfRange ∧ ∃ edge q, (edge, q) ∈ guards m s.node.getPos ∧ edge = false ∧
      m.read (calculatePosIndex m q) = .error .outOfRange := by
  simp only [iteration] at h
  split at h
  · next e1 hU =>
    simp only [Except.error.injEq] at h
    subst h
    obtain ⟨h1, h2, h3⟩ := directionCost_error cost m goal _ _ _ _ hU
    exact ⟨h1, _, _, by simp [guards], h2, h3⟩
  rename_i dU hU
  split at h
  · next e1 hL =>
    simp only [Except.error.injEq] at h
    subst h
    obtain ⟨h1, h2, h3⟩ := directionCost_error cost m goal _ _ _ _ hL
    exact ⟨h1, _, _, by simp [guards], h2, h3⟩
  rename_i dL hL
  split at h
  · next e1 hR =>
    simp only [Except.error.injEq] at h
    subst h
    obtain ⟨h1, h2, h3⟩ := directionCost_error cost m goal _ _ _ _ hR
    exact ⟨h1, _, _, by simp [guards], h2, h3⟩
  rename_i dR hR
  split at h
  · next e1 hD =>
    simp only [Except.error.injEq] at h
    subst h
    obtain ⟨h1, h2, h3⟩ := directionCost_error cost m goal _ _ _ _ hD
    exact ⟨h1, _, _, by simp [guards], h2, h3⟩
  rename_i dD hD
  exfalso
  generalize going s.potential_list s.explored_list dU (s.node.getPos + UP) = gU at h
  generalize going s.potential_list s.explored_list dL (s.node.getPos + LEFT) = gL at h
  generalize going s.potential_list s.explored_list dR (s.node.getPos + RIGHT) = gR at h
  generalize going s.potential_list s.explored_list dD (s.node.getPos + DOWN) = gD at h
  have hnil := kids_nil_iff gU gL gR gD s.node s.node.getPos
  have happ : pushIf gD s.node (s.node.getPos + DOWN)
      (pushIf gR s.node (s.node.getPos + RIGHT) (pushIf gL s.node (s.node.getPos + LEFT)
        (pushIf gU s.node (s.node.getPos + UP) s.potential_list))) =
      pushIf gD s.node (s.node.getPos + DOWN)
      (pushIf gR s.node (s.node.getPos + RIGHT) (pushIf gL s.node (s.node.getPos + LEFT)
        (pushIf gU s.node (s.node.getPos + UP) []))) ++ s.potential_list := by
    simp only [← pushIf_append, List.nil_append]
  rw [happ] at h
  generalize pushIf gD s.node (s.node.getPos + DOWN)
      (pushIf gR s.node (s.node.getPos + RIGHT) (pushIf gL s.node (s.node.getPos + LEFT)
        (pushIf gU s.node (s.node.getPos + UP) []))) = kids at h hnil
  split at h
  · cases h
  · cases hfe : (gU || gL || gR || gD) with
    | false =>
      have hk : kids = [] := hnil.2 hfe
      subst hk
      simp [hfe, hpl] at h
    | true =>
      have hk : kids ≠ [] := fun e => by
        have := hnil.1 e
        rw [hfe] at this
        cases this
      have hlen : (kids ++ s.potential_list).length ≠ s.potential_list.length := by
        have : 0 < kids.length := List.length_pos.2 hk
        simp only [List.length_append]
        omega
      obtain ⟨x, rest, hx, hrest⟩ : ∃ x rest, kids ++ s.potential_list = x :: rest ∧
          rest ≠ [] := by
        cases kids with
        | nil => exact absurd rfl hk
        | cons k ks => exact ⟨k, ks ++ s.potential_list, rfl, by rw [hpl]; simp⟩
      obtain ⟨k, _, hs⟩ := insertionSortByCost_shape cost goal x rest hrest
      rw [← hx] at hs
      simp [hfe, hk, hs] at h

end Faults

/-! ## Safety of the deque and of the maze array -/

section Safety

variable {K : Type} [LT K] [DecidableRel (fun a b : K => a < b)]

theorem astarLoop_no_emptyDeque (cost : Node → Vector2 → K) (m : Maze) (goal : Vector2)
    (fuel : Nat) (s : State) : astarLoop cost m goal fuel s ≠ .error .emptyDeque := by
  induction fuel generalizing s with
  | zero => rw [astarLoop]; simp
  | succ fuel ih =>
    cases hpl : s.potential_list with
    | nil => rw [astarLoop]; simp [hpl]
    | cons front tl =>
      rw [astarLoop_cons cost m goal fuel s front tl hpl]
      cases hit : iteration cost m goal
          { s with loop_count := s.loop_count + 1, node := front } with
      | error err =>
        have := (iteration_fault cost m goal
          { s with loop_count := s.loop_count + 1, node := front } tl hpl err hit).1
        simp [this]
      | ok r =>
        obtain ⟨s1, b⟩ := r
        cases b with
        | true => simp
        | false => exact ih s1

/-- C16: at the head of an iteration, in any state with a non-empty frontier
(so in every state of every run), no run from that state ever applies front or
pop_front to an empty deque or calls insertionSortByCost on an empty deque; the
loop body faults only in a read of the maze array, never in the scan of
insertionSortByCost; a pop removes the current node and records its position;
and insertionSortByCost is called on the frontier with the new children in
front, which has at least two entries. -/
theorem deque_access_safe (cost : Node → Vector2 → K) (m : Maze) (goal : Vector2) (s : State)
    (front : Node) (tl : List Node) (hpl : s.potential_list = front :: tl) :
    (∀ fuel, astarLoop cost m goal fuel s ≠ .error .emptyDeque) ∧
    (∀ e, iteration cost m goal { s with loop_count := s.loop_count + 1, node := front } =
        .error e →
      e = .outOfRange ∧ ∃ edge q, (edge, q) ∈ guards m front.getPos ∧ edge = false ∧
        m.read (calculatePosIndex m q) = .error .outOfRange) ∧
    (∀ s1 b, iteration cost m goal { s with loop_count := s.loop_count + 1, node := front } =
        .ok (s1, b) →
      (s1.numNodes = s.numNodes + 1 →
        s1.potential_list = tl ∧ s1.explored_list = s.explored_list ++ [front.getPos]) ∧
      (b = false → s1.numNodes = s.numNodes →
        ∃ kids, kids ≠ [] ∧ 2 ≤ (kids ++ s.potential_list).length ∧
          insertionSortByCost cost (kids ++ s.potential_list) goal =
            .ok s1.potential_list)) := by
  refine ⟨fun fuel => astarLoop_no_emptyDeque cost m goal fuel s, ?_, ?_⟩
  · intro e h
    exact iteration_fault cost m goal
      { s with loop_count := s.loop_count + 1, node := front } tl hpl e h
  · intro s1 b h
    obtain ⟨kids, _, _, _, _, hcase⟩ := iteration_shape cost m goal
      { s with loop_count := s.loop_count + 1, node := front } s1 b tl hpl h
    dsimp only at hcase
    rcases hcase with ⟨hb, _, _, _, h5⟩ | ⟨_, _, hk, h3, _, h5⟩ | ⟨_, _, _, h3, h4, h5⟩
    · exact ⟨fun hn => by omega, fun hf => by rw [hb] at hf; cases hf⟩
    · refine ⟨fun hn => by omega, fun _ _ => ⟨kids, hk, ?_, h3⟩⟩
      have : 0 < kids.length := List.length_pos.2 hk
      rw [hpl]
      simp only [List.length_append, List.length_cons]
      omega
    · exact ⟨fun _ => ⟨h3, h4⟩, fun _ hn => by omega⟩

/-- Every position on the parent chains of the frontier is in bounds. -/
theorem bounded_step (cost : Node → Vector2 → K) (m : Maze) (goal : Vector2)
    (s : State) (front : Node) (tl : List Node) (s1 : State) (b : Bool)
    (hB : ∀ node ∈ s.potential_list, ∀ p ∈ buildPath node, m.inBounds p)
    (hpl : s.potential_list = front :: tl)
    (hit : iteration cost m goal { s with loop_count := s.loop_count + 1, node := front } =
      .ok (s1, b)) :
    ∀ node ∈ s1.potential_list, ∀ p ∈ buildPath node, m.inBounds p := by
  obtain ⟨kids, hk, _, _, _, hcase⟩ := iteration_shape cost m goal
    { s with loop_count := s.loop_count + 1, node := front } s1 b tl hpl hit
  dsimp only at hk hcase
  have hfront : front ∈ s.potential_list := by rw [hpl]; exact List.mem_cons_self _ _
  have hfb : m.inBounds front.getPos := hB front hfront _ (getPos_mem_buildPath front)
  have hall : ∀ node ∈ kids ++ s.potential_list, ∀ p ∈ buildPath node, m.inBounds p := by
    intro node hn p hp
    rcases List.mem_append.1 hn with h | h
    · obtain ⟨edge, q, d, hg, e, hd, hgo⟩ := hk node h
      have hq := (kid_free cost m goal front hfb edge q d hg hd (going_true hgo).1).1
      rw [e, buildPath] at hp
      rcases List.mem_cons.1 hp with e2 | h2
      · exact e2 ▸ hq
      · exact hB front hfront p h2
    · exact hB node h p hp
  rcases hcase with ⟨_, _, h3, _, _⟩ | ⟨_, _, _, h3, _, _⟩ | ⟨_, _, _, h3, _, _⟩
  · rw [h3]; exact hall
  · intro node hn
    exact hall node ((insertionSortByCost_perm cost goal _ _ h3).subset hn)
  · intro node hn
    rw [h3] at hn
    exact hB node (by rw [hpl]; exact List.mem_cons_of_mem _ hn)

theorem astarLoop_no_outOfRange (cost : Node → Vector2 → K) (m : Maze) (hwf : m.wellFormed)
    (goal : Vector2) (fuel : Nat) (s : State)
    (hB : ∀ node ∈ s.potential_list, ∀ p ∈ buildPath node, m.inBounds p) :
    astarLoop cost m goal fuel s ≠ .error .outOfRange := by
  induction fuel generalizing s with
  | zero => rw [astarLoop]; simp
  | succ fuel ih =>
    cases hpl : s.potential_list with
    | nil => rw [astarLoop]; simp [hpl]
    | cons front tl =>
      rw [astarLoop_cons cost m goal fuel s front tl hpl]
      have hfb : m.inBounds front.getPos :=
        hB front (by rw [hpl]; exact List.mem_cons_self _ _) _ (getPos_mem_buildPath front)
      cases hit : iteration cost m goal
          { s with loop_count := s.loop_count + 1, node := front } with
      | error err =>
        exfalso
        obtain ⟨_, edge, q, hg, he, hr⟩ := iteration_fault cost m goal
          { s with loop_count := s.loop_count + 1, node := front } tl hpl err hit
        have hq : m.inBounds q := by
          by_contra hn
          have := (guards_iff m front.getPos hfb edge q hg).2 hn
          rw [he] at this
          cases this
        obtain ⟨c, hc, _⟩ := read_inBounds m hwf q hq
        rw [hc] at hr
        cases hr
      | ok r =>
        obtain ⟨s1, b⟩ := r
        cases b with
        | true => simp
        | false => exact ih s1 (bounded_step cost m goal s front tl s1 false hB hpl hit)

/-- C15: on a well-formed grid with an in-bounds start, every node created by
astar lies, with its whole parent chain, in bounds; at the head of every
iteration each of the four guards on the current position is true exactly when
the neighbour it protects lies outside the grid, and the maze read behind a
false guard is at the index y * cols + x of an in-bounds position and succeeds;
no run reads the maze array out of range. -/
theorem maze_reads_in_bounds (cost : Node → Vector2 → K) (m : Maze) (hwf : m.wellFormed)
    (start goal : Vector2) (hs : m.inBounds start) :
    (∀ n s, loopHead cost m goal n (initial start) = some s →
      ∀ node ∈ s.potential_list, ∀ p ∈ buildPath node, m.inBounds p) ∧
    (∀ fuel sf e, astarLoop cost m goal fuel (initial start) = .ok (sf, e) →
      ∀ node ∈ sf.potential_list, ∀ p ∈ buildPath node, m.inBounds p) ∧
    (∀ n s front tl, loopHead cost m goal n (initial start) = some s →
      s.potential_list = front :: tl → ∀ edge q, (edge, q) ∈ guards m front.getPos →
        (edge = true ↔ ¬ m.inBounds q) ∧
        (edge = false → m.inBounds q ∧ calculatePosIndex m q = q.y * m.COLS + q.x ∧
          0 ≤ calculatePosIndex m q ∧ calculatePosIndex m q < m.ROWS * m.COLS ∧
          ∃ c, m.read (calculatePosIndex m q) = .ok c)) ∧
    (∀ fuel, astarLoop cost m goal fuel (initial start) ≠ .error .outOfRange) := by
  have h0 : ∀ node ∈ (initial start).potential_list, ∀ p ∈ buildPath node, m.inBounds p := by
    intro node hn p hp
    simp only [initial, List.mem_singleton] at hn
    subst hn
    simp only [buildPath, List.mem_singleton] at hp
    exact hp ▸ hs
  have hheads : ∀ n s, loopHead cost m goal n (initial start) = some s →
      ∀ node ∈ s.potential_list, ∀ p ∈ buildPath node, m.inBounds p := fun n s h =>
    loopHead_induct cost m goal
      (fun s => ∀ node ∈ s.potential_list, ∀ p ∈ buildPath node, m.inBounds p)
      (fun s front tl s1 b hB hpl hit => bounded_step cost m goal s front tl s1 b hB hpl hit)
      n (initial start) s h0 h
  refine ⟨hheads, ?_, ?_, ?_⟩
  · intro fuel sf e h
    exact astarLoop_induct cost m goal
      (fun s => ∀ node ∈ s.potential_list, ∀ p ∈ buildPath node, m.inBounds p)
      (fun s front tl s1 b hB hpl hit => bounded_step cost m goal s front tl s1 b hB hpl hit)
      fuel (initial start) sf e h0 h
  · intro n s front tl h hpl edge q hg
    have hfb : m.inBounds front.getPos :=
      hheads n s h front (by rw [hpl]; exact List.mem_cons_self _ _) _
        (getPos_mem_buildPath front)
    have hiff := guards_iff m front.getPos hfb edge q hg
    refine ⟨hiff, fun he => ?_⟩
    have hq : m.inBounds q := by
      by_contra hn
      have := hiff.2 hn
      rw [he] at this
      cases this
    obtain ⟨c, hc, _⟩ := read_inBounds m hwf q hq
    obtain ⟨i0, i1⟩ := index_lt m q hq
    exact ⟨hq, rfl, i0, i1, c, hc⟩
  · intro fuel
    exact astarLoop_no_outOfRange cost m hwf goal fuel (initial start) h0

end Safety

/-! ## The index chosen by insertionSortByCost -/

section Index

variable {K : Type} [LT K] [DecidableRel (fun a b : K => a < b)]

theorem insertionScan_spec (cost : Node → Vector2 → K) (goal : Vector2) (x : Node)
    (list : List Node) : ∀ (n i : Nat), i + n ≤ list.length →
    ∃ k, insertionScan cost goal x list n i = .ok (list.take k ++ x :: list.drop k) ∧
      ((i ≤ k ∧ k < i + n ∧ (∀ e, list[k]? = some e → ¬ cost e goal < cost x goal) ∧
          ∀ j e, i ≤ j → j < k → list[j]? = some e → cost e goal < cost x goal) ∨
       (k = list.length ∧
          ∀ j e, i ≤ j → j < i + n → list[j]? = some e → cost e goal < cost x goal)) := by
  intro n
  induction n with
  | zero =>
    intro i _
    refine ⟨list.length, by simp [insertionScan], Or.inr ⟨rfl, ?_⟩⟩
    intro j e h1 h2
    omega
  | succ n ih =>
    intro i hi
    have hlt : i < list.length := by omega
    simp only [insertionScan, List.getElem?_eq_getElem hlt]
    by_cases hc : cost list[i] goal < cost x goal
    · simp only [hc, if_true]
      obtain ⟨k, hk, hcase⟩ := ih (i + 1) (by omega)
      refine ⟨k, hk, ?_⟩
      have hfirst : ∀ j e, i ≤ j → j < i + 1 → list[j]? = some e →
          cost e goal < cost x goal := by
        intro j e h1 h2 he
        have hj : j = i := by omega
        subst hj
        rw [List.getElem?_eq_getElem hlt, Option.some.injEq] at he
        exact he ▸ hc
      rcases hcase with ⟨h1, h2, h3, h4⟩ | ⟨h1, h4⟩
      · refine Or.inl ⟨by omega, by omega, h3, ?_⟩
        intro j e hj1 hj2 he
        by_cases hji : j < i + 1
        · exact hfirst j e hj1 hji he
        · exact h4 j e (by omega) hj2 he
      · refine Or.inr ⟨h1, ?_⟩
        intro j e hj1 hj2 he
        by_cases hji : j < i + 1
        · exact hfirst j e hj1 hji he
        · exact h4 j e (by omega) (by omega) he
    · simp only [hc, if_false]
      refine ⟨i, rfl, Or.inl ⟨le_refl _, by omega, ?_, ?_⟩⟩
      · intro e he
        rw [List.getElem?_eq_getElem hlt, Option.some.injEq] at he
        exact he ▸ hc
      · intro j e h1 h2
        omega

/-- Result of insertionSortByCost in terms of its loop bound. -/
theorem insertionSortByCost_scan (cost : Node → Vector2 → K) (goal : Vector2) (x : Node)
    (rest : List Node) (h : rest ≠ []) :
    ∃ k, insertionSortByCost cost (x :: rest) goal =
        .ok (rest.take k ++ x :: rest.drop k) ∧
      ((k < (rest.length + 2 ^ SIZE_BITS - 1) % 2 ^ SIZE_BITS ∧
          (∀ e, rest[k]? = some e → ¬ cost e goal < cost x goal) ∧
          ∀ j e, j < k → rest[j]? = some e → cost e goal < cost x goal) ∨
       (k = rest.length ∧
          ∀ j e, j < (rest.length + 2 ^ SIZE_BITS - 1) % 2 ^ SIZE_BITS →
            rest[j]? = some e → cost e goal < cost x goal)) := by
  have hpos : 0 < rest.length := List.length_pos.2 h
  have hb := sizeBound_le rest.length hpos
  obtain ⟨k, hk, hcase⟩ := insertionScan_spec cost goal x rest
    ((rest.length + 2 ^ SIZE_BITS - 1) % 2 ^ SIZE_BITS) 0 (by omega)
  refine ⟨k, by simp only [insertionSortByCost, hk], ?_⟩
  rcases hcase with ⟨_, h2, h3, h4⟩ | ⟨h1, h4⟩
  · exact Or.inl ⟨by omega, h3, fun j e hj he => h4 j e (Nat.zero_le _) hj he⟩
  · exact Or.inr ⟨h1, fun j e hj he => h4 j e (Nat.zero_le _) (by omega) he⟩

/-- C17: for every cost function and every deque x :: rest with rest not
empty (and of a size that fits size_t), insertionSortByCost returns
take k rest ++ [x] ++ drop k rest, where k is the least index below
length rest - 1 whose entry does not cost less than x, and k = length rest
when there is no such index; the last entry of rest is never compared. -/
theorem insertionSortByCost_index (cost : Node → Vector2 → K) (goal : Vector2) (x : Node)
    (rest : List Node) (h : rest ≠ []) (hsize : rest.length < 2 ^ SIZE_BITS) :
    ∃ k, insertionSortByCost cost (x :: rest) goal =
        .ok (rest.take k ++ [x] ++ rest.drop k) ∧
      ((k < rest.length - 1 ∧
          (∀ e, rest[k]? = some e → ¬ cost e goal < cost x goal) ∧
          ∀ j e, j < k → rest[j]? = some e → cost e goal < cost x goal) ∨
       (k = rest.length ∧
          ∀ j e, j < rest.length - 1 → rest[j]? = some e → cost e goal < cost x goal)) := by
  have hpos : 0 < rest.length := List.length_pos.2 h
  have hbound : (rest.length + 2 ^ SIZE_BITS - 1) % 2 ^ SIZE_BITS = rest.length - 1 := by
    have e : rest.length + 2 ^ SIZE_BITS - 1 = (rest.length - 1) + 2 ^ SIZE_BITS := by
      generalize 2 ^ SIZE_BITS = w
      omega
    rw [e, Nat.add_mod_right]
    exact Nat.mod_eq_of_lt (by omega)
  obtain ⟨k, hk, hcase⟩ := insertionSortByCost_scan cost goal x rest h
  rw [hbound] at hcase
  exact ⟨k, by simpa using hk, hcase⟩

/-- C11, as amended: the frontier is not kept in non-decreasing order of cost.
In an iteration that pushed nodes, the frontier handed to the next iteration
is the frontier with the new children in front, x :: rest, in which only x,
the child pushed last, has moved: x is pushed at the back, or it is inserted
directly in front of an entry that does not cost less than x and behind
entries that all cost strictly less than x. -/
theorem frontier_resort (cost : Node → Vector2 → K) (m : Maze) (goal : Vector2) (s : State)
    (front : Node) (tl : List Node) (s1 : State) (hpl : s.potential_list = front :: tl)
    (hit : iteration cost m goal { s with loop_count := s.loop_count + 1, node := front } =
      .ok (s1, false))
    (hnum : s1.numNodes = s.numNodes) :
    ∃ kids x rest k, kids ≠ [] ∧ (∀ c ∈ kids, c.getPrev = some front) ∧
      kids ++ s.potential_list = x :: rest ∧
      s1.potential_list = rest.take k ++ x :: rest.drop k ∧ k ≤ rest.length ∧
      (k < rest.length →
        (∀ e, rest[k]? = some e → ¬ cost e goal < cost x goal) ∧
        ∀ j e, j < k → rest[j]? = some e → cost e goal < cost x goal) := by
  obtain ⟨kids, hkids, _, _, _, hcase⟩ := iteration_shape cost m goal
    { s with loop_count := s.loop_count + 1, node := front } s1 false tl hpl hit
  dsimp only at hkids hcase
  rcases hcase with ⟨hb, _⟩ | ⟨_, _, hk, h3, _, _⟩ | ⟨_, _, _, _, _, h5⟩
  · cases hb
  · obtain ⟨x, rest, hx, hrest⟩ : ∃ x rest, kids ++ s.potential_list = x :: rest ∧
        rest ≠ [] := by
      cases kids with
      | nil => exact absurd rfl hk
      | cons c cs => exact ⟨c, cs ++ s.potential_list, rfl, by rw [hpl]; simp⟩
    obtain ⟨k, hsort, hcase⟩ := insertionSortByCost_scan cost goal x rest hrest
    rw [hx, hsort, Except.ok.injEq] at h3
    have hpos : 0 < rest.length := List.length_pos.2 hrest
    have hb := sizeBound_le rest.length hpos
    refine ⟨kids, x, rest, k, hk, ?_, hx, h3.symm, ?_, ?_⟩
    · intro c hc
      obtain ⟨_, q, _, _, e, _, _⟩ := hkids c hc
      rw [e]
      rfl
    · rcases hcase with ⟨h1, _, _⟩ | ⟨h1, _⟩ <;> omega
    · intro hlt
      rcases hcase with ⟨_, h2, h4⟩ | ⟨h1, _⟩
      · exact ⟨h2, h4⟩
      · omega
  · omega

end Index

/-! ## The explored list when the frontier runs empty -/

section Explored

variable {K : Type} [LT K] [DecidableRel (fun a b : K => a < b)]

/-- On a well-formed grid every iteration preserves the frontier invariant and
either leaves the explored list alone or appends the current position. -/
theorem good_step (cost : Node → Vector2 → K) (m : Maze) (hwf : m.wellFormed)
    (start goal : Vector2) (s : State) (front : Node) (tl : List Node) (s1 : State) (b : Bool)
    (g : Good m start goal s.potential_list s.explored_list)
    (hpl : s.potential_list = front :: tl)
    (hit : iteration cost m goal { s with loop_count := s.loop_count + 1, node := front } =
      .ok (s1, b)) :
    Good m start goal s1.potential_list s1.explored_list ∧
      ((s1.explored_list = s.explored_list ∧ s1.numNodes = s.numNodes) ∨
       (s1.explored_list = s.explored_list ++ [front.getPos] ∧
          s1.numNodes = s.numNodes + 1)) := by
  have hc := iteration_cases cost m hwf start goal
    { s with loop_count := s.loop_count + 1, node := front } tl hpl g
  dsimp only at hc
  rcases hc with ⟨_, pl, gpl, _, h2⟩ | ⟨_, pl, gpl, _, h2⟩ | ⟨_, gtl, h2⟩
  · rw [h2] at hit
    simp only [Except.ok.injEq, Prod.mk.injEq] at hit
    rw [← hit.1]
    exact ⟨gpl, Or.inl ⟨rfl, rfl⟩⟩
  · rw [h2] at hit
    simp only [Except.ok.injEq, Prod.mk.injEq] at hit
    rw [← hit.1]
    exact ⟨gpl, Or.inl ⟨rfl, rfl⟩⟩
  · rw [h2] at hit
    simp only [Except.ok.injEq, Prod.mk.injEq] at hit
    rw [← hit.1]
    exact ⟨gtl, Or.inr ⟨rfl, rfl⟩⟩

/-- C19: on a well-formed grid with an in-bounds non-wall start, whenever the
loop of astar ends with the frontier empty, the positions of the explored list
are exactly the cells reachable from start through 4-adjacent in-bounds
non-wall cells, each listed once, and the returned node count is the number of
these cells. -/
theorem explored_is_reachable_set (cost : Node → Vector2 → K) (m : Maze)
    (hwf : m.wellFormed) (start goal : Vector2) (hs : m.free start) (fuel : Nat) (sf : State)
    (h : astarLoop cost m goal fuel (initial start) = .ok (sf, .FRONTIER_EMPTY)) :
    ∃ path loops count,
      astar cost m fuel start goal = .ok (path, loops, count) ∧
      (∀ p, p ∈ sf.explored_list ↔ Reachable m start p) ∧
      sf.explored_list.Nodup ∧ count = sf.explored_list.length ∧
      Set.ncard {p | Reachable m start p} = count := by
  have hinv : Good m start goal sf.potential_list sf.explored_list ∧
      sf.numNodes = sf.explored_list.length ∧
      ∀ p ∈ sf.explored_list, Reachable m start p := by
    refine astarLoop_induct cost m goal
      (fun s => Good m start goal s.potential_list s.explored_list ∧
        s.numNodes = s.explored_list.length ∧ ∀ p ∈ s.explored_list, Reachable m start p)
      ?_ fuel (initial start) sf _ ⟨good_initial m start goal hs, rfl, by simp [initial]⟩ h
    intro s front tl s1 b hP hpl hit
    obtain ⟨g, hcount, hreach⟩ := hP
    obtain ⟨g1, hcase⟩ := good_step cost m hwf start goal s front tl s1 b g hpl hit
    have hfront : front ∈ s.potential_list := by rw [hpl]; exact List.mem_cons_self _ _
    rcases hcase with ⟨h1, h2⟩ | ⟨h1, h2⟩
    · exact ⟨g1, by rw [h1, h2]; exact hcount, by rw [h1]; exact hreach⟩
    · refine ⟨g1, by rw [h1, h2, hcount]; simp, ?_⟩
      intro p hp
      rw [h1] at hp
      rcases List.mem_append.1 hp with h3 | h3
      · exact hreach p h3
      · rw [List.mem_singleton] at h3
        rw [h3]
        exact reachable_of_node m start front (g.linked front hfront) (g.free front hfront)
  obtain ⟨g, hcount, hreach⟩ := hinv
  have hempty := astarLoop_empty cost m goal fuel (initial start) sf h
  rw [hempty] at g
  have hiff : ∀ p, p ∈ sf.explored_list ↔ Reachable m start p := fun p =>
    ⟨hreach p, fun ⟨cells, hr⟩ => g.explored_of_route p cells hr⟩
  have hnd : sf.explored_list.Nodup := by simpa using g.nodup
  refine ⟨buildPath sf.node, sf.loop_count, sf.numNodes, by simp only [astar, h], hiff, hnd,
    hcount, ?_⟩
  have hset : {p | Reachable m start p} = {p | p ∈ sf.explored_list} := by
    ext p
    exact (hiff p).symm
  rw [hset, ← List.coe_toFinset, Set.ncard_coe_Finset, List.toFinset_card_of_nodup hnd,
    hcount]

end Explored

theorem explored_is_reachable_set_witness :
    blockedMaze.wellFormed ∧ blockedMaze.free ⟨0, 0⟩ ∧
    astarLoop calculateCost blockedMaze ⟨2, 0⟩ 2 (initial ⟨0, 0⟩) =
      .ok ({ potential_list := [], explored_list := [⟨0, 0⟩], node := Node.root ⟨0, 0⟩,
             loop_count := 1, numNodes := 1 }, .FRONTIER_EMPTY) ∧
    ∃ path loops count,
      astar calculateCost blockedMaze 2 ⟨0, 0⟩ ⟨2, 0⟩ = .ok (path, loops, count) ∧
      (∀ p, p ∈ ([⟨0, 0⟩] : List Vector2) ↔ Reachable blockedMaze ⟨0, 0⟩ p) ∧
      ([⟨0, 0⟩] : List Vector2).Nodup ∧ count = ([⟨0, 0⟩] : List Vector2).length ∧
      Set.ncard {p | Reachable blockedMaze ⟨0, 0⟩ p} = count :=
  ⟨by decide, by decide, rfl,
    explored_is_reachable_set calculateCost blockedMaze (by decide) ⟨0, 0⟩ ⟨2, 0⟩ (by decide) 2
      _ rfl⟩

theorem insertionSortByCost_index_witness :
    ([Node.root ⟨1, 0⟩, Node.child (Node.child (Node.root ⟨1, 0⟩) ⟨1, 1⟩) ⟨1, 2⟩] ≠ []) ∧
    ([Node.root ⟨1, 0⟩,
      Node.child (Node.child (Node.root ⟨1, 0⟩) ⟨1, 1⟩) ⟨1, 2⟩].length < 2 ^ SIZE_BITS) ∧
    ∃ k, insertionSortByCost calculateCost
        (Node.child (Node.root ⟨1, 0⟩) ⟨2, 0⟩ ::
          [Node.root ⟨1, 0⟩, Node.child (Node.child (Node.root ⟨1, 0⟩) ⟨1, 1⟩) ⟨1, 2⟩])
        ⟨0, 0⟩ =
        .ok (List.take k
            [Node.root ⟨1, 0⟩, Node.child (Node.child (Node.root ⟨1, 0⟩) ⟨1, 1⟩) ⟨1, 2⟩] ++
          [Node.child (Node.root ⟨1, 0⟩) ⟨2, 0⟩] ++
          List.drop k
            [Node.root ⟨1, 0⟩, Node.child (Node.child (Node.root ⟨1, 0⟩) ⟨1, 1⟩) ⟨1, 2⟩]) ∧
      ((k < [Node.root ⟨1, 0⟩,
            Node.child (Node.child (Node.root ⟨1, 0⟩) ⟨1, 1⟩) ⟨1, 2⟩].length - 1 ∧
          (∀ e, [Node.root ⟨1, 0⟩,
              Node.child (Node.child (Node.root ⟨1, 0⟩) ⟨1, 1⟩) ⟨1, 2⟩][k]? = some e →
            ¬ calculateCost e ⟨0, 0⟩ <
              calculateCost (Node.child (Node.root ⟨1, 0⟩) ⟨2, 0⟩) ⟨0, 0⟩) ∧
          ∀ j e, j < k → [Node.root ⟨1, 0⟩,
              Node.child (Node.child (Node.root ⟨1, 0⟩) ⟨1, 1⟩) ⟨1, 2⟩][j]? = some e →
            calculateCost e ⟨0, 0⟩ <
              calculateCost (Node.child (Node.root ⟨1, 0⟩) ⟨2, 0⟩) ⟨0, 0⟩) ∨
       (k = [Node.root ⟨1, 0⟩,
            Node.child (Node.child (Node.root ⟨1, 0⟩) ⟨1, 1⟩) ⟨1, 2⟩].length ∧
          ∀ j e, j < [Node.root ⟨1, 0⟩,
              Node.child (Node.child (Node.root ⟨1, 0⟩) ⟨1, 1⟩) ⟨1, 2⟩].length - 1 →
            [Node.root ⟨1, 0⟩,
              Node.child (Node.child (Node.root ⟨1, 0⟩) ⟨1, 1⟩) ⟨1, 2⟩][j]? = some e →
            calculateCost e ⟨0, 0⟩ <
              calculateCost (Node.child (Node.root ⟨1, 0⟩) ⟨2, 0⟩) ⟨0, 0⟩)) :=
  ⟨by decide, by decide,
    insertionSortByCost_index calculateCost ⟨0, 0⟩ (Node.child (Node.root ⟨1, 0⟩) ⟨2, 0⟩)
      [Node.root ⟨1, 0⟩, Node.child (Node.child (Node.root ⟨1, 0⟩) ⟨1, 1⟩) ⟨1, 2⟩]
      (by decide) (by decide)⟩

/-! ## The search with a set of generated positions is the same search -/

section Simulation

variable {K : Type}

/-- On any input the filter of AStar.cpp 155-174 rejects a position exactly
when it is the position of a frontier node or is explored. -/
theorem Tree.filter_iff {start : Vector2} {pl : List Node} {el : List Vector2}
    (t : Tree start pl el) (p : Vector2) :
    (haveAnyNodesExplored pl p = true ∨ isPosInVector p el = true) ↔
      (p ∈ pl.map Node.getPos ∨ p ∈ el) := by
  rw [haveAnyNodesExplored_iff, isPosInVector_iff]
  constructor
  · rintro (⟨n, hn, hp⟩ | h)
    · obtain ⟨k, a, h1, h2⟩ := (mem_buildPath_iff n p).1 hp
      rcases t.anc n hn k a h1 with h3 | h3
      · exact Or.inl (List.mem_map.2 ⟨a, h3, h2⟩)
      · exact Or.inr (h2 ▸ h3)
    · exact Or.inr h
  · rintro (h | h)
    · obtain ⟨n, hn, e⟩ := List.mem_map.1 h
      exact Or.inl ⟨n, hn, e ▸ getPos_mem_buildPath n⟩
    · exact Or.inr h

theorem goingSet_eq {start : Vector2} {pl : List Node} {el : List Vector2}
    (t : Tree start pl el) (gen : List Vector2)
    (hgen : ∀ p, p ∈ gen ↔ p ∈ pl.map Node.getPos ∨ p ∈ el) (d : Option K) (q : Vector2) :
    goingSet gen d q = going pl el d q := by
  have h1 := t.filter_iff q
  have h2 := isPosInVector_iff q gen
  have h3 := hgen q
  have key : isPosInVector q gen = (haveAnyNodesExplored pl q || isPosInVector q el) := by
    rw [Bool.eq_iff_iff, Bool.or_eq_true, h2, h3]
    exact h1.symm
  unfold goingSet going
  rw [key, Bool.not_or]

theorem mem_recordIf (b : Bool) (q : Vector2) (g : List Vector2) (p : Vector2) :
    p ∈ recordIf b q g ↔ (b = true ∧ p = q) ∨ p ∈ g := by
  cases b <;> simp [recordIf]

theorem pos_mem_pushIf_iff (b : Bool) (node : Node) (q : Vector2) (l : List Node)
    (p : Vector2) :
    p ∈ (pushIf b node q l).map Node.getPos ↔ (b = true ∧ p = q) ∨ p ∈ l.map Node.getPos := by
  cases b <;> simp [pushIf, Node.getPos]

end Simulation

section Refinement

variable {K : Type} [LT K] [DecidableRel (fun a b : K => a < b)]

theorem iterationSet_base (cost : Node → Vector2 → K) (m : Maze) (goal start : Vector2)
    (s : State) (gen : List Vector2)
    (t : Tree start s.potential_list s.explored_list)
    (hgen : ∀ p, p ∈ gen ↔ p ∈ s.potential_list.map Node.getPos ∨ p ∈ s.explored_list) :
    Except.map (fun r => (r.1.base, r.2)) (iterationSet cost m goal ⟨s, gen⟩) =
      iteration cost m goal s := by
  simp only [iterationSet, iteration, goingSet_eq t gen hgen]
  cases directionCost cost m goal s.node (decide (s.node.getPos.y ≤ 0)) (s.node.getPos + UP) with
  | error e => rfl
  | ok dU =>
  cases directionCost cost m goal s.node (decide (s.node.getPos.x ≤ 0))
      (s.node.getPos + LEFT) with
  | error e => rfl
  | ok dL =>
  cases directionCost cost m goal s.node (decide (s.node.getPos.x ≥ m.COLS - 1))
      (s.node.getPos + RIGHT) with
  | error e => rfl
  | ok dR =>
  cases directionCost cost m goal s.node (decide (s.node.getPos.y ≥ m.ROWS - 1))
      (s.node.getPos + DOWN) with
  | error e => rfl
  | ok dD =>
  dsimp only
  split
  · rfl
  · split
    · rfl
    · split
      · split
        · rfl
        · rfl
      · rfl

theorem iterationSet_generated (cost : Node → Vector2 → K) (m : Maze) (goal : Vector2)
    (s : State) (gen : List Vector2) (tl : List Node) (ss1 : SetState) (b : Bool)
    (hpl : s.potential_list = s.node :: tl)
    (hgen : ∀ p, p ∈ gen ↔ p ∈ s.potential_list.map Node.getPos ∨ p ∈ s.explored_list)
    (h : iterationSet cost m goal ⟨s, gen⟩ = .ok (ss1, b)) :
    ∀ p, p ∈ ss1.generated ↔
      p ∈ ss1.base.potential_list.map Node.getPos ∨ p ∈ ss1.base.explored_list := by
  simp only [iterationSet] at h
  split at h
  · cases h
  rename_i dU hU
  split at h
  · cases h
  rename_i dL hL
  split at h
  · cases h
  rename_i dR hR
  split at h
  · cases h
  rename_i dD hD
  generalize goingSet gen dU (s.node.getPos + UP) = gU at h
  generalize goingSet gen dL (s.node.getPos + LEFT) = gL at h
  generalize goingSet gen dR (s.node.getPos + RIGHT) = gR at h
  generalize goingSet gen dD (s.node.getPos + DOWN) = gD at h
  have hA : ∀ p, p ∈ recordIf gD (s.node.getPos + DOWN) (recordIf gR (s.node.getPos + RIGHT)
        (recordIf gL (s.node.getPos + LEFT) (recordIf gU (s.node.getPos + UP) gen))) ↔
      p ∈ (pushIf gD s.node (s.node.getPos + DOWN)
        (pushIf gR s.node (s.node.getPos + RIGHT) (pushIf gL s.node (s.node.getPos + LEFT)
          (pushIf gU s.node (s.node.getPos + UP) s.potential_list)))).map Node.getPos ∨
        p ∈ s.explored_list := by
    intro p
    simp only [mem_recordIf, pos_mem_pushIf_iff, hgen p]
    tauto
  have hsame : (gU || gL || gR || gD) = false →
      pushIf gD s.node (s.node.getPos + DOWN) (pushIf gR s.node (s.node.getPos + RIGHT)
      (pushIf gL s.node (s.node.getPos + LEFT)
        (pushIf gU s.node (s.node.getPos + UP) s.potential_list))) = s.potential_list := by
    intro h
    simp only [Bool.or_eq_false_iff] at h
    obtain ⟨⟨⟨h1, h2⟩, h3⟩, h4⟩ := h
    simp [h1, h2, h3, h4, pushIf]
  generalize recordIf gD (s.node.getPos + DOWN) (recordIf gR (s.node.getPos + RIGHT)
        (recordIf gL (s.node.getPos + LEFT) (recordIf gU (s.node.getPos + UP) gen))) = gen4
    at h hA
  generalize pushIf gD s.node (s.node.getPos + DOWN)
        (pushIf gR s.node (s.node.getPos + RIGHT) (pushIf gL s.node (s.node.getPos + LEFT)
          (pushIf gU s.node (s.node.getPos + UP) s.potential_list))) = pl4 at h hA hsame
  split at h
  · simp only [Except.ok.injEq, Prod.mk.injEq] at h
    rw [← h.1]
    exact hA
  · split at h
    · cases h
    · next pl5 hsort =>
      have hperm : pl5.Perm pl4 := by
        split at hsort
        · exact insertionSortByCost_perm cost goal pl4 pl5 hsort
        · simp only [Except.ok.injEq] at hsort
          rw [hsort]
      have hB : ∀ p, p ∈ gen4 ↔ p ∈ pl5.map Node.getPos ∨ p ∈ s.explored_list := by
        intro p
        rw [hA p, (hperm.map Node.getPos).mem_iff]
      split at h
      · next hfe =>
        have hfe2 : (gU || gL || gR || gD) = false := by simpa using hfe
        have h4 := hsame hfe2
        subst h4
        simp only [ne_eq, not_true_eq_false, if_false, Except.ok.injEq] at hsort
        subst hsort
        rw [hpl] at h
        simp only [Except.ok.injEq, Prod.mk.injEq] at h
        rw [← h.1]
        intro p
        rw [hB p, hpl]
        simp only [List.map_cons, List.mem_cons, List.mem_append, List.mem_singleton]
        tauto
      · simp only [Except.ok.injEq, Prod.mk.injEq] at h
        rw [← h.1]
        exact hB

theorem astarLoopSet_cons (cost : Node → Vector2 → K) (m : Maze) (goal : Vector2)
    (fuel : Nat) (ss : SetState) (front : Node) (tl : List Node)
    (h : ss.base.potential_list = front :: tl) :
    astarLoopSet cost m goal (fuel + 1) ss =
      match iterationSet cost m goal
          { ss with base := { ss.base with loop_count := ss.base.loop_count + 1,
                                           node := front } } with
      | .error e => .error e
      | .ok (s1, true) => .ok (s1, .GOAL_FOUND)
      | .ok (s1, false) => astarLoopSet cost m goal fuel s1 := by
  rw [astarLoopSet]
  split
  · next h2 => rw [h] at h2; cases h2
  · next f t h2 =>
    rw [h] at h2
    cases h2
    rfl

/-- The loop of the second version goes through the same states as the loop of
`astar`, with the same exit or the same fault. -/
theorem astarLoopSet_base (cost : Node → Vector2 → K) (m : Maze) (goal start : Vector2)
    (fuel : Nat) (s : State) (gen : List Vector2) (w : Walk start s)
    (hgen : ∀ p, p ∈ gen ↔ p ∈ s.potential_list.map Node.getPos ∨ p ∈ s.explored_list) :
    Except.map (fun r => (r.1.base, r.2)) (astarLoopSet cost m goal fuel ⟨s, gen⟩) =
      astarLoop cost m goal fuel s := by
  induction fuel generalizing s gen with
  | zero => rfl
  | succ fuel ih =>
    cases hpl : s.potential_list with
    | nil =>
      rw [astarLoop, astarLoopSet]
      simp only [hpl]
      rfl
    | cons front tl =>
      rw [astarLoop_cons cost m goal fuel s front tl hpl,
        astarLoopSet_cons cost m goal fuel ⟨s, gen⟩ front tl hpl]
      have hb := iterationSet_base cost m goal start
        { s with loop_count := s.loop_count + 1, node := front } gen w.tree hgen
      cases hit : iterationSet cost m goal
          ⟨{ s with loop_count := s.loop_count + 1, node := front }, gen⟩ with
      | error e =>
        rw [hit] at hb
        simp only [Except.map] at hb
        simp only [← hb]
        rfl
      | ok r =>
        obtain ⟨ss1, b⟩ := r
        have hg := iterationSet_generated cost m goal
          { s with loop_count := s.loop_count + 1, node := front } gen tl ss1 b hpl hgen hit
        rw [hit] at hb
        simp only [Except.map] at hb
        simp only [← hb]
        cases b with
        | true => rfl
        | false =>
          have w1 := walk_step cost m goal start s front tl ss1.base false w hpl hb.symm
          exact ih ss1.base ss1.generated w1 hg

/-- C18: on any input, at the head of every iteration of the loop of astar
every node met along the parent links of a frontier node is itself a frontier
node or has its position in the explored list, so the candidate filter is true
of a position exactly when it is the position of a frontier node or is
explored; and the search that keeps a plain set of the generated positions in
place of the walk over the parent chains goes through the same states and
returns the same frontier, path and counters, or the same fault. -/
theorem generated_set_refines (cost : Node → Vector2 → K) (m : Maze)
    (start goal : Vector2) :
    (∀ n s, loopHead cost m goal n (initial start) = some s →
      (∀ node ∈ s.potential_list, ∀ k a, Node.follow k node = some a →
        a ∈ s.potential_list ∨ a.getPos ∈ s.explored_list) ∧
      (∀ p, (haveAnyNodesExplored s.potential_list p = true ∨
          isPosInVector p s.explored_list = true) ↔
        (p ∈ s.potential_list.map Node.getPos ∨ p ∈ s.explored_list))) ∧
    (∀ fuel, Except.map (fun r => (r.1.base, r.2))
        (astarLoopSet cost m goal fuel { base := initial start, generated := [start] }) =
      astarLoop cost m goal fuel (initial start)) ∧
    (∀ fuel, Except.map (fun r => r.2) (astarSet cost m fuel start goal) =
      astar cost m fuel start goal) := by
  have hloop : ∀ fuel, Except.map (fun r => (r.1.base, r.2))
        (astarLoopSet cost m goal fuel { base := initial start, generated := [start] }) =
      astarLoop cost m goal fuel (initial start) := fun fuel =>
    astarLoopSet_base cost m goal start fuel (initial start) [start] (walk_initial start)
      (by intro p; simp [initial, Node.getPos])
  refine ⟨?_, hloop, ?_⟩
  · intro n s h
    have w := loopHead_walk cost m goal start n s h
    exact ⟨w.tree.anc, w.tree.filter_iff⟩
  · intro fuel
    have h := hloop fuel
    simp only [astarSet, astar]
    cases hs : astarLoopSet cost m goal fuel { base := initial start, generated := [start] } with
    | error e =>
      rw [hs] at h
      simp only [Except.map] at h
      simp only [← h]
      rfl
    | ok r =>
      rw [hs] at h
      simp only [Except.map] at h
      simp only [← h]
      rfl

end Refinement

theorem generated_set_refines_witness :
    loopHead calculateCost (openMaze 2 2) ⟨1, 1⟩ 1 (initial ⟨0, 0⟩) =
      some { potential_list := [Node.child (Node.root ⟨0, 0⟩) ⟨0, 1⟩,
               Node.child (Node.root ⟨0, 0⟩) ⟨1, 0⟩, Node.root ⟨0, 0⟩],
             explored_list := [], node := Node.root ⟨0, 0⟩, loop_count := 1, numNodes := 0 } ∧
    (∀ p, (haveAnyNodesExplored [Node.child (Node.root ⟨0, 0⟩) ⟨0, 1⟩,
            Node.child (Node.root ⟨0, 0⟩) ⟨1, 0⟩, Node.root ⟨0, 0⟩] p = true ∨
          isPosInVector p [] = true) ↔
        (p ∈ [Node.child (Node.root ⟨0, 0⟩) ⟨0, 1⟩,
            Node.child (Node.root ⟨0, 0⟩) ⟨1, 0⟩, Node.root ⟨0, 0⟩].map Node.getPos ∨
          p ∈ ([] : List Vector2))) ∧
    Except.map (fun r => r.2) (astarSet calculateCost (openMaze 2 2) 8 ⟨0, 0⟩ ⟨1, 1⟩) =
      astar calculateCost (openMaze 2 2) 8 ⟨0, 0⟩ ⟨1, 1⟩ :=
  ⟨rfl,
    ((generated_set_refines calculateCost (openMaze 2 2) ⟨0, 0⟩ ⟨1, 1⟩).1 1 _ rfl).2,
    (generated_set_refines calculateCost (openMaze 2 2) ⟨0, 0⟩ ⟨1, 1⟩).2.2 8⟩

/-! ## Instances of the further properties -/

/-- C11 fails as stated: on the 2x2 grid without walls, from (0,0) to (1,1),
the frontier at the head of the second iteration holds the two children, of
cost 2 each, in front of the start node, of cost sqrt 2. -/
theorem frontier_unsorted :
    loopHead calculateCost (openMaze 2 2) ⟨1, 1⟩ 1 (initial ⟨0, 0⟩) =
      some { potential_list := [Node.child (Node.root ⟨0, 0⟩) ⟨0, 1⟩,
               Node.child (Node.root ⟨0, 0⟩) ⟨1, 0⟩, Node.root ⟨0, 0⟩],
             explored_list := [], node := Node.root ⟨0, 0⟩, loop_count := 1, numNodes := 0 } ∧
    ¬ SortedByCost calculateCost ⟨1, 1⟩
      [Node.child (Node.root ⟨0, 0⟩) ⟨0, 1⟩, Node.child (Node.root ⟨0, 0⟩) ⟨1, 0⟩,
        Node.root ⟨0, 0⟩] :=
  ⟨rfl, by decide⟩

theorem frontier_resort_witness :
    (initial ⟨0, 0⟩).potential_list = Node.root ⟨0, 0⟩ :: [] ∧
    iteration calculateCost (openMaze 2 2) ⟨1, 1⟩
        { initial ⟨0, 0⟩ with loop_count := (initial ⟨0, 0⟩).loop_count + 1,
                              node := Node.root ⟨0, 0⟩ } =
      .ok ({ potential_list := [Node.child (Node.root ⟨0, 0⟩) ⟨0, 1⟩,
               Node.child (Node.root ⟨0, 0⟩) ⟨1, 0⟩, Node.root ⟨0, 0⟩],
             explored_list := [], node := Node.root ⟨0, 0⟩, loop_count := 1, numNodes := 0 },
           false) ∧
    ∃ kids x rest k, kids ≠ [] ∧ (∀ c ∈ kids, c.getPrev = some (Node.root ⟨0, 0⟩)) ∧
      kids ++ (initial ⟨0, 0⟩).potential_list = x :: rest ∧
      [Node.child (Node.root ⟨0, 0⟩) ⟨0, 1⟩, Node.child (Node.root ⟨0, 0⟩) ⟨1, 0⟩,
        Node.root ⟨0, 0⟩] = rest.take k ++ x :: rest.drop k ∧ k ≤ rest.length ∧
      (k < rest.length →
        (∀ e, rest[k]? = some e →
          ¬ calculateCost e ⟨1, 1⟩ < calculateCost x ⟨1, 1⟩) ∧
        ∀ j e, j < k → rest[j]? = some e →
          calculateCost e ⟨1, 1⟩ < calculateCost x ⟨1, 1⟩) :=
  ⟨rfl, rfl,
    frontier_resort calculateCost (openMaze 2 2) ⟨1, 1⟩ (initial ⟨0, 0⟩) (Node.root ⟨0, 0⟩) []
      _ rfl rfl rfl⟩

theorem deque_access_safe_witness :
    (initial ⟨0, 0⟩).potential_list = Node.root ⟨0, 0⟩ :: [] ∧
    (∀ fuel, astarLoop calculateCost detourMaze ⟨2, 0⟩ fuel (initial ⟨0, 0⟩) ≠
      .error .emptyDeque) ∧
    (∀ e, iteration calculateCost detourMaze ⟨2, 0⟩
        { initial ⟨0, 0⟩ with loop_count := (initial ⟨0, 0⟩).loop_count + 1,
                              node := Node.root ⟨0, 0⟩ } = .error e →
      e = .outOfRange ∧ ∃ edge q, (edge, q) ∈ guards detourMaze (Node.root ⟨0, 0⟩).getPos ∧
        edge = false ∧
        detourMaze.read (calculatePosIndex detourMaze q) = .error .outOfRange) ∧
    (∀ s1 b, iteration calculateCost detourMaze ⟨2, 0⟩
        { initial ⟨0, 0⟩ with loop_count := (initial ⟨0, 0⟩).loop_count + 1,
                              node := Node.root ⟨0, 0⟩ } = .ok (s1, b) →
      (s1.numNodes = (initial ⟨0, 0⟩).numNodes + 1 →
        s1.potential_list = [] ∧
        s1.explored_list = (initial ⟨0, 0⟩).explored_list ++ [(Node.root ⟨0, 0⟩).getPos]) ∧
      (b = false → s1.numNodes = (initial ⟨0, 0⟩).numNodes →
        ∃ kids, kids ≠ [] ∧ 2 ≤ (kids ++ (initial ⟨0, 0⟩).potential_list).length ∧
          insertionSortByCost calculateCost (kids ++ (initial ⟨0, 0⟩).potential_list) ⟨2, 0⟩ =
            .ok s1.potential_list)) :=
  ⟨rfl,
    deque_access_safe calculateCost detourMaze ⟨2, 0⟩ (initial ⟨0, 0⟩) (Node.root ⟨0, 0⟩) []
      rfl⟩

theorem maze_reads_in_bounds_witness :
    detourMaze.wellFormed ∧ detourMaze.inBounds ⟨0, 0⟩ ∧
    (∀ n s, loopHead calculateCost detourMaze ⟨2, 0⟩ n (initial ⟨0, 0⟩) = some s →
      ∀ node ∈ s.potential_list, ∀ p ∈ buildPath node, detourMaze.inBounds p) ∧
    (∀ fuel sf e, astarLoop calculateCost detourMaze ⟨2, 0⟩ fuel (initial ⟨0, 0⟩) =
        .ok (sf, e) →
      ∀ node ∈ sf.potential_list, ∀ p ∈ buildPath node, detourMaze.inBounds p) ∧
    (∀ n s front tl, loopHead calculateCost detourMaze ⟨2, 0⟩ n (initial ⟨0, 0⟩) = some s →
      s.potential_list = front :: tl → ∀ edge q, (edge, q) ∈ guards detourMaze front.getPos →
        (edge = true ↔ ¬ detourMaze.inBounds q) ∧
        (edge = false → detourMaze.inBounds q ∧
          calculatePosIndex detourMaze q = q.y * detourMaze.COLS + q.x ∧
          0 ≤ calculatePosIndex detourMaze q ∧
          calculatePosIndex detourMaze q < detourMaze.ROWS * detourMaze.COLS ∧
          ∃ c, detourMaze.read (calculatePosIndex detourMaze q) = .ok c)) ∧
    (∀ fuel, astarLoop calculateCost detourMaze ⟨2, 0⟩ fuel (initial ⟨0, 0⟩) ≠
      .error .outOfRange) :=
  ⟨by decide, by decide,
    maze_reads_in_bounds calculateCost detourMaze (by decide) ⟨0, 0⟩ ⟨2, 0⟩ (by decide)⟩

end AStar
